import Mathlib

/-!
# zenodb: follower partitioning, memory cap, sequences and the dataflow layer

A shallow embedding of `DB.Follow` (src/cluster.go), of `DB.capMemStoreSize`
(src/zenodb.go), of the crosstab transform (src/core/crosstab.go) and of the serial and
parallel stages (src/core/core.go), with the sequence operations of section 4.3 of the
specification (exercised by src/seq_test.go), together with the properties the
specification states about them.

Conventions of the embedding:

* a byte slice is a list of naturals below 256, a Go string is a Lean `String`;
* Go's `int` is the 64-bit integer of the amd64 port;
* a `float64` is an IEEE 754 binary64 value and `+` on it is the addition rounded to
  nearest, ties to even; the option `MaxMemoryRatio`, a finite `float64`, is the
  rational number it denotes;
* a callback is a function that threads the caller's state explicitly, and every
  run also returns the list of callback invocations it made, in order;
* the goroutines of a parallel stage are followed through an explicit schedule;
* library code that the repository only imports (the murmur3 hash, the byte-map
  accessors, the WAL reader, `sort.Sort`) is a parameter of the definitions; the
  examples instantiate it with the hash and the byte-map layout of those libraries.
-/

namespace Zenodb

/-! ## Common types -/

/-- A byte slice. -/
abbrev Bytes := List Nat

/-- Go error values: the sentinel `ErrDeadlineExceeded` of core.go and any other error. -/
inductive GoError where
  | ErrDeadlineExceeded
  | custom (id : Nat)
  deriving DecidableEq, Repr

/-- The byte-map accessors of the imported bytemap library that the code consumes,
as functions on the raw encoding. `Contains` is membership in the key directory. -/
structure ByteMapLib where
  GetBytes : Bytes → String → Bytes
  Contains : Bytes → String → Bool

/-! ## The type `float64`

The values of IEEE 754 binary64: a finite value is `(-1)^neg * mant * 2^exp` with
`mant < 2^53` and `-1074 <= exp <= 971`, the mantissa being at least `2^52` unless the
exponent is `-1074` (zeros and subnormal numbers). -/

/-- The number of binary digits of `m`, for `m <= fuel`. -/
def bitLength : Nat → Nat → Nat
  | 0, _ => 0
  | fuel + 1, m => if m = 0 then 0 else bitLength fuel (m / 2) + 1

/-- A value of Go's type `float64`. -/
inductive float64 where
  | finite (neg : Bool) (mant : Nat) (exp : Int)
  | inf (neg : Bool)
  | nan
  deriving DecidableEq, Repr

namespace float64

/-- The exponent of the zeros and of the subnormal numbers. -/
def minExp : Int := -1074

/-- The largest exponent of a finite value. -/
def maxExp : Int := 971

/-- The zero of the given sign. -/
def zero (neg : Bool) : float64 :=
  .finite neg 0 minExp

/-- The value of mantissa `q <= 2^53` at exponent `e`, renormalised when the mantissa
is `2^53`; a value beyond the largest finite one is an infinity. -/
def pack (neg : Bool) (q : Nat) (e : Int) : float64 :=
  if q = 2 ^ 53 then (if e + 1 > maxExp then .inf neg else .finite neg (2 ^ 52) (e + 1))
  else if e > maxExp then .inf neg
  else .finite neg q e

/-- The `float64` nearest to `(-1)^neg * m * 2^e`, ties going to the even mantissa. -/
def round (neg : Bool) (m : Nat) (e : Int) : float64 :=
  if m = 0 then zero neg
  else
    let e1 := max (e + (bitLength m m : Int) - 53) minExp
    if e1 ≤ e then pack neg (m * 2 ^ (e - e1).toNat) e1
    else
      let s := (e1 - e).toNat
      let q := m / 2 ^ s
      let r := m % 2 ^ s
      let half := 2 ^ (s - 1)
      if r > half ∨ (r = half ∧ q % 2 = 1) then pack neg (q + 1) e1 else pack neg q e1

/-- The integer `(-1)^neg * m`. -/
def signed (neg : Bool) (m : Nat) : Int :=
  if neg then -(m : Int) else (m : Int)

/-- Go's `x + y` on `float64`. -/
def add : float64 → float64 → float64
  | .nan, _ => .nan
  | _, .nan => .nan
  | .inf a, .inf b => if a = b then .inf a else .nan
  | .inf a, .finite _ _ _ => .inf a
  | .finite _ _ _, .inf b => .inf b
  | .finite s1 m1 e1, .finite s2 m2 e2 =>
    if m1 = 0 ∧ m2 = 0 then zero (s1 && s2)
    else if m1 = 0 then .finite s2 m2 e2
    else if m2 = 0 then .finite s1 m1 e1
    else
      let e := min e1 e2
      let sum := signed s1 m1 * 2 ^ (e1 - e).toNat + signed s2 m2 * 2 ^ (e2 - e).toNat
      if sum = 0 then zero false else round (decide (sum < 0)) sum.natAbs e

/-- The conversion `float64(n)` of a non-negative integer constant. -/
def ofNat (n : Nat) : float64 :=
  round false n 0

instance (n : Nat) : OfNat float64 n := ⟨ofNat n⟩

/-- The sum `((0 + x1) + x2) + ...` of a list of values, accumulated in list order. -/
def sum (l : List float64) : float64 :=
  l.foldl add 0

end float64

/-! ## Encoding primitives -/

namespace encoding

/-- The width of a 64-bit value, in bytes. -/
def Width64bits : Nat := 8

/-- Modelled from the spec: `encoding.Read` is not among the sources; by section 4.1
every read returns the consumed portion and the unconsumed tail. -/
def Read (b : Bytes) (n : Nat) : Bytes × Bytes :=
  (b.take n, b.drop n)

/-- Big-endian value of a byte list. -/
def bigEndian (b : Bytes) : Nat :=
  b.foldl (fun acc x => acc * 256 + x % 256) 0

/-- Modelled from the spec: `encoding.ReadInt32` is not among the sources; by sections
4.1 and 6 a length is a 32-bit big-endian number, returned with the unconsumed tail. -/
def ReadInt32 (b : Bytes) : Nat × Bytes :=
  (bigEndian (b.take 4), b.drop 4)

end encoding
/-! ## Cluster: following a stream (src/cluster.go) -/

/-- The follow descriptor. -/
structure Follow where
  Stream : String
  Offset : Nat
  Partition : Int

/-- The options of `DBOpts` that `DB.Follow` reads. -/
structure DBOpts where
  PartitionBy : List String
  NumPartitions : Int

/-- One result of `r.Read()`: an error, or the data (possibly nil) together with the
reader's offset after the read. -/
inductive ReadResult where
  | failed
  | entry (data : Option Bytes) (offset : Nat)

/-- How a run of `DB.Follow` over a finite prefix of the log ends: it is still in its
loop, it returned the callback's error, or it panicked on a division by zero. -/
inductive FollowStatus where
  | reading
  | returned (err : GoError)
  | panicked
  deriving DecidableEq, Repr

/-- Conversion `int(x)` of a `uint32` to the 64-bit `int`. -/
def intOfUint32 (x : Nat) : Int :=
  let v : Nat := (x % 2 ^ 32) % 2 ^ 64
  if v < 2 ^ 63 then (v : Int) else (v : Int) - 2 ^ 64

/-- Go's `a % b` on `int`: truncated remainder, a panic (`none`) when `b = 0`. -/
def goRem (a b : Int) : Option Int :=
  if b = 0 then none else some (Int.tmod a b)

/-- Lines 50-53: skip the timestamp, read the dims length, read the dims. -/
def entryDims (data : Bytes) : Bytes :=
  let remain := (encoding.Read data encoding.Width64bits).2
  let (dimsLen, remain) := encoding.ReadInt32 remain
  (encoding.Read remain dimsLen).1

/-- Lines 55-63: the loop over `PartitionBy`, started with the default (all dims). -/
def partitionData (lib : ByteMapLib) (PartitionBy : List String) (dims : Bytes) : Bytes :=
  match PartitionBy with
  | [] => dims
  | dim :: rest =>
    let candidate := lib.GetBytes dims dim
    if candidate.length > 0 then candidate else partitionData lib rest dims

/-- Lines 64-66: `int(h.Sum32()) % NumPartitions` over the partition data of an entry. -/
def entryPartition (lib : ByteMapLib) (murmur3_32 : Bytes → Nat) (opts : DBOpts)
    (data : Bytes) : Option Int :=
  goRem (intOfUint32 (murmur3_32 (partitionData lib opts.PartitionBy (entryDims data))))
    opts.NumPartitions

/-- The state of a run of `DB.Follow`: the caller's state, the invocations of `cb`
made so far (oldest first) and the status. -/
structure FollowRun (σ : Type) where
  st : σ
  calls : List (Bytes × Nat)
  status : FollowStatus

/-- One turn of the loop of `DB.Follow` (lines 40-72). -/
def DB.followStep {σ : Type} (lib : ByteMapLib) (murmur3_32 : Bytes → Nat) (opts : DBOpts)
    (f : Follow) (cb : σ → Bytes → Nat → σ × Option GoError)
    (run : FollowRun σ) (r : ReadResult) : FollowRun σ :=
  match run.status with
  | .reading =>
    match r with
    | .failed => run
    | .entry none _ => run
    | .entry (some data) offset =>
      match entryPartition lib murmur3_32 opts data with
      | none => { run with status := .panicked }
      | some part =>
        if part = f.Partition then
          let (st, err) := cb run.st data offset
          match err with
          | some e => { st := st, calls := run.calls ++ [(data, offset)], status := .returned e }
          | none => { st := st, calls := run.calls ++ [(data, offset)], status := .reading }
        else run
  | _ => run

/-- The loop of `DB.Follow` over the results that the WAL reader delivers. -/
def DB.Follow {σ : Type} (lib : ByteMapLib) (murmur3_32 : Bytes → Nat) (opts : DBOpts)
    (f : Follow) (cb : σ → Bytes → Nat → σ × Option GoError)
    (reads : List ReadResult) (st : σ) : FollowRun σ :=
  reads.foldl (DB.followStep lib murmur3_32 opts f cb) { st := st, calls := [], status := .reading }

/-- The partition of an entry in the words of the specification:
`murmur3_32(partition_bytes) mod NumPartitions`, the hash being a 32-bit number. -/
def partitionSpec (murmur3_32 : Bytes → Nat) (lib : ByteMapLib) (opts : DBOpts)
    (data : Bytes) : Int :=
  ((murmur3_32 (partitionData lib opts.PartitionBy (entryDims data)) % 2 ^ 32 : Nat) : Int)
    % opts.NumPartitions

/-- The entries of the log that are not nil and whose hash partition is `p`. -/
def acceptedEntries (murmur3_32 : Bytes → Nat) (lib : ByteMapLib) (opts : DBOpts) (p : Int) :
    List ReadResult → List (Bytes × Nat)
  | [] => []
  | .failed :: rest => acceptedEntries murmur3_32 lib opts p rest
  | .entry none _ :: rest => acceptedEntries murmur3_32 lib opts p rest
  | .entry (some data) offset :: rest =>
    if partitionSpec murmur3_32 lib opts data = p then
      (data, offset) :: acceptedEntries murmur3_32 lib opts p rest
    else acceptedEntries murmur3_32 lib opts p rest

/-- The selection of partition bytes in the words of the specification: the value of the
first dimension of `PartitionBy` that is present in the dims, else the full dims. -/
def partitionBytesSpec (lib : ByteMapLib) (PartitionBy : List String) (dims : Bytes) : Bytes :=
  match PartitionBy.find? (fun dim => lib.Contains dims dim) with
  | some dim => lib.GetBytes dims dim
  | none => dims

/-- The first dimension of `PartitionBy` whose value in the dims is not empty. -/
def firstNonEmptyDim (lib : ByteMapLib) (PartitionBy : List String) (dims : Bytes) :
    Option String :=
  PartitionBy.find? (fun dim => decide ((lib.GetBytes dims dim).length > 0))

/-- A WAL entry in the layout `timestamp(8) | dims_len(4) | dims | vals`, for byte-maps
shorter than 256 bytes. -/
def walEntry (ts : Bytes) (dims vals : Bytes) : Bytes :=
  ts ++ [0, 0, 0, dims.length] ++ dims ++ vals

/-- A callback of `Follow` that records what it receives and succeeds. -/
def recordEntry (st : List Bytes) (data : Bytes) (_ : Nat) : List Bytes × Option GoError :=
  (st ++ [data], none)


/-! ## Flushing under memory pressure (src/zenodb.go) -/

/-- The part of a table that `capMemStoreSize` reads: its name, its `Virtual` flag and
the current size of its memstore. -/
structure table where
  Name : String
  Virtual : Bool
  memStore : Int
  deriving DecidableEq, Repr

/-- Modelled from the spec: `table.memStoreSize` is not among the sources; by section 3 a
memstore has a current byte-size estimate. -/
def table.memStoreSize (t : table) : Int :=
  t.memStore

/-- A table with the size of its memstore. -/
structure memStoreSize where
  t : table
  size : Int
  deriving DecidableEq, Repr

abbrev byCurrentSize := List memStoreSize

/-- The method `byCurrentSize.Less`. -/
def byCurrentSize.Less (a b : memStoreSize) : Bool :=
  decide (a.size > b.size)

/-- A sorting procedure that `sort.Sort` may be: insertion sort by `Less`. -/
def byCurrentSize.insertionSort (sizes : byCurrentSize) : byCurrentSize :=
  List.insertionSort (fun a b => byCurrentSize.Less b a = false) sizes

/-- How `capMemStoreSize` ends: with the tables it force-flushed, or in the panic of an
index out of range. -/
inductive FlushOutcome where
  | done (flushed : List table)
  | panicked
  deriving DecidableEq, Repr

/-- Lines 307-312: the sizes of the tables that are not virtual. -/
def nonVirtualSizes (tables : List table) : byCurrentSize :=
  tables.foldl (fun sizes table =>
    if !table.Virtual then sizes ++ [{ t := table, size := table.memStoreSize }] else sizes) []

/-- The method `DB.capMemStoreSize`: `tables` are the values of `db.tables` in the order
of the map iteration, `memory` is the sampled `db.memory`, `maxMemoryBytes` is the number
that the call `db.maxMemoryBytes()` returns (the conversion to `uint64` of the `float64`
product `systemRAM * MaxMemoryRatio`), `sortSizes` the procedure behind `sort.Sort`. -/
def DB.capMemStoreSize (MaxMemoryRatio : ℚ) (maxMemoryBytes : Nat)
    (sortSizes : byCurrentSize → byCurrentSize) (tables : List table) (memory : Nat) :
    FlushOutcome :=
  if MaxMemoryRatio ≤ 0 then .done []
  else
    let sizes := nonVirtualSizes tables
    let actual := memory
    let allowed := maxMemoryBytes
    if actual > allowed then
      match sortSizes sizes with
      | [] => .panicked
      | first :: _ => .done [first.t]
    else .done []

/-! ## Sequences (section 4.3 of the specification, src/seq_test.go)

Times and durations are numbers of nanoseconds. -/

/-- Modelled from the spec: the type `sequence` is not among the sources, only its test
src/seq_test.go is. By sections 3 and 6 a sequence is a start timestamp followed by the
bucket values from newest to oldest, index `i` standing for `start - i * resolution`; the
empty sequence has no bucket. -/
structure sequence where
  startTS : Int
  vals : List float64
  deriving DecidableEq, Repr

/-- Modelled from the spec: the method `start` of section 4.3, absent from the sources. -/
def sequence.start (seq : sequence) : Int :=
  seq.startTS

/-- Modelled from the spec: the method `num_periods` of section 4.3, absent from the
sources. -/
def sequence.numPeriods (seq : sequence) : Nat :=
  seq.vals.length

/-- Modelled from the spec: the method `value_at` of section 4.3, absent from the
sources. -/
def sequence.valueAt (seq : sequence) (i : Nat) : float64 :=
  seq.vals.getD i 0

/-- Modelled from the spec: "align `ts` down to `resolution`" (section 4.3); the code is
absent from the sources. -/
def alignDown (ts resolution : Int) : Int :=
  ts - ts % resolution

/-- Modelled from the spec: "drop trailing buckets whose timestamp is strictly before
`truncate_before`" (section 4.3), on the values from the bucket of timestamp `t` on; the
code is absent from the sources. -/
def keepFrom (resolution truncateBefore : Int) : Int → List float64 → List float64
  | _, [] => []
  | t, v :: rest =>
    if t < truncateBefore then [] else v :: keepFrom resolution truncateBefore (t - resolution) rest

/-- Modelled from the spec: the truncation that ends `plus` (section 4.3), absent from the
sources; a truncation that eliminates the head leaves the empty sequence. -/
def sequence.truncate (seq : sequence) (resolution truncateBefore : Int) : sequence :=
  { startTS := seq.startTS, vals := keepFrom resolution truncateBefore seq.startTS seq.vals }

/-- Modelled from the spec: the fold of an aligned `(ts, value)` into a sequence, by the
four cases of section 4.3 (empty, prepend, append, within); the code is absent from the
sources. An existing bucket takes the new value, as in the step "Update value" of
src/seq_test.go. -/
def sequence.fold (seq : sequence) (ts : Int) (value : float64) (resolution : Int) : sequence :=
  if seq.vals = [] then { startTS := ts, vals := [value] }
  else if ts > seq.startTS then
    let gap := ((ts - seq.startTS) / resolution).toNat
    { startTS := ts, vals := value :: (List.replicate (gap - 1) 0 ++ seq.vals) }
  else
    let idx := ((seq.startTS - ts) / resolution).toNat
    if idx < seq.vals.length then { startTS := seq.startTS, vals := seq.vals.set idx value }
    else
      { startTS := seq.startTS,
        vals := seq.vals ++ List.replicate (idx - seq.vals.length) 0 ++ [value] }

/-- Modelled from the spec: the method `plus(ts_value, resolution, truncate_before)` of
section 4.3, absent from the sources: align the timestamp down, fold the value in, then
drop the trailing buckets that are before `truncate_before`. -/
def sequence.plus (seq : sequence) (tsValue : Int × float64) (resolution truncateBefore : Int) :
    sequence :=
  let ts := alignDown tsValue.1 resolution
  (seq.fold ts tsValue.2 resolution).truncate resolution truncateBefore

/-- The value that a sequence holds for the bucket of timestamp `t`, zero when it has no
bucket there. -/
def sequence.valueAtTime (seq : sequence) (resolution t : Int) : float64 :=
  if t ≤ seq.startTS ∧ (seq.startTS - t) % resolution = 0 then
    seq.valueAt ((seq.startTS - t) / resolution).toNat
  else 0

/-- The start of a non-empty sequence is aligned to the resolution. -/
def sequence.aligned (seq : sequence) (resolution : Int) : Prop :=
  seq.vals = [] ∨ seq.startTS % resolution = 0

/-- The empty sequence, the zero value of the Go type. -/
def sequence.empty : sequence :=
  { startTS := 0, vals := [] }

namespace seqtest

/-- The instant `epoch` of `TestSequence`, 2015-05-06 07:08:09.00000001 UTC, in
nanoseconds since 1970. -/
def epoch : Int := 1430896089000000010

/-- The resolution of `TestSequence`, one minute. -/
def res : Int := 60000000000

/-- The helper `trunc` of `TestSequence`. -/
def trunc (retainPeriods : Nat) (vals : List float64) (ignoreTrailingIndex : Int) :
    List float64 :=
  if vals.length > retainPeriods then
    let vals := vals.take retainPeriods
    if (vals.length : Int) - 1 = ignoreTrailingIndex then vals.take (retainPeriods - 1)
    else vals
  else vals

/-- The helper `checkValues` of seq_test.go. -/
def checkValues (seq : sequence) (expected : List float64) : Bool :=
  decide (expected.length = seq.numPeriods) &&
    (List.range expected.length).all (fun i => decide (expected.getD i 0 = seq.valueAt i))

/-- The helper `doIt` of `TestSequence`, on the state `(start, seq, ok)`. -/
def doIt (retainPeriods : Nat) (state : Int × sequence × Bool)
    (step : Int × float64 × List float64) : Int × sequence × Bool :=
  let start := if step.1 > state.1 then step.1 else state.1
  let truncateBefore := start + (-1) * (res * retainPeriods)
  let seq := state.2.1.plus (step.1, step.2.1) res truncateBefore
  (start, seq, state.2.2 && checkValues seq (trunc retainPeriods step.2.2 4))

/-- The five steps of `TestSequence`: timestamp, value, expected values. -/
def steps : List (Int × float64 × List float64) :=
  [(epoch, 2, [2]),
   (epoch + 2 * res, 1, [1, 0, 2]),
   (epoch + (-1) * res, 3, [1, 0, 2, 3]),
   (epoch + (-3) * res, 4, [1, 0, 2, 3, 0, 4]),
   (epoch, 5, [1, 0, 5, 3, 0, 4])]

/-- The sequences that the steps of `TestSequence` produce one after another, with the
verdict of `checkValues` on each. -/
def run (retainPeriods : Nat) : List (List float64 × Bool) :=
  ((steps.foldl (fun acc step =>
      let state := doIt retainPeriods (acc.1.1, acc.1.2, true) step
      ((state.1, state.2.1), acc.2 ++ [(state.2.1.vals, state.2.2)]))
    ((epoch, sequence.empty), [])).2)

/-- The helper `checkWithTruncation` of `TestSequence`: the final sequence and whether
every check passed. -/
def checkWithTruncation (retainPeriods : Nat) : sequence × Bool :=
  (steps.foldl (doIt retainPeriods) (epoch, sequence.empty, true)).2

/-- Scenarios S1 and S2 of the specification: 6 at `epoch + 10*res`, 5 at
`epoch + 7*res`, 4 at `epoch + 5*res`, each time with
`truncate_before = epoch + 10*res - retention`. -/
def scenarioS1 (retention : Int) : sequence :=
  ((sequence.empty.plus (epoch + 10 * res, 6) res (epoch + 10 * res - retention)).plus
    (epoch + 7 * res, 5) res (epoch + 10 * res - retention)).plus
    (epoch + 5 * res, 4) res (epoch + 10 * res - retention)

end seqtest
/-! ## Dataflow: rows, fields and sources (src/core/core.go) -/

namespace expr

/-- An expression, as the dataflow layer sees it: a handle that is only copied. -/
structure Expr where
  id : Nat
  deriving DecidableEq, Repr

end expr

namespace core

/-- Field is a named expression. -/
structure Field where
  Expr : expr.Expr
  Name : String
  deriving DecidableEq, Repr

/-- NewField is a convenience method for creating new fields. -/
def NewField (name : String) (ex : expr.Expr) : Field :=
  { Expr := ex, Name := name }

abbrev Fields := List Field

/-- A materialized time slice; a nil slice is the empty list. -/
structure FlatRow where
  TS : Int
  Key : Bytes
  Values : List float64
  Totals : List float64
  fields : List Field
  deriving DecidableEq, Repr

/-- A row of `RowSource`: a key and one encoded sequence per field. -/
structure Row where
  key : Bytes
  vals : List Bytes
  deriving DecidableEq, Repr

/-- The result `(true, nil)` of a row callback. -/
def proceed : Bool × Option GoError := (true, none)

/-- The result `(false, nil)` of a row callback. -/
def stop : Bool × Option GoError := (false, none)

/-- Lexicographic "less than" on lists of numbers: the order of `bytes.Compare` on byte
slices and of `<` on strings (through their code points). -/
def lexLess : List Nat → List Nat → Bool
  | _, [] => false
  | [], _ :: _ => true
  | a :: as, b :: bs => decide (a < b) || (a == b && lexLess as bs)

/-- The standard function `bytes.Compare`. -/
def bytesCompare (a b : Bytes) : Int :=
  if lexLess a b then -1 else if lexLess b a then 1 else 0

/-- The code points of a string. -/
def codes (s : String) : List Nat :=
  s.data.map Char.toNat

/-- Go's `a < b` on strings. -/
def stringLess (a b : String) : Bool :=
  lexLess (codes a) (codes b)

/-- Go's `a <= b` on strings. -/
def stringLE (a b : String) : Prop :=
  stringLess b a = false

instance : DecidableRel stringLE :=
  fun a b => inferInstanceAs (Decidable (stringLess b a = false))

/-- The standard function `sort.Strings`: the ascending arrangement of the list. -/
def sortStrings (l : List String) : List String :=
  l.insertionSort stringLE

/-- The standard function `strings.Replace(s, old, new, -1)` for a non-empty `old`, on
the characters from a position on: the occurrences of `old` that do not overlap, found
from the left, are replaced by `new`; `skip` counts the characters of an occurrence that
are still to be passed over. -/
def stringsReplace (old new : List Char) : List Char → Nat → List Char
  | [], _ => []
  | _ :: rest, skip + 1 => stringsReplace old new rest skip
  | c :: rest, 0 =>
    if old.isPrefixOf (c :: rest) then new ++ stringsReplace old new rest (old.length - 1)
    else c :: stringsReplace old new rest 0

/-- The call `strings.Replace(ct, " ", "_", -1)` of line 55. -/
def replaceSpaces (ct : String) : String :=
  String.mk (stringsReplace [' '] ['_'] ct.data 0)

/-! ## The crosstab transform (src/core/crosstab.go) -/

/-- A buffered input row with its crosstab value and its residual key. -/
structure crosstabRow where
  row : FlatRow
  ct : String
  key : Bytes
  deriving DecidableEq, Repr

abbrev crosstabRows := List crosstabRow

/-- The order of `sort.Sort(inRows)`: key ascending, then TS descending, then ct. -/
def crosstabRows.Less (a b : crosstabRow) : Bool :=
  let kc := bytesCompare a.key b.key
  if kc < 0 then true
  else if kc > 0 then false
  else if a.row.TS > b.row.TS then true
  else if a.row.TS < b.row.TS then false
  else stringLess a.ct b.ct

/-- The order of the specification on buffered rows: residual key ascending by byte
comparison, then timestamp descending, then crosstab value ascending. -/
def crosstabRows.precedes (a b : crosstabRow) : Prop :=
  lexLess a.key b.key = true ∨
    (a.key = b.key ∧
      (b.row.TS < a.row.TS ∨ (a.row.TS = b.row.TS ∧ stringLess a.ct b.ct = true)))

/-- Neither row is less than the other. -/
def crosstabRows.incomparable (a b : crosstabRow) : Prop :=
  crosstabRows.Less a b = false ∧ crosstabRows.Less b a = false

/-- A sorting procedure that `sort.Sort` may be: insertion sort by `Less`. -/
def crosstabRows.insertionSort (rows : crosstabRows) : crosstabRows :=
  List.insertionSort (fun a b => crosstabRows.Less b a = false) rows

/-- What the source of a crosstab does with the two callbacks it is handed. -/
inductive SourceEvent where
  | fields (fs : Fields)
  | row (r : FlatRow)

/-- A run of the source's `Iterate` against the callbacks of lines 29-38, which never
fail and always proceed: the invocations it makes, in order, and the error it returns. -/
structure SourceRun where
  events : List SourceEvent
  err : Option GoError

/-- The rows that the source delivers, in order. -/
def sourceRows : List SourceEvent → List FlatRow
  | [] => []
  | .fields _ :: rest => sourceRows rest
  | .row r :: rest => r :: sourceRows rest

/-- The field list that the source announced last, `inFields` when it announced none. -/
def announcedFields : List SourceEvent → Fields → Fields
  | [], inFields => inFields
  | .fields fs :: rest, _ => announcedFields rest fs
  | .row _ :: rest, inFields => announcedFields rest inFields

/-- What surrounds a run of the crosstab: `split` is `row.Key.Split("_crosstab")`
followed by the read `_ct.Get("_crosstab").(string)` (crosstab value, residual key), and
is `none` when the type assertion panics, `_crosstab` being absent or not a string;
`sortRows` is the procedure behind `sort.Sort`; `deadlineHit i` tells whether
`hasDeadline && time.Now().After(deadline)` holds at the check of loop turn `i`. -/
structure CrosstabEnv where
  split : Bytes → Option (String × Bytes)
  sortRows : crosstabRows → crosstabRows
  deadlineHit : Nat → Bool

/-- A callback invocation made by `crosstabber.Iterate`. -/
inductive Call where
  | onFields (fs : Fields) (err : Option GoError)
  | onRow (r : FlatRow) (more : Bool) (err : Option GoError)
  deriving DecidableEq, Repr

/-- How a run ends: it returns an error value (possibly nil) or it panics. -/
inductive Outcome where
  | returned (err : Option GoError)
  | panicked
  deriving DecidableEq, Repr

/-- The result of a run: the caller's state, the callback invocations and the end. -/
structure IterResult (σ : Type) where
  st : σ
  calls : List Call
  outcome : Outcome

/-- Lines 32-38, the row callback applied to one row of the source: the row is appended
to `inRows`; `none` is the panic of the type assertion of line 34. -/
def bufferRow (split : Bytes → Option (String × Bytes)) (inRows : crosstabRows) (r : FlatRow) :
    Option crosstabRows :=
  match split r.Key with
  | none => none
  | some (ct, key) => some (inRows ++ [{ row := r, ct := ct, key := key }])

/-- Lines 29-38, the fields callback and the row callback applied to the source's run:
`inFields` is the last field list announced, `inRows` the rows in arrival order; `none`
when the row callback panicked. -/
def buffer (split : Bytes → Option (String × Bytes)) :
    List SourceEvent → Fields × crosstabRows → Option (Fields × crosstabRows)
  | [], acc => some acc
  | .fields fs :: rest, acc => buffer split rest (fs, acc.2)
  | .row r :: rest, acc =>
    match bufferRow split acc.2 r with
    | none => none
    | some inRows => buffer split rest (acc.1, inRows)

/-- Lines 27 and 36: the keys of `uniqueCTs`, each once. -/
def uniqueCTs (inRows : crosstabRows) : List String :=
  inRows.foldl (fun acc r => if r.ct ∈ acc then acc else acc ++ [r.ct]) []

/-- Lines 46-50: the keys of `uniqueCTs`, sorted. -/
def sortedCTs (inRows : crosstabRows) : List String :=
  sortStrings (uniqueCTs inRows)

/-- Lines 56-58: one output field per input field for the crosstab value `ct`. -/
def appendCTFields (outFields : Fields) (ct : String) (inFields : Fields) : Fields :=
  inFields.foldl (fun acc field => acc ++ [NewField (ct ++ "_" ++ field.Name) field.Expr])
    outFields

/-- Lines 51-62: the output fields. -/
def buildOutFields (cts : List String) (inFields : Fields) : Fields :=
  let outFields := cts.foldl (fun acc ct => appendCTFields acc (replaceSpaces ct) inFields) []
  inFields.foldl (fun acc field => acc ++ [NewField ("total_" ++ field.Name) field.Expr])
    outFields

/-- Lines 52-54: the map from crosstab value to its index. -/
def buildCtis (cts : List String) : List (String × Nat) :=
  cts.enum.map (fun p => (p.2, p.1))

/-- A map read `ctis[ct]`: the zero value when the key is missing. -/
def ctisGet (ctis : List (String × Nat)) (ct : String) : Nat :=
  (ctis.lookup ct).getD 0

/-- Lines 102-107: the writes of one input row into `currentRow.Values`, from index `i`
on; `none` is the panic of an index out of range. -/
def writeValues (numInFields numCTs cti : Nat) :
    Nat → List float64 → List float64 → Option (List float64)
  | _, [], values => some values
  | i, value :: rest, values =>
    let fieldIdx := cti * numInFields + i
    let totalIdx := numCTs * numInFields + i
    if fieldIdx < values.length then
      let values := values.set fieldIdx value
      if totalIdx < values.length then
        writeValues numInFields numCTs cti (i + 1) rest
          (values.set totalIdx (float64.add (values.getD totalIdx 0) value))
      else none
    else none

/-- The variables of the loop of lines 73-109, with the caller's state and the
invocations made so far. -/
structure LoopState (σ : Type) where
  st : σ
  calls : List Call
  priorKey : Bytes
  priorTS : Int
  currentRow : Option FlatRow
  rowNeedsSubmission : Bool

/-- How a turn of the loop ends. -/
inductive LoopCtl (σ : Type) where
  | next (s : LoopState σ)
  | brk (s : LoopState σ)
  | ret (s : LoopState σ) (err : Option GoError)
  | panic (s : LoopState σ)

/-- The variables at the end of a turn. -/
def LoopCtl.state {σ : Type} : LoopCtl σ → LoopState σ
  | .next s => s
  | .brk s => s
  | .ret s _ => s
  | .panic s => s

/-- Whether an invocation is one of the row callback. -/
def Call.isRow : Call → Bool
  | .onFields _ _ => false
  | .onRow _ _ _ => true

/-- Lines 101-108: fold the input row into the current output row. -/
def foldRow {σ : Type} (numInFields numCTs : Nat) (ctis : List (String × Nat))
    (row : crosstabRow) (s : LoopState σ) : LoopCtl σ :=
  match s.currentRow with
  | none => .panic s
  | some cur =>
    let cti := ctisGet ctis row.ct
    match writeValues numInFields numCTs cti 0 row.row.Values cur.Values with
    | none => .panic s
    | some values =>
      .next { s with currentRow := some { cur with Values := values },
                     rowNeedsSubmission := true }

/-- Lines 94-99: a fresh output row. -/
def freshRow (row : crosstabRow) (numFields : Nat) (outFields : Fields) : FlatRow :=
  { TS := row.row.TS, Key := row.key, Values := List.replicate numFields 0, Totals := [],
    fields := outFields }

/-- Lines 79-108: one turn of the loop over the sorted input rows. -/
def rowStep {σ : Type} (env : CrosstabEnv) (onRow : σ → FlatRow → σ × (Bool × Option GoError))
    (numInFields numCTs : Nat) (ctis : List (String × Nat)) (outFields : Fields)
    (i : Nat) (row : crosstabRow) (s : LoopState σ) : LoopCtl σ :=
  if env.deadlineHit i then .ret s (some .ErrDeadlineExceeded)
  else
    let newRow := s.currentRow.isNone || !(row.key == s.priorKey) ||
      decide (s.priorTS > row.row.TS)
    if newRow then
      if s.rowNeedsSubmission then
        match s.currentRow with
        | none => .panic s
        | some cur =>
          let (st, more, onRowErr) := onRow s.st cur
          let s1 := { s with st := st, calls := s.calls ++ [Call.onRow cur more onRowErr] }
          match onRowErr with
          | some e => .ret s1 (some e)
          | none =>
            if !more then .brk s1
            else
              foldRow numInFields numCTs ctis row
                { s1 with currentRow := some (freshRow row outFields.length outFields) }
      else
        foldRow numInFields numCTs ctis row
          { s with currentRow := some (freshRow row outFields.length outFields) }
    else foldRow numInFields numCTs ctis row s

/-- Lines 78-109: the loop over the sorted input rows, from turn `i` on. -/
def rowLoop {σ : Type} (env : CrosstabEnv) (onRow : σ → FlatRow → σ × (Bool × Option GoError))
    (numInFields numCTs : Nat) (ctis : List (String × Nat)) (outFields : Fields) :
    Nat → crosstabRows → LoopState σ → LoopCtl σ
  | _, [], s => .next s
  | i, row :: rest, s =>
    match rowStep env onRow numInFields numCTs ctis outFields i row s with
    | .next s1 => rowLoop env onRow numInFields numCTs ctis outFields (i + 1) rest s1
    | ctl => ctl

/-- Lines 111-117: what follows the loop once it ended normally or by `break`. -/
def afterLoop {σ : Type} (onRow : σ → FlatRow → σ × (Bool × Option GoError))
    (err : Option GoError) (s : LoopState σ) : IterResult σ :=
  if s.rowNeedsSubmission then
    match s.currentRow with
    | none => { st := s.st, calls := s.calls, outcome := .panicked }
    | some cur =>
      let (st, more, onRowErr) := onRow s.st cur
      { st := st, calls := s.calls ++ [Call.onRow cur more onRowErr],
        outcome := .returned onRowErr }
  else { st := s.st, calls := s.calls, outcome := .returned err }

/-- Lines 42-114: the body of `if err != ErrDeadlineExceeded`, over the buffered fields
and rows. -/
def crosstabber.emit {σ : Type} (env : CrosstabEnv) (inFields : Fields) (inRows : crosstabRows)
    (onFields : σ → Fields → σ × Option GoError)
    (onRow : σ → FlatRow → σ × (Bool × Option GoError)) (st : σ) : IterResult σ :=
  let numInFields := inFields.length
  let numCTs := (uniqueCTs inRows).length
  let cts := sortedCTs inRows
  let outFields := buildOutFields cts inFields
  let ctis := buildCtis cts
  let (st, err) := onFields st outFields
  match err with
  | some e =>
    { st := st, calls := [Call.onFields outFields (some e)], outcome := .returned (some e) }
  | none =>
    let s0 : LoopState σ :=
      { st := st, calls := [Call.onFields outFields none], priorKey := [], priorTS := 0,
        currentRow := none, rowNeedsSubmission := false }
    match rowLoop env onRow numInFields numCTs ctis outFields 0 (env.sortRows inRows) s0 with
    | .next s => afterLoop onRow err s
    | .brk s => afterLoop onRow err s
    | .ret s e => { st := s.st, calls := s.calls, outcome := .returned e }
    | .panic s => { st := s.st, calls := s.calls, outcome := .panicked }

/-- The method `crosstabber.Iterate` (lines 24-118): a panic of the row callback handed
to the source ends the run before any of the caller's callbacks is invoked. -/
def crosstabber.Iterate {σ : Type} (env : CrosstabEnv) (source : SourceRun)
    (onFields : σ → Fields → σ × Option GoError)
    (onRow : σ → FlatRow → σ × (Bool × Option GoError)) (st : σ) : IterResult σ :=
  match buffer env.split source.events ([], []) with
  | none => { st := st, calls := [], outcome := .panicked }
  | some (inFields, inRows) =>
    let err := source.err
    if err ≠ some .ErrDeadlineExceeded then
      crosstabber.emit env inFields inRows onFields onRow st
    else { st := st, calls := [], outcome := .returned err }

/-! ## What an output row of the crosstab holds -/

/-- The entry `total_<field i>` of an output row's values. -/
def totalOf (numInFields numCTs : Nat) (values : List float64) (i : Nat) : float64 :=
  values.getD (numCTs * numInFields + i) 0

/-- The entry `<ct>_<field i>` of an output row's values, `cti` being the index of ct. -/
def entryOf (numInFields : Nat) (values : List float64) (cti i : Nat) : float64 :=
  values.getD (cti * numInFields + i) 0

/-- The sum over all crosstab values of the entries `<ct>_<field i>`. -/
def sumOverCTs (numInFields numCTs : Nat) (values : List float64) (i : Nat) : float64 :=
  float64.sum ((List.range numCTs).map (fun cti => entryOf numInFields values cti i))

/-- The values of field `i` in the rows of `g` that have one, in the order of `g`. -/
def fieldValues (g : crosstabRows) (i : Nat) : List float64 :=
  g.filterMap (fun r => r.row.Values[i]?)

/-- The value of field `i` in the last row of `g` whose crosstab index is `c` and that
has a value for the field; zero when there is no such row. -/
def lastWritten (ctis : List (String × Nat)) (g : crosstabRows) (c i : Nat) : float64 :=
  (fieldValues (g.filter (fun r => ctisGet ctis r.ct == c)) i).getLast?.getD 0

/-- The entries `<ct>_<field i>` of an output row at the crosstab values of the rows of
`g` that have a value for field `i`, in the order of `g`. -/
def entriesOf (numInFields : Nat) (ctis : List (String × Nat)) (values : List float64)
    (g : crosstabRows) (i : Nat) : List float64 :=
  g.filterMap (fun r =>
    if i < r.row.Values.length then some (entryOf numInFields values (ctisGet ctis r.ct) i)
    else none)

/-- Line 83, with `priorKey` nil and `priorTS` zero: a row that is not the first of the
loop starts a new output row when its residual key is not empty or its timestamp is
negative. -/
def startsNewRow (row : crosstabRow) : Bool :=
  !(row.key == []) || decide (0 > row.row.TS)

/-- The rows `g` are folded into one output row by the loop over `sorted`: they are
consecutive in `sorted`, the first of them is the first row of `sorted` or starts a new
output row, none of the others starts one, and they are followed by the end of `sorted`
or by a row that starts one. -/
def IsFoldedRun (sorted g : crosstabRows) : Prop :=
  ∃ (before : crosstabRows) (r0 : crosstabRow) (others after : crosstabRows),
    sorted = before ++ r0 :: others ++ after ∧ g = r0 :: others ∧
    (before = [] ∨ startsNewRow r0 = true) ∧ (∀ r ∈ others, startsNewRow r = false) ∧
    (∀ r, after.head? = some r → startsNewRow r = true)

/-- The values `vs` are what the writes of the input rows `g`, in this order, leave in a
fresh row: the totals are the sums of the field values over `g`, and each entry holds
the value last written to it. -/
def Built (n k : Nat) (ctis : List (String × Nat)) (g : crosstabRows) (vs : List float64) :
    Prop :=
  vs.length = k * n + n ∧
  (∀ i, i < n → totalOf n k vs i = float64.sum (fieldValues g i)) ∧
  (∀ c i, c < k → i < n → entryOf n vs c i = lastWritten ctis g c i)

/-- The output row `out` carries the timestamp and the residual key of the first row of
`g` and the values that the writes of `g` leave. -/
def BuiltFrom (n k : Nat) (ctis : List (String × Nat)) (g : crosstabRows) (out : FlatRow) :
    Prop :=
  (∃ r0, g.head? = some r0 ∧ out.TS = r0.row.TS ∧ out.Key = r0.key) ∧
    Built n k ctis g out.Values

/-- The output row `out` is built from a run of rows that the loop over `sorted` folds
into one output row. -/
def Good (n k : Nat) (ctis : List (String × Nat)) (sorted : crosstabRows) (out : FlatRow) :
    Prop :=
  ∃ g : crosstabRows, IsFoldedRun sorted g ∧ BuiltFrom n k ctis g out

/-- The current output row is built from the rows folded so far: the rows `done` that the
loop has been through end with a run that starts at the first row or at a row that
starts a new output row and holds no other such row. -/
def Partial (n k : Nat) (ctis : List (String × Nat)) (done : crosstabRows) (out : FlatRow) :
    Prop :=
  ∃ (before : crosstabRows) (r0 : crosstabRow) (others : crosstabRows),
    done = before ++ r0 :: others ∧
    (before = [] ∨ startsNewRow r0 = true) ∧ (∀ r ∈ others, startsNewRow r = false) ∧
    BuiltFrom n k ctis (r0 :: others) out

/-- Every row delivered so far satisfies `P`. -/
def InvCalls {σ : Type} (P : FlatRow → Prop) (s : LoopState σ) : Prop :=
  ∀ out more err, Call.onRow out more err ∈ s.calls → P out

/-- The current output row, when there is one, satisfies `P`. -/
def InvCur {σ : Type} (P : FlatRow → Prop) (s : LoopState σ) : Prop :=
  ∀ cur, s.currentRow = some cur → P cur

/-- The invariant of the loop once it has been through the rows `done` of `sorted`:
`priorKey` and `priorTS` still hold their zero values, the rows delivered are built from
folded runs, and the current row is built from the run that ends `done`. -/
def LoopInv {σ : Type} (n k : Nat) (ctis : List (String × Nat)) (sorted done : crosstabRows)
    (s : LoopState σ) : Prop :=
  s.priorKey = [] ∧ s.priorTS = 0 ∧ InvCalls (Good n k ctis sorted) s ∧
    (s.currentRow = none → done = []) ∧ InvCur (Partial n k ctis done) s

/-- The invariant of the loop at the end of a turn, `done` being the rows it has been
through. -/
def CtlInv {σ : Type} (n k : Nat) (ctis : List (String × Nat)) (sorted done : crosstabRows) :
    LoopCtl σ → Prop
  | .next s => LoopInv n k ctis sorted done s
  | .brk s => InvCalls (Good n k ctis sorted) s ∧ InvCur (Good n k ctis sorted) s
  | .ret s _ => InvCalls (Good n k ctis sorted) s
  | .panic s => InvCalls (Good n k ctis sorted) s

/-- The loop variables are safe to continue with: a row needs submission only when there
is a current row, and the current row has `len(outFields)` values. -/
def Safe {σ : Type} (n k : Nat) (s : LoopState σ) : Prop :=
  (s.rowNeedsSubmission = true → s.currentRow ≠ none) ∧
    ∀ cur, s.currentRow = some cur → cur.Values.length = k * n + n

/-- The turn did not panic, and left safe variables when the loop goes on or breaks. -/
def NoPanic {σ : Type} (n k : Nat) : LoopCtl σ → Prop
  | .next s => Safe n k s
  | .brk s => Safe n k s
  | .ret _ _ => True
  | .panic _ => False

/-- The output fields in the words of the specification: for each crosstab value in the
given order and each input field in input order, the field named by the value with its
spaces replaced by underscores, an underscore and the field name, then one field
`total_<field name>` per input field; each carries the expression of its input field. -/
def crosstabFields (cts : List String) (inFields : Fields) : Fields :=
  cts.flatMap (fun ct => inFields.map (fun field =>
    { Expr := field.Expr,
      Name := String.mk (ct.data.map (fun c => if c = ' ' then '_' else c)) ++ "_" ++
        field.Name })) ++
  inFields.map (fun field => { Expr := field.Expr, Name := "total_" ++ field.Name })

/-! ## Stages with connected sources (src/core/core.go) -/

/-- A source, seen from the stage that iterates it: it returns an error value, or it
invokes the row callback and continues according to what the callback returned. -/
inductive SourceProg (ρ : Type) where
  | done (err : Option GoError)
  | call (row : ρ) (k : Bool → Option GoError → SourceProg ρ)

/-- An invocation of a row callback, with what the callback returned. -/
structure RowCall (ρ : Type) where
  row : ρ
  more : Bool
  err : Option GoError
  deriving DecidableEq, Repr

/-- The result of iterating sources: the caller's state, the invocations and the
error value returned. -/
structure StageResult (ρ σ : Type) where
  st : σ
  calls : List (RowCall ρ)
  err : Option GoError

/-- The call `source.Iterate(ctx, onRow)`. -/
def SourceProg.Iterate {ρ σ : Type} (onRow : σ → ρ → σ × (Bool × Option GoError)) :
    SourceProg ρ → σ → StageResult ρ σ
  | .done err, st => { st := st, calls := [], err := err }
  | .call row k, st =>
    let (st1, more, err) := onRow st row
    let r := SourceProg.Iterate onRow (k more err) st1
    { r with calls := { row := row, more := more, err := err } :: r.calls }

/-- A source over a list of rows: it delivers them in order, stops without error when
the callback returns false, returns the callback's error, and returns `result` at the
end. -/
def SourceProg.ofRows {ρ : Type} (result : Option GoError) : List ρ → SourceProg ρ
  | [] => .done result
  | row :: rest =>
    .call row (fun more err =>
      match err with
      | some e => .done (some e)
      | none => if more then SourceProg.ofRows result rest else .done none)

/-- The source stops calling its callback as soon as the callback returns
`(false, nil)`, and then returns nil. -/
def SourceProg.haltsOnStop {ρ : Type} : SourceProg ρ → Prop
  | .done _ => True
  | .call _ k => k false none = .done none ∧ ∀ more err, SourceProg.haltsOnStop (k more err)

/-- The source makes the invocations `calls`, receiving the results recorded in them,
and is then left with the program `rest`. -/
def SourceProg.stepsTo {ρ : Type} : SourceProg ρ → List (RowCall ρ) → SourceProg ρ → Prop
  | p, [], rest => p = rest
  | .done _, _ :: _, _ => False
  | .call row k, c :: calls, rest => c.row = row ∧ SourceProg.stepsTo (k c.more c.err) calls rest

/-- The mutex wrapper `lockingOnRow`: on one thread it is the callback itself. -/
def lockingOnRow {σ : Type} (onRow : σ → Row → σ × (Bool × Option GoError)) :
    σ → Row → σ × (Bool × Option GoError) :=
  fun st row => onRow st row

/-- The mutex wrapper `lockingOnFlatRow`: on one thread it is the callback itself. -/
def lockingOnFlatRow {σ : Type} (onRow : σ → FlatRow → σ × (Bool × Option GoError)) :
    σ → FlatRow → σ × (Bool × Option GoError) :=
  fun st row => onRow st row

/-- The loop of `iterateSerial` over the sources. -/
def serialLoop {ρ σ : Type} (onRow : σ → ρ → σ × (Bool × Option GoError)) :
    List (SourceProg ρ) → σ → StageResult ρ σ
  | [], st => { st := st, calls := [], err := none }
  | source :: rest, st =>
    let r := source.Iterate onRow st
    match r.err with
    | some e => { st := r.st, calls := r.calls, err := some e }
    | none =>
      let r2 := serialLoop onRow rest r.st
      { r2 with calls := r.calls ++ r2.calls }

/-- A stage over row sources. -/
structure rowConnectable where
  sources : List (SourceProg Row)

/-- A stage over flat row sources. -/
structure flatRowConnectable where
  sources : List (SourceProg FlatRow)

/-- The method `rowConnectable.Connect`. -/
def rowConnectable.Connect (c : rowConnectable) (source : SourceProg Row) : rowConnectable :=
  { sources := c.sources ++ [source] }

/-- The method `flatRowConnectable.Connect`. -/
def flatRowConnectable.Connect (c : flatRowConnectable) (source : SourceProg FlatRow) :
    flatRowConnectable :=
  { sources := c.sources ++ [source] }

/-- The method `rowConnectable.iterateSerial`. -/
def rowConnectable.iterateSerial {σ : Type} (c : rowConnectable)
    (onRow : σ → Row → σ × (Bool × Option GoError)) (st : σ) : StageResult Row σ :=
  serialLoop (lockingOnRow onRow) c.sources st

/-- The method `flatRowConnectable.iterateSerial`. -/
def flatRowConnectable.iterateSerial {σ : Type} (c : flatRowConnectable)
    (onRow : σ → FlatRow → σ × (Bool × Option GoError)) (st : σ) : StageResult FlatRow σ :=
  serialLoop (lockingOnFlatRow onRow) c.sources st

/-- The runs of the sources one after another in the order of the list, each from the
state that the previous one left. -/
def sourceRuns {ρ σ : Type} (onRow : σ → ρ → σ × (Bool × Option GoError)) :
    List (SourceProg ρ) → σ → List (StageResult ρ σ)
  | [], _ => []
  | s :: rest, st => s.Iterate onRow st :: sourceRuns onRow rest (s.Iterate onRow st).st

/-- The runs up to and including the first one that returned a non-nil error. -/
def upToFirstError {ρ σ : Type} : List (StageResult ρ σ) → List (StageResult ρ σ)
  | [] => []
  | r :: rest =>
    match r.err with
    | some _ => [r]
    | none => r :: upToFirstError rest

/-- The first non-nil error among the results, nil when there is none. -/
def firstError {ρ σ : Type} : List (StageResult ρ σ) → Option GoError
  | [] => none
  | r :: rest =>
    match r.err with
    | some e => some e
    | none => firstError rest

/-! ## Parallel iteration of the connected sources

The goroutines of `iterateParallel` are followed through a schedule: the list of the
goroutines that take the next step, a step being one invocation of the row callback or
the send of the source's result on the channel `errors`. -/

/-- The goroutines of `iterateParallel` part-way: what is left of each source's
iteration (`none` once it has sent its result), the caller's state, the invocations of
the callback so far, each with the index of the source that made it, and the channel
`errors` in send order, each result with the index of its source. -/
structure ParState (ρ σ : Type) where
  progs : List (Option (SourceProg ρ))
  st : σ
  calls : List (Nat × RowCall ρ)
  arrivals : List (Nat × Option GoError)

/-- One step of goroutine `i`: the next invocation of the callback, or the send of the
result of `Iterate` on the channel; a goroutine that has sent its result does nothing. -/
def parStep {ρ σ : Type} (onRow : σ → ρ → σ × (Bool × Option GoError))
    (s : ParState ρ σ) (i : Nat) : ParState ρ σ :=
  match s.progs[i]? with
  | some (some (.call row k)) =>
    let (st1, more, err) := onRow s.st row
    { progs := s.progs.set i (some (k more err)), st := st1,
      calls := s.calls ++ [(i, { row := row, more := more, err := err })],
      arrivals := s.arrivals }
  | some (some (.done err)) =>
    { s with progs := s.progs.set i none, arrivals := s.arrivals ++ [(i, err)] }
  | _ => s

/-- The steps of a schedule, one after another. -/
def parRun {ρ σ : Type} (onRow : σ → ρ → σ × (Bool × Option GoError))
    (sched : List Nat) (s : ParState ρ σ) : ParState ρ σ :=
  sched.foldl (parStep onRow) s

/-- Lines 214-220: the loop that receives one result per source and keeps the last
non-nil one in `finalErr`. -/
def collectErrors (arrivals : List (Option GoError)) : Option GoError :=
  arrivals.foldl (fun finalErr err =>
    match err with
    | some e => some e
    | none => finalErr) none

/-- The last non-nil error of a list of results, nil when there is none. -/
def lastNonNil (results : List (Option GoError)) : Option GoError :=
  (results.reverse.filterMap id).head?

/-- The result of a parallel iteration: the caller's state, the invocations with the
index of their source, the results in the order they were received, and the error value
returned. -/
structure ParResult (ρ σ : Type) where
  st : σ
  calls : List (Nat × RowCall ρ)
  arrivals : List (Nat × Option GoError)
  err : Option GoError

/-- Lines 202-222: the goroutines run along the schedule; the stage returns once every
source has sent its result (`none`: it is still waiting on the channel). -/
def parallelLoop {ρ σ : Type} (onRow : σ → ρ → σ × (Bool × Option GoError))
    (sources : List (SourceProg ρ)) (sched : List Nat) (st : σ) : Option (ParResult ρ σ) :=
  let s := parRun onRow sched
    { progs := sources.map some, st := st, calls := [], arrivals := [] }
  if s.progs.all Option.isNone then
    some { st := s.st, calls := s.calls, arrivals := s.arrivals,
           err := collectErrors (s.arrivals.map Prod.snd) }
  else none

/-- The method `rowConnectable.iterateParallel`. -/
def rowConnectable.iterateParallel {σ : Type} (c : rowConnectable) (lock : Bool)
    (onRow : σ → Row → σ × (Bool × Option GoError)) (sched : List Nat) (st : σ) :
    Option (ParResult Row σ) :=
  if c.sources.length = 1 then
    let r := c.iterateSerial onRow st
    some { st := r.st, calls := r.calls.map (fun x => (0, x)), arrivals := [], err := r.err }
  else parallelLoop (if lock then lockingOnRow onRow else onRow) c.sources sched st

/-- The method `flatRowConnectable.iterateParallel`. -/
def flatRowConnectable.iterateParallel {σ : Type} (c : flatRowConnectable) (lock : Bool)
    (onRow : σ → FlatRow → σ × (Bool × Option GoError)) (sched : List Nat) (st : σ) :
    Option (ParResult FlatRow σ) :=
  if c.sources.length = 1 then
    let r := c.iterateSerial onRow st
    some { st := r.st, calls := r.calls.map (fun x => (0, x)), arrivals := [], err := r.err }
  else parallelLoop (if lock then lockingOnFlatRow onRow else onRow) c.sources sched st

/-- The invocations that source `i` made, in order. -/
def callsOf {ρ : Type} (i : Nat) (calls : List (Nat × RowCall ρ)) : List (RowCall ρ) :=
  (calls.filter (fun c => c.1 == i)).map Prod.snd

/-- The results recorded in the invocations are those of the callback, applied to the
rows one after another from the state `st` on, and `final` is the state it leaves. -/
def Answered {ρ σ : Type} (onRow : σ → ρ → σ × (Bool × Option GoError)) :
    σ → List (RowCall ρ) → σ → Prop
  | st, [], final => st = final
  | st, c :: rest, final =>
    (onRow st c.row).2 = (c.more, c.err) ∧ Answered onRow (onRow st c.row).1 rest final

/-- What the specification says of a parallel stage over `sources`, `run` giving its
result for a schedule: whenever it returns, the invocations are answered by the callback
one at a time, every source has been iterated to its end (the invocations made by source
`i` lead its program to the result `e` that it sent, and each source sent one result),
and the error returned is the last non-nil result received, nil exactly when every
result is nil; and every schedule can be continued so that the stage returns. -/
def CollectsAllErrors {ρ σ : Type} (sources : List (SourceProg ρ))
    (onRow : σ → ρ → σ × (Bool × Option GoError)) (st : σ)
    (run : List Nat → Option (ParResult ρ σ)) : Prop :=
  (∀ sched r, run sched = some r →
    Answered onRow st (r.calls.map Prod.snd) r.st ∧
    (∀ c ∈ r.calls, c.1 < sources.length) ∧
    (r.arrivals.map Prod.fst).Perm (List.range sources.length) ∧
    (∀ i e, (i, e) ∈ r.arrivals →
      ∃ p, sources[i]? = some p ∧ SourceProg.stepsTo p (callsOf i r.calls) (.done e)) ∧
    r.err = lastNonNil (r.arrivals.map Prod.snd) ∧
    (r.err = none ↔ ∀ a ∈ r.arrivals, a.2 = none)) ∧
  ∀ sched, ∃ ext, (run (sched ++ ext)).isSome = true

/-- What `iterateSerial` does with the errors of its sources: it stops at the first
source that returns a non-nil error, returns that error, and the sources after it are
not iterated; it returns nil exactly when every source iterated returned nil. -/
def StopsAtFirstError {ρ σ : Type} (runs : List (StageResult ρ σ)) (r : StageResult ρ σ) :
    Prop :=
  r.calls = (upToFirstError runs).flatMap (fun x => x.calls) ∧
  r.err = firstError runs ∧
  (r.err = none ↔ ∀ x ∈ runs, x.err = none)

/-- The invariant of the goroutines over `sources`: the sources that have sent their
result are exactly those whose index is on the channel, each index once; the
invocations so far are answered by the callback one at a time; and the invocations of
each source lead its program to what is left of it, or to the result that it sent. -/
def ParInv {ρ σ : Type} (sources : List (SourceProg ρ))
    (onRow : σ → ρ → σ × (Bool × Option GoError)) (st : σ) (s : ParState ρ σ) : Prop :=
  s.progs.length = sources.length ∧ (s.arrivals.map Prod.fst).Nodup ∧
    (∀ i, i ∈ s.arrivals.map Prod.fst ↔ s.progs[i]? = some none) ∧
    Answered onRow st (s.calls.map Prod.snd) s.st ∧
    (∀ c ∈ s.calls, c.1 < sources.length) ∧
    (∀ i p, s.progs[i]? = some (some p) →
      ∃ src, sources[i]? = some src ∧ SourceProg.stepsTo src (callsOf i s.calls) p) ∧
    (∀ i e, (i, e) ∈ s.arrivals →
      ∃ src, sources[i]? = some src ∧ SourceProg.stepsTo src (callsOf i s.calls) (.done e))

/-- Some invocation returned `(false, nil)`. -/
def halted {ρ : Type} (calls : List (RowCall ρ)) : Prop :=
  ∃ c ∈ calls, c.more = false ∧ c.err = none

/-- A row callback of a stage that counts the rows and always asks to stop. -/
def stopAtOnce {ρ : Type} (st : Nat) (_ : ρ) : Nat × (Bool × Option GoError) :=
  (st + 1, stop)

/-- No invocation follows one that returned `(false, nil)`. -/
def haltRespected {ρ : Type} : List (RowCall ρ) → Prop
  | [] => True
  | c :: rest => (c.more = false ∧ c.err = none → rest = []) ∧ haltRespected rest

end core

/-! ## The murmur3 hash (library github.com/spaolacci/murmur3)

The 32-bit hash that `murmur3.New32()` computes, with seed zero, for the examples. -/

namespace murmur3

/-- Rotation of a 32-bit number to the left. -/
def rotl32 (x r : Nat) : Nat :=
  (x % 2 ^ 32 * 2 ^ r) % 2 ^ 32 + x % 2 ^ 32 / 2 ^ (32 - r)

/-- The scrambling of one block. -/
def scramble (k : Nat) : Nat :=
  rotl32 (k % 2 ^ 32 * 0xcc9e2d51 % 2 ^ 32) 15 * 0x1b873593 % 2 ^ 32

/-- The rounds over the blocks of four bytes, read little-endian; the bytes left at
the end are returned with the state. -/
def rounds : Bytes → Nat → Nat × Bytes
  | b0 :: b1 :: b2 :: b3 :: rest, h =>
    let k := b0 % 256 + b1 % 256 * 2 ^ 8 + b2 % 256 * 2 ^ 16 + b3 % 256 * 2 ^ 24
    rounds rest ((rotl32 (h ^^^ scramble k) 13 * 5 + 0xe6546b64) % 2 ^ 32)
  | tail, h => (h, tail)

/-- The bytes left after the last block, read little-endian. -/
def tailBlock (tail : Bytes) : Nat :=
  tail.foldr (fun b acc => b % 256 + acc * 2 ^ 8) 0

/-- The final mix. -/
def fmix32 (h : Nat) : Nat :=
  let h := h ^^^ (h / 2 ^ 16)
  let h := h * 0x85ebca6b % 2 ^ 32
  let h := h ^^^ (h / 2 ^ 13)
  let h := h * 0xc2b2ae35 % 2 ^ 32
  h ^^^ (h / 2 ^ 16)

/-- The value `h.Sum32()` after `h.Reset()` and `h.Write(data)`. -/
def Sum32 (data : Bytes) : Nat :=
  let (h, tail) := rounds data 0
  fmix32 ((h ^^^ scramble (tailBlock tail)) ^^^ data.length)

end murmur3

/-! ## The byte-map layout (library github.com/getlantern/bytemap)

A byte-map is a key directory followed by the values. A directory entry is the length of
the key (2 bytes, little-endian), the key, the type of the value (1 byte) and, unless the
value is nil, the offset of the value in the map (4 bytes, little-endian). A string value
is its length (2 bytes, little-endian) followed by its bytes. Of the value types only nil
and string, the types of the dimension values in the examples, are laid out here. -/

namespace bytemap

/-- A value of a byte-map: nil or a string. -/
inductive Value where
  | nil
  | str (s : String)
  deriving DecidableEq, Repr

/-- The type code of nil. -/
def TypeNil : Nat := 0

/-- The type code of a string. -/
def TypeString : Nat := 13

/-- The bytes of a number of the given width, little-endian. -/
def putUint (width n : Nat) : Bytes :=
  (List.range width).map (fun i => n / 256 ^ i % 256)

/-- The number that bytes hold, little-endian. -/
def uint (b : Bytes) : Nat :=
  b.foldr (fun x acc => x % 256 + 256 * acc) 0

/-- The UTF-8 bytes of a code point. -/
def utf8 (c : Nat) : Bytes :=
  if c < 0x80 then [c]
  else if c < 0x800 then [0xC0 + c / 64, 0x80 + c % 64]
  else if c < 0x10000 then [0xE0 + c / 4096, 0x80 + c / 64 % 64, 0x80 + c % 64]
  else [0xF0 + c / 262144, 0x80 + c / 4096 % 64, 0x80 + c / 64 % 64, 0x80 + c % 64]

/-- The conversion `[]byte(s)` of a string. -/
def stringBytes (s : String) : Bytes :=
  s.data.flatMap (fun c => utf8 c.toNat)

/-- The characters that well-formed UTF-8 bytes encode. -/
def utf8Decode : Nat → Bytes → List Char
  | 0, _ => []
  | _, [] => []
  | fuel + 1, b :: rest =>
    if b < 0x80 then Char.ofNat b :: utf8Decode fuel rest
    else if b < 0xE0 then
      Char.ofNat (b % 32 * 64 + rest.getD 0 0 % 64) :: utf8Decode fuel (rest.drop 1)
    else if b < 0xF0 then
      Char.ofNat (b % 16 * 4096 + rest.getD 0 0 % 64 * 64 + rest.getD 1 0 % 64) ::
        utf8Decode fuel (rest.drop 2)
    else
      Char.ofNat (b % 8 * 262144 + rest.getD 0 0 % 64 * 4096 + rest.getD 1 0 % 64 * 64 +
        rest.getD 2 0 % 64) :: utf8Decode fuel (rest.drop 3)

/-- The conversion `string(b)` of well-formed UTF-8 bytes. -/
def bytesString (b : Bytes) : String :=
  String.mk (utf8Decode b.length b)

/-- The type code and the bytes of a value. -/
def encodeValue : Value → Nat × Bytes
  | .nil => (TypeNil, [])
  | .str s => (TypeString, putUint 2 (stringBytes s).length ++ stringBytes s)

/-- The length of the key directory of the given entries. -/
def keysLen (entries : List (String × Value)) : Nat :=
  (entries.map (fun e =>
    (stringBytes e.1).length + 2 + 1 + (if (encodeValue e.2).2.length > 0 then 4 else 0))).sum

/-- The key directory and the values of the given entries, the first value being laid
out at `valueOffset`. -/
def layout : List (String × Value) → Nat → Bytes × Bytes
  | [], _ => ([], [])
  | (key, value) :: rest, valueOffset =>
    let (t, v) := encodeValue value
    let k := stringBytes key
    if t = TypeNil then
      let (dir, vals) := layout rest valueOffset
      (putUint 2 k.length ++ k ++ [t] ++ dir, vals)
    else
      let (dir, vals) := layout rest (valueOffset + v.length)
      (putUint 2 k.length ++ k ++ [t] ++ putUint 4 valueOffset ++ dir, v ++ vals)

/-- The constructor `bytemap.New` on the entries of a map, taken in the ascending order
of their keys. -/
def New (entries : List (String × Value)) : Bytes :=
  let sorted := entries.insertionSort (fun a b => core.stringLE a.1 b.1)
  (layout sorted (keysLen sorted)).1 ++ (layout sorted (keysLen sorted)).2

/-- The bytes of the value of type `t` laid out at `offset`. -/
def valueBytesAt (bm : Bytes) (offset t : Nat) : Bytes :=
  if t = TypeString then (bm.drop offset).take (uint ((bm.drop offset).take 2) + 2) else []

/-- The entries of the key directory from `keyOffset` on, each with its key, the type
of its value and the bytes of its value. -/
def directory (bm : Bytes) : Nat → Nat → Nat → List (Bytes × Nat × Bytes)
  | 0, _, _ => []
  | fuel + 1, keyOffset, firstValueOffset =>
    if keyOffset ≥ bm.length then []
    else
      let keyLen := uint ((bm.drop keyOffset).take 2)
      let key := (bm.drop (keyOffset + 2)).take keyLen
      let t := bm.getD (keyOffset + 2 + keyLen) 0
      if t = TypeNil then
        let next := keyOffset + 2 + keyLen + 1
        (key, t, []) ::
          (if firstValueOffset > 0 ∧ next ≥ firstValueOffset then []
           else directory bm fuel next firstValueOffset)
      else
        let valueOffset := uint ((bm.drop (keyOffset + 2 + keyLen + 1)).take 4)
        let first := if firstValueOffset = 0 then valueOffset else firstValueOffset
        let next := keyOffset + 2 + keyLen + 1 + 4
        (key, t, valueBytesAt bm valueOffset t) ::
          (if first > 0 ∧ next ≥ first then [] else directory bm fuel next first)

/-- The entry of the key directory for `key`, if there is one. -/
def find (bm : Bytes) (key : String) : Option (Bytes × Nat × Bytes) :=
  (directory bm bm.length 0 0).find? (fun e => e.1 == stringBytes key)

/-- The method `ByteMap.GetBytes`: the bytes of the value for `key`, nil when the key
is not found or its value is nil. -/
def GetBytes (bm : Bytes) (key : String) : Bytes :=
  match find bm key with
  | some (_, _, v) => v
  | none => []

/-- Whether `key` is in the key directory. -/
def Contains (bm : Bytes) (key : String) : Bool :=
  (find bm key).isSome

/-- The method `ByteMap.Get`: the value for `key`, nil when the key is not found. -/
def Get (bm : Bytes) (key : String) : Value :=
  match find bm key with
  | some (_, t, v) => if t = TypeString then .str (bytesString (v.drop 2)) else .nil
  | none => .nil

/-- The entries of a byte-map as keys and values. -/
def entries (bm : Bytes) : List (String × Value) :=
  (directory bm bm.length 0 0).map (fun e =>
    (bytesString e.1, if e.2.1 = TypeString then Value.str (bytesString (e.2.2.drop 2))
      else Value.nil))

/-- The method `ByteMap.Split` for one key: the map of the entry of that key, if there
is one, and the map of all other entries. -/
def Split (bm : Bytes) (key : String) : Bytes × Bytes :=
  (New ((entries bm).filter (fun e => e.1 == key)),
   New ((entries bm).filter (fun e => !(e.1 == key))))

/-- The accessors over this layout. -/
def lib : ByteMapLib :=
  { GetBytes := GetBytes, Contains := Contains }

/-- Lines 33-34 of crosstab.go: the split of a key at `_crosstab` and the read of the
crosstab value; `none` is the panic of the type assertion `.(string)`. -/
def splitCrosstab (bm : Bytes) : Option (String × Bytes) :=
  let (_ct, key) := Split bm "_crosstab"
  match Get _ct "_crosstab" with
  | .str ct => some (ct, key)
  | .nil => none

end bytemap

/-! ## The scenarios of the examples -/

namespace scenario

/-- The surroundings of the examples: byte-map keys, insertion sort, no deadline. -/
def env : core.CrosstabEnv :=
  { split := bytemap.splitCrosstab, sortRows := core.crosstabRows.insertionSort,
    deadlineHit := fun _ => false }

/-- A row callback that records the rows it receives and always proceeds. -/
def collect (st : List core.FlatRow) (r : core.FlatRow) :
    List core.FlatRow × (Bool × Option GoError) :=
  (st ++ [r], core.proceed)

/-- A row callback that records the rows it receives and always asks to stop. -/
def collectThenStop (st : List core.FlatRow) (r : core.FlatRow) :
    List core.FlatRow × (Bool × Option GoError) :=
  (st ++ [r], core.stop)

/-- An input row of the examples: a timestamp, a key and the value of the one field. -/
def inputRow (ts : Int) (key : List (String × bytemap.Value)) (v : float64) : core.FlatRow :=
  { TS := ts, Key := bytemap.New key, Values := [v], Totals := [], fields := [] }

/-- Scenario S6: one field `v`, two rows with the same key and timestamp and the
crosstab values "x" and "y"; the residual key is `a = "b"`. -/
def scenarioS6 (err : Option GoError) : core.SourceRun :=
  { events := [.fields [core.NewField "v" { id := 0 }],
      .row (inputRow 1 [("_crosstab", .str "x"), ("a", .str "b")] 1),
      .row (inputRow 1 [("_crosstab", .str "y"), ("a", .str "b")] 2)],
    err := err }

/-- The rows that a run delivered to `onRow`, in order. -/
def rowsOf : List core.Call → List core.FlatRow
  | [] => []
  | .onFields _ _ :: rest => rowsOf rest
  | .onRow r _ _ :: rest => r :: rowsOf rest

/-- The number of distinct pairs of residual key and timestamp among buffered rows. -/
def distinctKeyTS (rows : core.crosstabRows) : Nat :=
  ((rows.map (fun r => (r.key, r.row.TS))).dedup).length

/-- The three fields of scenario S6. -/
def fieldsS6 : core.Fields :=
  [core.NewField "x_v" { id := 0 }, core.NewField "y_v" { id := 0 },
   core.NewField "total_v" { id := 0 }]

/-- An output row of scenario S6: timestamp 1, the residual key, the values, a nil
`Totals` and the three output fields. -/
def outputRow (key : List (String × bytemap.Value)) (values : List float64) : core.FlatRow :=
  { TS := 1, Key := bytemap.New key, Values := values, Totals := [], fields := fieldsS6 }

/-- Two rows with the same key, the same timestamp and the same crosstab value "x". -/
def scenarioSameCT : core.SourceRun :=
  { events := [.fields [core.NewField "v" { id := 0 }],
      .row (inputRow 1 [("_crosstab", .str "x")] 1),
      .row (inputRow 1 [("_crosstab", .str "x")] 2)],
    err := none }

/-- Scenario S6 with rows whose only dimension is `_crosstab` (empty residual key). -/
def scenarioS6NoKey (err : Option GoError) : core.SourceRun :=
  { events := [.fields [core.NewField "v" { id := 0 }],
      .row (inputRow 1 [("_crosstab", .str "x")] 1),
      .row (inputRow 1 [("_crosstab", .str "y")] 2)],
    err := err }

/-- One field `v`, two rows with the crosstab values "b c" and "a". -/
def scenarioSpaced : core.SourceRun :=
  { events := [.fields [core.NewField "v" { id := 7 }],
      .row (inputRow 1 [("_crosstab", .str "b c")] 1),
      .row (inputRow 1 [("_crosstab", .str "a")] 2)],
    err := none }

/-- One field `v` and a row whose key has no `_crosstab` dimension. -/
def scenarioNoCrosstab : core.SourceRun :=
  { events := [.fields [core.NewField "v" { id := 0 }],
      .row (inputRow 1 [("a", .str "b")] 1)],
    err := none }

/-- The rows of scenario S6 without residual key, as buffered. -/
def bufferedS6NoKey : core.crosstabRows :=
  [{ row := inputRow 1 [("_crosstab", .str "x")] 1, ct := "x", key := [] },
   { row := inputRow 1 [("_crosstab", .str "y")] 2, ct := "y", key := [] }]

/-- Scenario S6 without residual key and with the values `2^53` and 1. -/
def scenarioLarge : core.SourceRun :=
  { events := [.fields [core.NewField "v" { id := 0 }],
      .row (inputRow 1 [("_crosstab", .str "x")] 9007199254740992),
      .row (inputRow 1 [("_crosstab", .str "y")] 1)],
    err := none }

/-- A row callback of a stage that counts the rows and always proceeds. -/
def keepGoing {ρ : Type} (st : Nat) (_ : ρ) : Nat × (Bool × Option GoError) :=
  (st + 1, core.proceed)

/-- A fields callback that succeeds. -/
def acceptFields (st : List core.FlatRow) (_ : core.Fields) :
    List core.FlatRow × Option GoError :=
  (st, none)

end scenario

end Zenodb


/-! # Properties -/

namespace Zenodb

set_option maxRecDepth 100000

/-! ## Follower partitioning -/


theorem intOfUint32_eq (x : Nat) : intOfUint32 x = ((x % 2 ^ 32 : Nat) : Int) := by
  unfold intOfUint32
  have h : x % 2 ^ 32 < 2 ^ 32 := Nat.mod_lt _ (by norm_num)
  have h2 : (x % 2 ^ 32) % 2 ^ 64 = x % 2 ^ 32 := Nat.mod_eq_of_lt (by omega)
  simp only [h2]
  rw [if_pos (by omega)]

theorem entryPartition_eq (lib : ByteMapLib) (murmur3_32 : Bytes → Nat) (opts : DBOpts)
    (data : Bytes) (hN : 1 ≤ opts.NumPartitions) :
    entryPartition lib murmur3_32 opts data = some (partitionSpec murmur3_32 lib opts data) := by
  unfold entryPartition goRem partitionSpec
  rw [if_neg (by omega), intOfUint32_eq]
  congr 1
  exact Int.tmod_eq_emod (Int.ofNat_nonneg _) (by omega)


theorem follow_stopped {σ : Type} (lib : ByteMapLib) (murmur3_32 : Bytes → Nat) (opts : DBOpts)
    (f : Follow) (cb : σ → Bytes → Nat → σ × Option GoError) (reads : List ReadResult)
    (run : FollowRun σ) (h : run.status ≠ .reading) :
    reads.foldl (DB.followStep lib murmur3_32 opts f cb) run = run := by
  induction reads with
  | nil => rfl
  | cons r rest ih =>
    have hstep : DB.followStep lib murmur3_32 opts f cb run r = run := by
      unfold DB.followStep
      cases hs : run.status with
      | reading => exact absurd hs h
      | returned e => rfl
      | panicked => rfl
    rw [List.foldl_cons, hstep, ih]

theorem follow_calls {σ : Type} (lib : ByteMapLib) (murmur3_32 : Bytes → Nat) (opts : DBOpts)
    (f : Follow) (cb : σ → Bytes → Nat → σ × Option GoError)
    (hN : 1 ≤ opts.NumPartitions) (reads : List ReadResult) :
    ∀ run : FollowRun σ, run.status = .reading →
      ∃ c, (reads.foldl (DB.followStep lib murmur3_32 opts f cb) run).calls = run.calls ++ c ∧
        c <+: acceptedEntries murmur3_32 lib opts f.Partition reads ∧
        ((reads.foldl (DB.followStep lib murmur3_32 opts f cb) run).status = .reading →
          c = acceptedEntries murmur3_32 lib opts f.Partition reads) ∧
        (reads.foldl (DB.followStep lib murmur3_32 opts f cb) run).status ≠ .panicked := by
  induction reads with
  | nil =>
    intro run hrun
    exact ⟨[], by simp, by simp [acceptedEntries], by simp [acceptedEntries], by simp [hrun]⟩
  | cons r rest ih =>
    intro run hrun
    rw [List.foldl_cons]
    cases r with
    | failed =>
      have hstep : DB.followStep lib murmur3_32 opts f cb run .failed = run := by
        simp [DB.followStep, hrun]
      rw [hstep]
      simpa [acceptedEntries] using ih run hrun
    | entry data offset =>
      cases data with
      | none =>
        have hstep : DB.followStep lib murmur3_32 opts f cb run (.entry none offset) = run := by
          simp [DB.followStep, hrun]
        rw [hstep]
        simpa [acceptedEntries] using ih run hrun
      | some data =>
        have hpart := entryPartition_eq lib murmur3_32 opts data hN
        by_cases hp : partitionSpec murmur3_32 lib opts data = f.Partition
        · cases hcb : cb run.st data offset with
          | mk st err =>
            cases err with
            | none =>
              have hstep : DB.followStep lib murmur3_32 opts f cb run (.entry (some data) offset)
                  = { st := st, calls := run.calls ++ [(data, offset)], status := .reading } := by
                simp [DB.followStep, hrun, hpart, hp, hcb]
              rw [hstep]
              obtain ⟨c, hc1, hc2, hc3, hc4⟩ := ih
                { st := st, calls := run.calls ++ [(data, offset)], status := .reading } rfl
              refine ⟨(data, offset) :: c, ?_, ?_, ?_, hc4⟩
              · rw [hc1]; simp
              · simp only [acceptedEntries, hp, if_true]
                exact (List.prefix_cons_inj _).mpr hc2
              · intro hst
                simp only [acceptedEntries, hp, if_true]
                rw [hc3 hst]
            | some e =>
              have hstep : DB.followStep lib murmur3_32 opts f cb run (.entry (some data) offset)
                  = { st := st, calls := run.calls ++ [(data, offset)], status := .returned e } := by
                simp [DB.followStep, hrun, hpart, hp, hcb]
              rw [hstep, follow_stopped _ _ _ _ _ _ _ (by simp)]
              refine ⟨[(data, offset)], rfl, ?_, ?_, by simp⟩
              · simp only [acceptedEntries, hp, if_true]
                exact (List.prefix_cons_inj _).mpr (List.nil_prefix)
              · intro hst
                simp at hst
        · have hstep : DB.followStep lib murmur3_32 opts f cb run (.entry (some data) offset)
              = run := by
            simp [DB.followStep, hrun, hpart, hp]
          rw [hstep]
          simpa [acceptedEntries, hp] using ih run hrun

/-- C1. Follower filtering: with `NumPartitions >= 1`, the invocations of `cb` made by
`Follow` are, in order, exactly the non-nil entries read whose
`murmur3_32(partition bytes) mod NumPartitions` equals the follower's partition (all of
them while the callback has not failed, a prefix of them in any case), each passed
with the offset after its read; no other entry reaches `cb`, and no run panics. -/
theorem follow_filters_by_partition {σ : Type} (lib : ByteMapLib) (murmur3_32 : Bytes → Nat)
    (opts : DBOpts) (f : Follow) (cb : σ → Bytes → Nat → σ × Option GoError)
    (reads : List ReadResult) (st : σ) (hN : 1 ≤ opts.NumPartitions) :
    (DB.Follow lib murmur3_32 opts f cb reads st).calls <+:
        acceptedEntries murmur3_32 lib opts f.Partition reads ∧
      ((DB.Follow lib murmur3_32 opts f cb reads st).status = .reading →
        (DB.Follow lib murmur3_32 opts f cb reads st).calls =
          acceptedEntries murmur3_32 lib opts f.Partition reads) ∧
      (DB.Follow lib murmur3_32 opts f cb reads st).status ≠ .panicked := by
  obtain ⟨c, hc1, hc2, hc3, hc4⟩ := follow_calls lib murmur3_32 opts f cb hN reads
    { st := st, calls := [], status := .reading } rfl
  have hc : (DB.Follow lib murmur3_32 opts f cb reads st).calls = c := by
    simpa [DB.Follow] using hc1
  refine ⟨hc ▸ hc2, ?_, hc4⟩
  intro hst
  rw [hc]
  exact hc3 hst


/-- The follower of partition 2 among 4, partitioning by `client`, the log holding an
entry of client "A" (partition 2), a nil read, a failed read and an entry of client "B"
(partition 3): only the first entry is delivered. -/
theorem follow_filters_by_partition_witness :
    (1 : Int) ≤ (DBOpts.mk ["client"] 4).NumPartitions ∧
      (DB.Follow bytemap.lib murmur3.Sum32 (DBOpts.mk ["client"] 4) (Follow.mk "s" 0 2)
          recordEntry
          [.entry (some (walEntry [0, 0, 0, 0, 0, 0, 0, 0]
              (bytemap.New [("client", .str "A"), ("country", .str "X")]) [7])) 10,
           .entry none 11, .failed,
           .entry (some (walEntry [0, 0, 0, 0, 0, 0, 0, 0]
              (bytemap.New [("client", .str "B")]) [7])) 12] []).calls =
        [(walEntry [0, 0, 0, 0, 0, 0, 0, 0]
            (bytemap.New [("client", .str "A"), ("country", .str "X")]) [7], 10)] ∧
      (DB.Follow bytemap.lib murmur3.Sum32 (DBOpts.mk ["client"] 4) (Follow.mk "s" 0 2)
          recordEntry
          [.entry (some (walEntry [0, 0, 0, 0, 0, 0, 0, 0]
              (bytemap.New [("client", .str "A"), ("country", .str "X")]) [7])) 10,
           .entry none 11, .failed,
           .entry (some (walEntry [0, 0, 0, 0, 0, 0, 0, 0]
              (bytemap.New [("client", .str "B")]) [7])) 12] []).status ≠ .panicked :=
  ⟨by decide, by decide,
    (follow_filters_by_partition bytemap.lib murmur3.Sum32 (DBOpts.mk ["client"] 4)
      (Follow.mk "s" 0 2) recordEntry _ [] (by decide)).2.2⟩

theorem partitionData_eq (lib : ByteMapLib) (PartitionBy : List String) (dims : Bytes) :
    partitionData lib PartitionBy dims =
      match firstNonEmptyDim lib PartitionBy dims with
      | some dim => lib.GetBytes dims dim
      | none => dims := by
  induction PartitionBy with
  | nil => rfl
  | cons dim rest ih =>
    unfold partitionData firstNonEmptyDim
    by_cases h : (lib.GetBytes dims dim).length > 0
    · simp [List.find?, h]
    · simp only [h, if_false, List.find?, decide_False]
      exact ih

/-- C2, as the code has it. Partition-bytes selection: the bytes that `Follow` hashes
are the value of the first dimension of `PartitionBy` whose value in the entry's dims is
not empty (`GetBytes` returns at least one byte), and the full dims bytes when no listed
dimension has such a value; consequently two entries with the same non-empty value for
that dimension are assigned the same partition, the hash of that value modulo
`NumPartitions`, whatever their other dimensions. -/
theorem partition_bytes_first_nonempty (lib : ByteMapLib) (murmur3_32 : Bytes → Nat)
    (opts : DBOpts) (data1 data2 : Bytes) (dim : String)
    (h1 : firstNonEmptyDim lib opts.PartitionBy (entryDims data1) = some dim)
    (h2 : firstNonEmptyDim lib opts.PartitionBy (entryDims data2) = some dim)
    (hv : lib.GetBytes (entryDims data1) dim = lib.GetBytes (entryDims data2) dim) :
    (∀ (PartitionBy : List String) (dims : Bytes),
        partitionData lib PartitionBy dims =
          match firstNonEmptyDim lib PartitionBy dims with
          | some d => lib.GetBytes dims d
          | none => dims) ∧
      partitionData lib opts.PartitionBy (entryDims data1) = lib.GetBytes (entryDims data1) dim ∧
      entryPartition lib murmur3_32 opts data1 = entryPartition lib murmur3_32 opts data2 ∧
      entryPartition lib murmur3_32 opts data1 =
        goRem (intOfUint32 (murmur3_32 (lib.GetBytes (entryDims data1) dim)))
          opts.NumPartitions := by
  have e1 : partitionData lib opts.PartitionBy (entryDims data1)
      = lib.GetBytes (entryDims data1) dim := by
    rw [partitionData_eq, h1]
  have e2 : partitionData lib opts.PartitionBy (entryDims data2)
      = lib.GetBytes (entryDims data2) dim := by
    rw [partitionData_eq, h2]
  refine ⟨partitionData_eq lib, e1, ?_, ?_⟩
  · unfold entryPartition
    rw [e1, e2, hv]
  · unfold entryPartition
    rw [e1]


/-- Scenario S5: partition by `client`, two entries with client "A" and different
countries, four partitions: the bytes hashed are the value as the byte-map lays it out,
`[1, 0, 65]`, and both entries get partition 2. -/
theorem partition_bytes_first_nonempty_witness :
    firstNonEmptyDim bytemap.lib (DBOpts.mk ["client"] 4).PartitionBy
        (entryDims (walEntry [0, 0, 0, 0, 0, 0, 0, 0]
          (bytemap.New [("client", .str "A"), ("country", .str "X")]) [])) = some "client" ∧
      partitionData bytemap.lib (DBOpts.mk ["client"] 4).PartitionBy
        (entryDims (walEntry [0, 0, 0, 0, 0, 0, 0, 0]
          (bytemap.New [("client", .str "A"), ("country", .str "X")]) [])) = [1, 0, 65] ∧
      entryPartition bytemap.lib murmur3.Sum32 (DBOpts.mk ["client"] 4)
          (walEntry [0, 0, 0, 0, 0, 0, 0, 0]
            (bytemap.New [("client", .str "A"), ("country", .str "X")]) []) =
        entryPartition bytemap.lib murmur3.Sum32 (DBOpts.mk ["client"] 4)
          (walEntry [0, 0, 0, 0, 0, 0, 0, 0]
            (bytemap.New [("client", .str "A"), ("country", .str "Y")]) []) ∧
      entryPartition bytemap.lib murmur3.Sum32 (DBOpts.mk ["client"] 4)
          (walEntry [0, 0, 0, 0, 0, 0, 0, 0]
            (bytemap.New [("client", .str "A"), ("country", .str "X")]) []) = some 2 :=
  ⟨by decide, by decide,
    (partition_bytes_first_nonempty bytemap.lib murmur3.Sum32 (DBOpts.mk ["client"] 4)
      (walEntry [0, 0, 0, 0, 0, 0, 0, 0]
        (bytemap.New [("client", .str "A"), ("country", .str "X")]) [])
      (walEntry [0, 0, 0, 0, 0, 0, 0, 0]
        (bytemap.New [("client", .str "A"), ("country", .str "Y")]) [])
      "client" (by decide) (by decide) (by decide)).2.2.1,
    by decide⟩

/-- C2, as stated, fails. In the dims `client = nil, country = "X"` the first dimension
of `PartitionBy = [client, country]` that is present is `client`, but the bytes hashed
are those of `country`, and with `PartitionBy = [client]` they are the full dims. And the
bytes hashed for a string value are not the string: for `client = "B"` they are
`[1, 0, 66]`, which puts the entry in partition 3 of 4, where the hash of "B" gives 2. -/
theorem partition_bytes_nil_valued_dimension :
    bytemap.lib.Contains (bytemap.New [("client", .nil), ("country", .str "X")]) "client"
        = true ∧
      partitionBytesSpec bytemap.lib ["client", "country"]
        (bytemap.New [("client", .nil), ("country", .str "X")]) = [] ∧
      partitionData bytemap.lib ["client", "country"]
        (bytemap.New [("client", .nil), ("country", .str "X")]) = [1, 0, 88] ∧
      partitionData bytemap.lib ["client"]
        (bytemap.New [("client", .nil), ("country", .str "X")]) =
          bytemap.New [("client", .nil), ("country", .str "X")] ∧
      partitionData bytemap.lib ["client"] (bytemap.New [("client", .str "B")]) = [1, 0, 66] ∧
      bytemap.stringBytes "B" = [66] ∧
      entryPartition bytemap.lib murmur3.Sum32 (DBOpts.mk ["client"] 4)
        (walEntry [0, 0, 0, 0, 0, 0, 0, 0] (bytemap.New [("client", .str "B")]) []) = some 3 ∧
      goRem (intOfUint32 (murmur3.Sum32 (bytemap.stringBytes "B"))) 4 = some 2 ∧
      ¬ (∀ (lib : ByteMapLib) (PartitionBy : List String) (dims : Bytes),
          partitionData lib PartitionBy dims = partitionBytesSpec lib PartitionBy dims) := by
  refine ⟨by decide, by decide, by decide, by decide, by decide, by decide, by decide,
    by decide, ?_⟩
  intro h
  have := h bytemap.lib ["client", "country"]
    (bytemap.New [("client", .nil), ("country", .str "X")])
  revert this
  decide

/-! ## One partition per entry -/

theorem follow_single_entry {σ : Type} (lib : ByteMapLib) (murmur3_32 : Bytes → Nat)
    (opts : DBOpts) (f : Follow) (cb : σ → Bytes → Nat → σ × Option GoError)
    (data : Bytes) (offset : Nat) (st : σ) (hN : 1 ≤ opts.NumPartitions) :
    (DB.Follow lib murmur3_32 opts f cb [.entry (some data) offset] st).calls =
      if partitionSpec murmur3_32 lib opts data = f.Partition then [(data, offset)] else [] := by
  have hpart := entryPartition_eq lib murmur3_32 opts data hN
  unfold DB.Follow
  rw [List.foldl_cons, List.foldl_nil]
  unfold DB.followStep
  simp only [hpart]
  by_cases hp : partitionSpec murmur3_32 lib opts data = f.Partition
  · rw [if_pos hp, if_pos hp]
    cases hcb : cb st data offset with
    | mk st1 err =>
      cases err <;> simp
  · rw [if_neg hp, if_neg hp]

/-- C12. Exactly one partition per entry: with `NumPartitions >= 1` (and the 64-bit `int`
of this development) the value `int(Sum32) % NumPartitions` that `Follow` computes for an
entry lies in `[0, NumPartitions)`, and a follower is handed the entry exactly when its
partition is that value: of the followers 0 to `NumPartitions - 1` exactly one accepts
the entry. -/
theorem follow_exactly_one_partition {σ : Type} (lib : ByteMapLib) (murmur3_32 : Bytes → Nat)
    (opts : DBOpts) (cb : σ → Bytes → Nat → σ × Option GoError)
    (stream : String) (start : Nat) (data : Bytes) (offset : Nat) (st : σ)
    (hN : 1 ≤ opts.NumPartitions) :
    ∃ p : Int, entryPartition lib murmur3_32 opts data = some p ∧
      0 ≤ p ∧ p < opts.NumPartitions ∧
      (∀ q : Int,
        ((DB.Follow lib murmur3_32 opts (Follow.mk stream start q) cb
            [.entry (some data) offset] st).calls = [(data, offset)] ↔ q = p) ∧
        (q ≠ p → (DB.Follow lib murmur3_32 opts (Follow.mk stream start q) cb
            [.entry (some data) offset] st).calls = [])) ∧
      ∃! q : Int, 0 ≤ q ∧ q < opts.NumPartitions ∧
        (DB.Follow lib murmur3_32 opts (Follow.mk stream start q) cb
          [.entry (some data) offset] st).calls = [(data, offset)] := by
  have hpos : (0 : Int) < opts.NumPartitions := by omega
  have h0 : 0 ≤ partitionSpec murmur3_32 lib opts data :=
    Int.emod_nonneg _ (by omega)
  have h1 : partitionSpec murmur3_32 lib opts data < opts.NumPartitions :=
    Int.emod_lt_of_pos _ hpos
  have hq : ∀ q : Int,
      ((DB.Follow lib murmur3_32 opts (Follow.mk stream start q) cb
          [.entry (some data) offset] st).calls = [(data, offset)] ↔
        q = partitionSpec murmur3_32 lib opts data) ∧
      (q ≠ partitionSpec murmur3_32 lib opts data →
        (DB.Follow lib murmur3_32 opts (Follow.mk stream start q) cb
          [.entry (some data) offset] st).calls = []) := by
    intro q
    rw [follow_single_entry lib murmur3_32 opts _ cb data offset st hN]
    by_cases hp : partitionSpec murmur3_32 lib opts data = q
    · simp [hp]
    · have hp' : ¬ q = partitionSpec murmur3_32 lib opts data := fun e => hp e.symm
      simp [hp, hp']
  refine ⟨_, entryPartition_eq lib murmur3_32 opts data hN, h0, h1, hq, ?_⟩
  refine ⟨partitionSpec murmur3_32 lib opts data, ⟨h0, h1, (hq _).1.mpr rfl⟩, ?_⟩
  rintro q ⟨_, _, hcalls⟩
  exact (hq q).1.mp hcalls


/-- Scenario S5 with the murmur3 hash: the bytes hashed for client "A" are `[1, 0, 65]`,
whose hash 4065508678 exceeds `2^31`, and the entry belongs to partition 2 of 4. -/
theorem follow_exactly_one_partition_witness :
    (1 : Int) ≤ (DBOpts.mk ["client"] 4).NumPartitions ∧
      entryPartition bytemap.lib murmur3.Sum32 (DBOpts.mk ["client"] 4)
        (walEntry [0, 0, 0, 0, 0, 0, 0, 0]
          (bytemap.New [("client", .str "A"), ("country", .str "X")]) [7]) = some 2 ∧
      murmur3.Sum32 [1, 0, 65] = 4065508678 ∧
      ∃! q : Int, 0 ≤ q ∧ q < (DBOpts.mk ["client"] 4).NumPartitions ∧
        (DB.Follow bytemap.lib murmur3.Sum32 (DBOpts.mk ["client"] 4) (Follow.mk "s" 0 q)
          recordEntry
          [.entry (some (walEntry [0, 0, 0, 0, 0, 0, 0, 0]
            (bytemap.New [("client", .str "A"), ("country", .str "X")]) [7])) 10] []).calls =
          [(walEntry [0, 0, 0, 0, 0, 0, 0, 0]
            (bytemap.New [("client", .str "A"), ("country", .str "X")]) [7], 10)] := by
  obtain ⟨p, _, _, _, _, hex⟩ := follow_exactly_one_partition bytemap.lib murmur3.Sum32
    (DBOpts.mk ["client"] 4) recordEntry "s" 0
    (walEntry [0, 0, 0, 0, 0, 0, 0, 0]
      (bytemap.New [("client", .str "A"), ("country", .str "X")]) [7]) 10 [] (by decide)
  exact ⟨by decide, by decide, by decide, hex⟩


/-! ## Orders on byte slices and strings -/

namespace core

theorem lexLess_irrefl (a : List Nat) : lexLess a a = false := by
  induction a with
  | nil => rfl
  | cons x xs ih => simp [lexLess, ih]

theorem lexLess_trans : ∀ a b c : List Nat, lexLess a b = true → lexLess b c = true →
    lexLess a c = true
  | _, [], _, h, _ => by simp [lexLess] at h
  | _, _ :: _, [], _, h => by simp [lexLess] at h
  | [], _ :: _, _ :: _, _, _ => by simp [lexLess]
  | x :: xs, y :: ys, z :: zs, h1, h2 => by
    simp only [lexLess, Bool.or_eq_true, decide_eq_true_eq, Bool.and_eq_true, beq_iff_eq] at *
    rcases h1 with h1 | ⟨h1, h1r⟩
    · rcases h2 with h2 | ⟨h2, _⟩
      · left; omega
      · left; omega
    · rcases h2 with h2 | ⟨h2, h2r⟩
      · left; omega
      · right; exact ⟨by omega, lexLess_trans xs ys zs h1r h2r⟩

theorem lexLess_total : ∀ a b : List Nat, lexLess a b = false → lexLess b a = false → a = b
  | [], [], _, _ => rfl
  | [], _ :: _, h, _ => by simp [lexLess] at h
  | _ :: _, [], _, h => by simp [lexLess] at h
  | x :: xs, y :: ys, h1, h2 => by
    simp only [lexLess, Bool.or_eq_false_iff, decide_eq_false_iff_not, Bool.and_eq_false_imp,
      beq_iff_eq] at h1 h2
    have hxy : x = y := by omega
    subst hxy
    rw [lexLess_total xs ys (h1.2 rfl) (h2.2 rfl)]

theorem lexLess_asymm (a b : List Nat) (h : lexLess a b = true) : lexLess b a = false := by
  by_contra hba
  have hba : lexLess b a = true := by simpa using hba
  have := lexLess_trans a b a h hba
  rw [lexLess_irrefl] at this
  exact Bool.noConfusion this

theorem char_toNat_injective (a b : Char) (h : a.toNat = b.toNat) : a = b := by
  apply Char.ext
  cases' a with av ah
  cases' b with bv bh
  simp only [Char.toNat] at h
  cases' av with af
  cases' bv with bf
  simp only [UInt32.toNat] at h
  congr
  exact BitVec.eq_of_toNat_eq h

theorem codes_injective (a b : String) (h : codes a = codes b) : a = b := by
  have hinj : Function.Injective (List.map Char.toNat) :=
    List.map_injective_iff.mpr (fun x y hxy => char_toNat_injective x y hxy)
  have hd : a.data = b.data := hinj h
  cases a; cases b; simp_all

instance stringLE_isTotal : IsTotal String stringLE where
  total a b := by
    unfold stringLE stringLess
    by_cases h : lexLess (codes b) (codes a) = true
    · right; exact lexLess_asymm _ _ h
    · left; simpa using h

instance stringLE_isTrans : IsTrans String stringLE where
  trans a b c hab hbc := by
    unfold stringLE stringLess at *
    by_contra hca
    have hca : lexLess (codes c) (codes a) = true := by simpa using hca
    by_cases hbc2 : lexLess (codes b) (codes c) = true
    · have := lexLess_trans _ _ _ hbc2 hca
      rw [hab] at this
      exact Bool.noConfusion this
    · have hbc2 : lexLess (codes b) (codes c) = false := by simpa using hbc2
      have heq := lexLess_total _ _ hbc2 hbc
      rw [heq] at hab
      rw [hab] at hca
      exact Bool.noConfusion hca

theorem stringLess_of_le_of_ne (a b : String) (h : stringLE a b) (hne : a ≠ b) :
    stringLess a b = true := by
  unfold stringLE stringLess at *
  by_contra hab
  have hab : lexLess (codes a) (codes b) = false := by simpa using hab
  exact hne (codes_injective a b (lexLess_total _ _ hab h))

/-! ## The crosstab values and the output fields -/

theorem uniqueCTs_fold (rows : crosstabRows) :
    ∀ acc : List String, acc.Nodup →
      (rows.foldl (fun acc r => if r.ct ∈ acc then acc else acc ++ [r.ct]) acc).Nodup ∧
      ∀ ct, ct ∈ rows.foldl (fun acc r => if r.ct ∈ acc then acc else acc ++ [r.ct]) acc ↔
        ct ∈ acc ∨ ∃ r ∈ rows, r.ct = ct := by
  induction rows with
  | nil => intro acc h; simp [h]
  | cons r rest ih =>
    intro acc h
    rw [List.foldl_cons]
    by_cases hm : r.ct ∈ acc
    · rw [if_pos hm]
      obtain ⟨h1, h2⟩ := ih acc h
      refine ⟨h1, fun ct => ?_⟩
      rw [h2]
      constructor
      · rintro (h | ⟨r', hr', e⟩)
        · exact Or.inl h
        · exact Or.inr ⟨r', List.mem_cons_of_mem _ hr', e⟩
      · rintro (h | ⟨r', hr', e⟩)
        · exact Or.inl h
        · rcases List.mem_cons.mp hr' with rfl | hr'
          · exact Or.inl (e ▸ hm)
          · exact Or.inr ⟨r', hr', e⟩
    · rw [if_neg hm]
      have hnd : (acc ++ [r.ct]).Nodup := by
        rw [List.nodup_append]
        refine ⟨h, by simp, ?_⟩
        intro x hx hx'
        simp only [List.mem_singleton] at hx'
        exact hm (hx' ▸ hx)
      obtain ⟨h1, h2⟩ := ih (acc ++ [r.ct]) hnd
      refine ⟨h1, fun ct => ?_⟩
      rw [h2]
      constructor
      · rintro (h | ⟨r', hr', e⟩)
        · rcases List.mem_append.mp h with h | h
          · exact Or.inl h
          · exact Or.inr ⟨r, List.mem_cons_self _ _, (List.mem_singleton.mp h).symm⟩
        · exact Or.inr ⟨r', List.mem_cons_of_mem _ hr', e⟩
      · rintro (h | ⟨r', hr', e⟩)
        · exact Or.inl (List.mem_append_left _ h)
        · rcases List.mem_cons.mp hr' with rfl | hr'
          · exact Or.inl (List.mem_append_right _ (by simp [e]))
          · exact Or.inr ⟨r', hr', e⟩

theorem uniqueCTs_nodup (rows : crosstabRows) : (uniqueCTs rows).Nodup :=
  (uniqueCTs_fold rows [] List.nodup_nil).1

theorem mem_uniqueCTs (rows : crosstabRows) (ct : String) :
    ct ∈ uniqueCTs rows ↔ ∃ r ∈ rows, r.ct = ct := by
  have := (uniqueCTs_fold rows [] List.nodup_nil).2 ct
  simpa [uniqueCTs] using this

theorem sortedCTs_perm (rows : crosstabRows) : (sortedCTs rows).Perm (uniqueCTs rows) :=
  List.perm_insertionSort _ _

theorem sortedCTs_length (rows : crosstabRows) :
    (sortedCTs rows).length = (uniqueCTs rows).length :=
  (sortedCTs_perm rows).length_eq

theorem sortedCTs_nodup (rows : crosstabRows) : (sortedCTs rows).Nodup :=
  (sortedCTs_perm rows).nodup_iff.mpr (uniqueCTs_nodup rows)

theorem mem_sortedCTs (rows : crosstabRows) (ct : String) :
    ct ∈ sortedCTs rows ↔ ∃ r ∈ rows, r.ct = ct := by
  rw [(sortedCTs_perm rows).mem_iff, mem_uniqueCTs]

theorem sortedCTs_ascending (rows : crosstabRows) :
    (sortedCTs rows).Pairwise (fun a b => stringLess a b = true) := by
  have hs : (sortedCTs rows).Pairwise stringLE := List.sorted_insertionSort stringLE _
  have hn : (sortedCTs rows).Pairwise (fun a b => a ≠ b) := sortedCTs_nodup rows
  exact (hs.and hn).imp (fun h => stringLess_of_le_of_ne _ _ h.1 h.2)

theorem appendCTFields_eq (outFields : Fields) (ct : String) (inFields : Fields) :
    appendCTFields outFields ct inFields =
      outFields ++ inFields.map (fun field => NewField (ct ++ "_" ++ field.Name) field.Expr) := by
  unfold appendCTFields
  induction inFields generalizing outFields with
  | nil => simp
  | cons f rest ih => rw [List.foldl_cons, ih]; simp

theorem totalFields_eq (outFields : Fields) (inFields : Fields) :
    inFields.foldl (fun acc field => acc ++ [NewField ("total_" ++ field.Name) field.Expr])
        outFields =
      outFields ++ inFields.map (fun field => NewField ("total_" ++ field.Name) field.Expr) := by
  induction inFields generalizing outFields with
  | nil => simp
  | cons f rest ih => rw [List.foldl_cons, ih]; simp

theorem ctFields_fold (cts : List String) (inFields : Fields) (acc : Fields) :
    cts.foldl (fun acc ct => appendCTFields acc (replaceSpaces ct) inFields) acc =
      acc ++ cts.flatMap (fun ct => inFields.map
        (fun field => NewField (replaceSpaces ct ++ "_" ++ field.Name) field.Expr)) := by
  induction cts generalizing acc with
  | nil => simp
  | cons ct rest ih =>
    rw [List.foldl_cons, ih, appendCTFields_eq, List.flatMap_cons, List.append_assoc]

theorem buildOutFields_eq (cts : List String) (inFields : Fields) :
    buildOutFields cts inFields =
      cts.flatMap (fun ct => inFields.map
        (fun field => NewField (replaceSpaces ct ++ "_" ++ field.Name) field.Expr)) ++
      inFields.map (fun field => NewField ("total_" ++ field.Name) field.Expr) := by
  unfold buildOutFields
  rw [totalFields_eq, ctFields_fold, List.nil_append]

theorem buildOutFields_length (cts : List String) (inFields : Fields) :
    (buildOutFields cts inFields).length = (cts.length + 1) * inFields.length := by
  rw [buildOutFields_eq, List.length_append, List.length_map, List.length_flatMap]
  have : List.map (List.length ∘ fun ct => inFields.map
      (fun field => NewField (replaceSpaces ct ++ "_" ++ field.Name) field.Expr)) cts
      = List.replicate cts.length inFields.length := by
    induction cts with
    | nil => rfl
    | cons c rest ih => simp [List.replicate_succ, ih]
  rw [this, List.sum_replicate]
  simp [Nat.add_mul]

end core

namespace core

theorem stringsReplace_space (s : List Char) :
    stringsReplace [' '] ['_'] s 0 = s.map (fun c => if c = ' ' then '_' else c) := by
  induction s with
  | nil => rfl
  | cons c rest ih =>
    unfold stringsReplace
    by_cases hc : c = ' '
    · subst hc
      simp [List.isPrefixOf, ih]
    · have hc2 : ¬ (' ' = c) := fun e => hc e.symm
      simp [List.isPrefixOf, hc, hc2, ih]

theorem replaceSpaces_eq (ct : String) :
    replaceSpaces ct = String.mk (ct.data.map (fun c => if c = ' ' then '_' else c)) := by
  unfold replaceSpaces
  rw [stringsReplace_space]

theorem buildOutFields_spec (cts : List String) (inFields : Fields) :
    buildOutFields cts inFields = crosstabFields cts inFields := by
  rw [buildOutFields_eq]
  unfold crosstabFields NewField
  simp only [replaceSpaces_eq]

end core


/-! ## The callback invocations of the crosstab -/

namespace core

theorem foldRow_calls {σ : Type} (numInFields numCTs : Nat) (ctis : List (String × Nat))
    (row : crosstabRow) (s : LoopState σ) :
    (foldRow numInFields numCTs ctis row s).state.calls = s.calls := by
  unfold foldRow
  cases s.currentRow with
  | none => rfl
  | some cur =>
    dsimp only
    cases writeValues numInFields numCTs (ctisGet ctis row.ct) 0 row.row.Values cur.Values <;> rfl

theorem rowStep_calls {σ : Type} (env : CrosstabEnv)
    (onRow : σ → FlatRow → σ × (Bool × Option GoError))
    (numInFields numCTs : Nat) (ctis : List (String × Nat)) (outFields : Fields)
    (i : Nat) (row : crosstabRow) (s : LoopState σ) :
    ∃ extra, (rowStep env onRow numInFields numCTs ctis outFields i row s).state.calls
        = s.calls ++ extra ∧ ∀ c ∈ extra, Call.isRow c = true := by
  unfold rowStep
  split
  · exact ⟨[], by simp [LoopCtl.state], by simp⟩
  · simp only
    split
    · split
      · split
        · exact ⟨[], by simp [LoopCtl.state], by simp⟩
        · rename_i cur _
          cases hcb : onRow s.st cur with
          | mk st resp =>
            cases resp with
            | mk more onRowErr =>
              simp only
              cases onRowErr with
              | some e =>
                exact ⟨[Call.onRow cur more (some e)], by simp [LoopCtl.state],
                  by simp [Call.isRow]⟩
              | none =>
                simp only
                split
                · exact ⟨[Call.onRow cur more none], by simp [LoopCtl.state],
                    by simp [Call.isRow]⟩
                · refine ⟨[Call.onRow cur more none], ?_, by simp [Call.isRow]⟩
                  rw [foldRow_calls]
      · refine ⟨[], ?_, by simp⟩
        rw [foldRow_calls]; simp
    · refine ⟨[], ?_, by simp⟩
      rw [foldRow_calls]; simp

theorem rowLoop_calls {σ : Type} (env : CrosstabEnv)
    (onRow : σ → FlatRow → σ × (Bool × Option GoError))
    (numInFields numCTs : Nat) (ctis : List (String × Nat)) (outFields : Fields)
    (rows : crosstabRows) :
    ∀ (i : Nat) (s : LoopState σ),
      ∃ extra, (rowLoop env onRow numInFields numCTs ctis outFields i rows s).state.calls
        = s.calls ++ extra ∧ ∀ c ∈ extra, Call.isRow c = true := by
  induction rows with
  | nil => intro i s; exact ⟨[], by simp [rowLoop, LoopCtl.state], by simp⟩
  | cons row rest ih =>
    intro i s
    obtain ⟨e1, h1, h1r⟩ := rowStep_calls env onRow numInFields numCTs ctis outFields i row s
    unfold rowLoop
    cases hstep : rowStep env onRow numInFields numCTs ctis outFields i row s with
    | next s1 =>
      simp only
      obtain ⟨e2, h2, h2r⟩ := ih (i + 1) s1
      rw [hstep] at h1
      simp only [LoopCtl.state] at h1
      refine ⟨e1 ++ e2, ?_, ?_⟩
      · rw [h2, h1, List.append_assoc]
      · intro c hc
        rcases List.mem_append.mp hc with hc | hc
        · exact h1r c hc
        · exact h2r c hc
    | brk s1 => rw [hstep] at h1; exact ⟨e1, h1, h1r⟩
    | ret s1 e => rw [hstep] at h1; exact ⟨e1, h1, h1r⟩
    | panic s1 => rw [hstep] at h1; exact ⟨e1, h1, h1r⟩

theorem afterLoop_calls {σ : Type} (onRow : σ → FlatRow → σ × (Bool × Option GoError))
    (err : Option GoError) (s : LoopState σ) :
    ∃ extra, (afterLoop onRow err s).calls = s.calls ++ extra ∧
      ∀ c ∈ extra, Call.isRow c = true := by
  unfold afterLoop
  split
  · split
    · exact ⟨[], by simp, by simp⟩
    · rename_i cur _
      exact ⟨[Call.onRow cur (onRow s.st cur).2.1 (onRow s.st cur).2.2], by simp,
        by simp [Call.isRow]⟩
  · exact ⟨[], by simp, by simp⟩

theorem emit_calls {σ : Type} (env : CrosstabEnv) (inFields : Fields) (inRows : crosstabRows)
    (onFields : σ → Fields → σ × Option GoError)
    (onRow : σ → FlatRow → σ × (Bool × Option GoError)) (st : σ) :
    ∃ extra,
      (crosstabber.emit env inFields inRows onFields onRow st).calls =
        Call.onFields (buildOutFields (sortedCTs inRows) inFields)
          (onFields st (buildOutFields (sortedCTs inRows) inFields)).2 :: extra ∧
      ∀ c ∈ extra, Call.isRow c = true := by
  unfold crosstabber.emit
  dsimp only
  generalize onFields st (buildOutFields (sortedCTs inRows) inFields) = of
  obtain ⟨st1, err1⟩ := of
  cases err1 with
  | some e => exact ⟨[], by simp, by simp⟩
  | none =>
    dsimp only
    generalize hs0 : LoopState.mk st1
      [Call.onFields (buildOutFields (sortedCTs inRows) inFields) none] [] 0 none false = s0
    have hs0c : s0.calls = [Call.onFields (buildOutFields (sortedCTs inRows) inFields) none] := by
      rw [← hs0]
    obtain ⟨e1, h1, h1r⟩ := rowLoop_calls env onRow inFields.length (uniqueCTs inRows).length
      (buildCtis (sortedCTs inRows)) (buildOutFields (sortedCTs inRows) inFields)
      (env.sortRows inRows) 0 s0
    revert h1
    cases rowLoop env onRow inFields.length (uniqueCTs inRows).length
      (buildCtis (sortedCTs inRows)) (buildOutFields (sortedCTs inRows) inFields) 0
      (env.sortRows inRows) s0 with
    | next s =>
      intro h1
      simp only [LoopCtl.state] at h1
      obtain ⟨e2, h2, h2r⟩ := afterLoop_calls onRow none s
      refine ⟨e1 ++ e2, ?_, ?_⟩
      · rw [h2, h1, hs0c]; simp
      · intro c hc
        rcases List.mem_append.mp hc with hc | hc
        · exact h1r c hc
        · exact h2r c hc
    | brk s =>
      intro h1
      simp only [LoopCtl.state] at h1
      obtain ⟨e2, h2, h2r⟩ := afterLoop_calls onRow none s
      refine ⟨e1 ++ e2, ?_, ?_⟩
      · rw [h2, h1, hs0c]; simp
      · intro c hc
        rcases List.mem_append.mp hc with hc | hc
        · exact h1r c hc
        · exact h2r c hc
    | ret s e =>
      intro h1
      simp only [LoopCtl.state] at h1
      exact ⟨e1, by simp only [h1, hs0c]; simp, h1r⟩
    | panic s =>
      intro h1
      simp only [LoopCtl.state] at h1
      exact ⟨e1, by simp only [h1, hs0c]; simp, h1r⟩

theorem buffer_spec (split : Bytes → Option (String × Bytes)) :
    ∀ (events : List SourceEvent) (acc res : Fields × crosstabRows),
      buffer split events acc = some res →
      res.1 = announcedFields events acc.1 ∧
      ∃ added : crosstabRows, res.2 = acc.2 ++ added ∧
        added.map (fun r => r.row) = sourceRows events ∧
        ∀ r ∈ added, split r.row.Key = some (r.ct, r.key)
  | [], acc, res, h => by
    simp only [buffer, Option.some.injEq] at h
    subst h
    exact ⟨rfl, [], by simp, rfl, by simp⟩
  | .fields fs :: rest, acc, res, h => by
    simp only [buffer] at h
    obtain ⟨h1, added, h2, h3, h4⟩ := buffer_spec split rest (fs, acc.2) res h
    exact ⟨h1, added, h2, h3, h4⟩
  | .row r :: rest, acc, res, h => by
    simp only [buffer, bufferRow] at h
    cases hs : split r.Key with
    | none => rw [hs] at h; exact absurd h (by simp)
    | some p =>
      obtain ⟨ct, key⟩ := p
      rw [hs] at h
      simp only at h
      obtain ⟨h1, added, h2, h3, h4⟩ := buffer_spec split rest _ res h
      refine ⟨h1, { row := r, ct := ct, key := key } :: added, ?_, ?_, ?_⟩
      · rw [h2]; simp
      · simp [sourceRows, h3]
      · intro x hx
        rcases List.mem_cons.mp hx with hx | hx
        · rw [hx]; exact hs
        · exact h4 x hx

theorem buffer_succeeds (split : Bytes → Option (String × Bytes)) :
    ∀ (events : List SourceEvent) (acc : Fields × crosstabRows),
      (∀ r ∈ sourceRows events, (split r.Key).isSome = true) →
      ∃ res, buffer split events acc = some res
  | [], acc, _ => ⟨acc, rfl⟩
  | .fields fs :: rest, acc, h => by
    simp only [buffer]
    exact buffer_succeeds split rest _ (by simpa [sourceRows] using h)
  | .row r :: rest, acc, h => by
    simp only [buffer, bufferRow]
    have hr := h r (by simp [sourceRows])
    cases hs : split r.Key with
    | none => rw [hs] at hr; exact absurd hr (by simp)
    | some p =>
      obtain ⟨ct, key⟩ := p
      simp only
      exact buffer_succeeds split rest _
        (fun x hx => h x (by simp [sourceRows, hx]))

theorem buffer_panics (split : Bytes → Option (String × Bytes)) :
    ∀ (events : List SourceEvent) (acc : Fields × crosstabRows),
      (∃ r ∈ sourceRows events, split r.Key = none) → buffer split events acc = none
  | [], acc, h => by simp [sourceRows] at h
  | .fields fs :: rest, acc, h => by
    simp only [buffer]
    exact buffer_panics split rest _ (by simpa [sourceRows] using h)
  | .row r :: rest, acc, h => by
    simp only [buffer, bufferRow]
    cases hs : split r.Key with
    | none => rfl
    | some p =>
      obtain ⟨ct, key⟩ := p
      simp only
      apply buffer_panics split rest
      obtain ⟨x, hx, hxn⟩ := h
      simp only [sourceRows, List.mem_cons] at hx
      rcases hx with hx | hx
      · rw [hx, hs] at hxn; exact absurd hxn (by simp)
      · exact ⟨x, hx, hxn⟩

theorem mem_buffer_ct (split : Bytes → Option (String × Bytes)) (events : List SourceEvent)
    (inFields : Fields) (inRows : crosstabRows)
    (hbuf : buffer split events ([], []) = some (inFields, inRows)) (ct : String) :
    (∃ r ∈ inRows, r.ct = ct) ↔
      ∃ r key, r ∈ sourceRows events ∧ split r.Key = some (ct, key) := by
  obtain ⟨_, added, h2, h3, h4⟩ := buffer_spec split events _ _ hbuf
  simp only [List.nil_append] at h2
  subst h2
  constructor
  · rintro ⟨r, hr, hct⟩
    refine ⟨r.row, r.key, ?_, ?_⟩
    · rw [← h3]; exact List.mem_map_of_mem _ hr
    · rw [← hct]; exact h4 r hr
  · rintro ⟨r, key, hr, hs⟩
    rw [← h3] at hr
    obtain ⟨x, hx, hxr⟩ := List.mem_map.mp hr
    refine ⟨x, hx, ?_⟩
    have := h4 x hx
    rw [hxr, hs] at this
    simp only [Option.some.injEq, Prod.mk.injEq] at this
    exact this.1.symm

theorem Iterate_of_buffer {σ : Type} (env : CrosstabEnv) (source : SourceRun)
    (onFields : σ → Fields → σ × Option GoError)
    (onRow : σ → FlatRow → σ × (Bool × Option GoError)) (st : σ)
    (inFields : Fields) (inRows : crosstabRows)
    (hbuf : buffer env.split source.events ([], []) = some (inFields, inRows))
    (hd : source.err ≠ some .ErrDeadlineExceeded) :
    crosstabber.Iterate env source onFields onRow st =
      crosstabber.emit env inFields inRows onFields onRow st := by
  unfold crosstabber.Iterate
  rw [hbuf]
  simp [hd]

theorem Iterate_of_panic {σ : Type} (env : CrosstabEnv) (source : SourceRun)
    (onFields : σ → Fields → σ × Option GoError)
    (onRow : σ → FlatRow → σ × (Bool × Option GoError)) (st : σ)
    (hbuf : buffer env.split source.events ([], []) = none) :
    (crosstabber.Iterate env source onFields onRow st).calls = [] ∧
      (crosstabber.Iterate env source onFields onRow st).outcome = .panicked := by
  unfold crosstabber.Iterate
  rw [hbuf]
  exact ⟨rfl, rfl⟩

theorem Iterate_of_deadline {σ : Type} (env : CrosstabEnv) (source : SourceRun)
    (onFields : σ → Fields → σ × Option GoError)
    (onRow : σ → FlatRow → σ × (Bool × Option GoError)) (st : σ)
    (hd : source.err = some .ErrDeadlineExceeded) :
    (crosstabber.Iterate env source onFields onRow st).calls = [] := by
  unfold crosstabber.Iterate
  cases buffer env.split source.events ([], []) with
  | none => rfl
  | some p =>
    obtain ⟨inFields, inRows⟩ := p
    simp [hd]

/-- The shape of the invocations of a run whose buffering succeeded: none when the
source reports the deadline, otherwise the announcement of the output fields followed by
row invocations only. -/
theorem Iterate_calls {σ : Type} (env : CrosstabEnv) (source : SourceRun)
    (onFields : σ → Fields → σ × Option GoError)
    (onRow : σ → FlatRow → σ × (Bool × Option GoError)) (st : σ)
    (inFields : Fields) (inRows : crosstabRows)
    (hbuf : buffer env.split source.events ([], []) = some (inFields, inRows)) :
    (source.err = some .ErrDeadlineExceeded ∧
        (crosstabber.Iterate env source onFields onRow st).calls = []) ∨
      (source.err ≠ some .ErrDeadlineExceeded ∧
        ∃ extra,
          (crosstabber.Iterate env source onFields onRow st).calls =
            Call.onFields (buildOutFields (sortedCTs inRows) inFields)
              (onFields st (buildOutFields (sortedCTs inRows) inFields)).2 :: extra ∧
          ∀ c ∈ extra, Call.isRow c = true) := by
  by_cases hd : source.err = some .ErrDeadlineExceeded
  · exact Or.inl ⟨hd, Iterate_of_deadline env source onFields onRow st hd⟩
  · right
    refine ⟨hd, ?_⟩
    rw [Iterate_of_buffer env source onFields onRow st inFields inRows hbuf hd]
    exact emit_calls env _ _ onFields onRow st

end core


/-! ## The contract of the crosstab -/

namespace core

/-- C5. Crosstab output fields: the field list passed to `onFields` is, in order, for
each distinct `_crosstab` value of the source's rows in ascending string order and for
each input field in input order, the field named by the value with its spaces replaced
by underscores, an underscore and the field name, carrying the input field's
expression, followed by one field `total_<field name>` per input field in input order;
its length is `(numCTs + 1) * numInFields`. -/
theorem crosstab_output_fields {σ : Type} (env : CrosstabEnv) (source : SourceRun)
    (onFields : σ → Fields → σ × Option GoError)
    (onRow : σ → FlatRow → σ × (Bool × Option GoError)) (st : σ)
    (fs : Fields) (e : Option GoError)
    (h : Call.onFields fs e ∈ (crosstabber.Iterate env source onFields onRow st).calls) :
    ∃ cts : List String,
      cts.Pairwise (fun a b => stringLess a b = true) ∧
      (∀ ct, ct ∈ cts ↔
        ∃ r key, r ∈ sourceRows source.events ∧ env.split r.Key = some (ct, key)) ∧
      fs = cts.flatMap (fun ct => (announcedFields source.events []).map (fun field =>
            { Expr := field.Expr,
              Name := String.mk (ct.data.map (fun c => if c = ' ' then '_' else c)) ++ "_" ++
                field.Name })) ++
          (announcedFields source.events []).map (fun field =>
            { Expr := field.Expr, Name := "total_" ++ field.Name }) ∧
      fs.length = (cts.length + 1) * (announcedFields source.events []).length := by
  cases hbuf : buffer env.split source.events ([], []) with
  | none =>
    rw [(Iterate_of_panic env source onFields onRow st hbuf).1] at h
    simp at h
  | some p =>
    obtain ⟨inFields, inRows⟩ := p
    have hin : inFields = announcedFields source.events [] :=
      (buffer_spec env.split source.events _ _ hbuf).1
    have hfs : fs = buildOutFields (sortedCTs inRows) inFields := by
      rcases Iterate_calls env source onFields onRow st inFields inRows hbuf with
        ⟨_, hc⟩ | ⟨_, extra, hc, hrows⟩
      · rw [hc] at h; simp at h
      · rw [hc] at h
        rcases List.mem_cons.mp h with h | h
        · injection h with h1 _
        · have := hrows _ h
          simp [Call.isRow] at this
    refine ⟨sortedCTs inRows, sortedCTs_ascending _, ?_, ?_, ?_⟩
    · intro ct
      rw [mem_sortedCTs]
      exact mem_buffer_ct env.split source.events inFields inRows hbuf ct
    · rw [hfs, buildOutFields_spec, hin]
      rfl
    · rw [hfs, buildOutFields_length, hin]

end core


namespace core

/-- Two rows with the crosstab values "b c" and "a" and the field `v`: the fields
announced are `a_v`, `b_c_v`, `total_v`, each with the expression of `v`. -/
theorem crosstab_output_fields_witness :
    Call.onFields [{ Expr := { id := 7 }, Name := "a_v" }, { Expr := { id := 7 }, Name := "b_c_v" },
        { Expr := { id := 7 }, Name := "total_v" }] none ∈
      (crosstabber.Iterate scenario.env scenario.scenarioSpaced scenario.acceptFields
        scenario.collect []).calls ∧
    ∃ cts : List String,
      cts.Pairwise (fun a b => stringLess a b = true) ∧
      (∀ ct, ct ∈ cts ↔
        ∃ r key, r ∈ sourceRows scenario.scenarioSpaced.events ∧
          scenario.env.split r.Key = some (ct, key)) ∧
      ([{ Expr := { id := 7 }, Name := "a_v" }, { Expr := { id := 7 }, Name := "b_c_v" },
        { Expr := { id := 7 }, Name := "total_v" }] : Fields) =
        cts.flatMap (fun ct => (announcedFields scenario.scenarioSpaced.events []).map
          (fun field =>
            { Expr := field.Expr,
              Name := String.mk (ct.data.map (fun c => if c = ' ' then '_' else c)) ++ "_" ++
                field.Name })) ++
          (announcedFields scenario.scenarioSpaced.events []).map (fun field =>
            { Expr := field.Expr, Name := "total_" ++ field.Name }) ∧
      ([{ Expr := { id := 7 }, Name := "a_v" }, { Expr := { id := 7 }, Name := "b_c_v" },
        { Expr := { id := 7 }, Name := "total_v" }] : Fields).length =
        (cts.length + 1) * (announcedFields scenario.scenarioSpaced.events []).length :=
  ⟨by decide,
    crosstab_output_fields scenario.env scenario.scenarioSpaced scenario.acceptFields
      scenario.collect [] _ none (by decide)⟩

/-- C6, as the code has it. Fields first: in every run in which every row that the
source delivers carries a string `_crosstab` dimension and the source does not return
`ErrDeadlineExceeded`, `onFields` is called exactly once and that call precedes every
call of `onRow`; when the source returns `ErrDeadlineExceeded`, neither callback is
called; and when some row delivered has no string `_crosstab` dimension, the run panics
on the type assertion of line 34 without having called `onFields` or `onRow`. -/
theorem crosstab_fields_first {σ : Type} (env : CrosstabEnv) (source : SourceRun)
    (onFields : σ → Fields → σ × Option GoError)
    (onRow : σ → FlatRow → σ × (Bool × Option GoError)) (st : σ) :
    ((∀ r ∈ sourceRows source.events, (env.split r.Key).isSome = true) →
      source.err ≠ some .ErrDeadlineExceeded →
      ((crosstabber.Iterate env source onFields onRow st).calls.filter
          (fun c => !Call.isRow c)).length = 1 ∧
        ∃ fs e rest, (crosstabber.Iterate env source onFields onRow st).calls =
          Call.onFields fs e :: rest ∧ ∀ c ∈ rest, Call.isRow c = true) ∧
    (source.err = some .ErrDeadlineExceeded →
      (crosstabber.Iterate env source onFields onRow st).calls = []) ∧
    ((∃ r ∈ sourceRows source.events, env.split r.Key = none) →
      (crosstabber.Iterate env source onFields onRow st).calls = [] ∧
      (crosstabber.Iterate env source onFields onRow st).outcome = .panicked) := by
  refine ⟨?_, Iterate_of_deadline env source onFields onRow st, ?_⟩
  · intro hct hd
    obtain ⟨res, hbuf⟩ := buffer_succeeds env.split source.events ([], []) hct
    obtain ⟨inFields, inRows⟩ := res
    rcases Iterate_calls env source onFields onRow st inFields inRows hbuf with
      ⟨hd', _⟩ | ⟨_, extra, hc, hrows⟩
    · exact absurd hd' hd
    · refine ⟨?_, _, _, extra, hc, hrows⟩
      rw [hc]
      have : extra.filter (fun c => !Call.isRow c) = [] := by
        rw [List.filter_eq_nil_iff]
        intro c hc'
        simp [hrows c hc']
      rw [List.filter_cons_of_pos (by rfl), this]
      rfl
  · intro hbad
    exact Iterate_of_panic env source onFields onRow st
      (buffer_panics env.split source.events ([], []) hbad)

/-- Scenario S6 with a source that returns nil: both rows carry a string `_crosstab`,
and there is one announcement, made first. -/
theorem crosstab_fields_first_witness :
    (∀ r ∈ sourceRows (scenario.scenarioS6 none).events,
        (scenario.env.split r.Key).isSome = true) ∧
      (scenario.scenarioS6 none).err ≠ some .ErrDeadlineExceeded ∧
      ((crosstabber.Iterate scenario.env (scenario.scenarioS6 none) scenario.acceptFields
          scenario.collect []).calls.filter (fun c => !Call.isRow c)).length = 1 ∧
      (crosstabber.Iterate scenario.env (scenario.scenarioS6 none) scenario.acceptFields
          scenario.collect []).calls.head? = some (Call.onFields scenario.fieldsS6 none) :=
  ⟨by decide, by decide,
    ((crosstab_fields_first scenario.env (scenario.scenarioS6 none) scenario.acceptFields
      scenario.collect []).1 (by decide) (by decide)).1,
    by decide⟩

/-- C6, as stated, fails: when the source of scenario S6 returns
`ErrDeadlineExceeded`, `onFields` is not called at all; and when a row has no
`_crosstab` dimension, the run panics before `onFields` is called. -/
theorem crosstab_fields_skipped_on_deadline :
    (crosstabber.Iterate scenario.env (scenario.scenarioS6 (some .ErrDeadlineExceeded))
        scenario.acceptFields scenario.collect []).calls = [] ∧
      ((crosstabber.Iterate scenario.env (scenario.scenarioS6 (some .ErrDeadlineExceeded))
          scenario.acceptFields scenario.collect []).calls.filter
            (fun c => !Call.isRow c)).length ≠ 1 ∧
      (crosstabber.Iterate scenario.env scenario.scenarioNoCrosstab
        scenario.acceptFields scenario.collect []).calls = [] ∧
      (crosstabber.Iterate scenario.env scenario.scenarioNoCrosstab
        scenario.acceptFields scenario.collect []).outcome = .panicked := by
  refine ⟨?_, ?_, ?_, ?_⟩ <;> decide

end core


/-! ## Serial stages -/

namespace core

theorem source_halt {ρ σ : Type} (onRow : σ → ρ → σ × (Bool × Option GoError)) :
    ∀ (p : SourceProg ρ) (st : σ), p.haltsOnStop →
      haltRespected (p.Iterate onRow st).calls ∧
      (halted (p.Iterate onRow st).calls → (p.Iterate onRow st).err = none)
  | .done err, st, _ => by
    simp [SourceProg.Iterate, haltRespected, halted]
  | .call row k, st, h => by
    obtain ⟨hk, hrest⟩ := h
    cases hcb : onRow st row with
    | mk st1 resp =>
      obtain ⟨more, err⟩ := resp
      have ih := source_halt onRow (k more err) st1 (hrest more err)
      simp only [SourceProg.Iterate, hcb, haltRespected, halted]
      refine ⟨⟨?_, ih.1⟩, ?_⟩
      · rintro ⟨hm, he⟩
        subst hm; subst he
        simp [hk, SourceProg.Iterate]
      · rintro ⟨c, hc, hm, he⟩
        rcases List.mem_cons.mp hc with rfl | hc
        · simp only at hm he
          subst hm; subst he
          simp [hk, SourceProg.Iterate]
        · exact ih.2 ⟨c, hc, hm, he⟩


theorem serialLoop_single {ρ σ : Type} (onRow : σ → ρ → σ × (Bool × Option GoError))
    (s : SourceProg ρ) (st : σ) (h : s.haltsOnStop) :
    haltRespected (serialLoop onRow [s] st).calls ∧
      (halted (serialLoop onRow [s] st).calls → (serialLoop onRow [s] st).err = none) := by
  have hs := source_halt onRow s st h
  unfold serialLoop
  dsimp only
  cases he : (s.Iterate onRow st).err with
  | some e =>
    refine ⟨hs.1, fun hh => ?_⟩
    have := hs.2 hh
    rw [he] at this
    exact absurd this (by simp)
  | none =>
    simp only [serialLoop, List.append_nil]
    exact ⟨hs.1, fun _ => trivial⟩


theorem ofRows_haltsOnStop {ρ : Type} (result : Option GoError) :
    ∀ rows : List ρ, (SourceProg.ofRows result rows).haltsOnStop
  | [] => by simp [SourceProg.ofRows, SourceProg.haltsOnStop]
  | row :: rest => by
    simp only [SourceProg.ofRows, SourceProg.haltsOnStop]
    refine ⟨by simp, ?_⟩
    intro more err
    cases err with
    | some e => simp [SourceProg.haltsOnStop]
    | none =>
      cases more with
      | true => simpa using ofRows_haltsOnStop result rest
      | false => simp [SourceProg.haltsOnStop]


theorem sourceRuns_halt {ρ σ : Type} (onRow : σ → ρ → σ × (Bool × Option GoError))
    (sources : List (SourceProg ρ)) :
    ∀ st : σ, (∀ s ∈ sources, s.haltsOnStop) →
      ∀ r ∈ sourceRuns onRow sources st,
        haltRespected r.calls ∧ (halted r.calls → r.err = none) := by
  induction sources with
  | nil => intro st _ r hr; simp [sourceRuns] at hr
  | cons s rest ih =>
    intro st h r hr
    simp only [sourceRuns, List.mem_cons] at hr
    rcases hr with hr | hr
    · rw [hr]
      exact source_halt onRow s st (h s (List.mem_cons_self _ _))
    · exact ih _ (fun s' hs' => h s' (List.mem_cons_of_mem _ hs')) r hr

theorem serialLoop_append {ρ σ : Type} (onRow : σ → ρ → σ × (Bool × Option GoError))
    (before after : List (SourceProg ρ)) :
    ∀ st : σ, (∀ r ∈ sourceRuns onRow before st, r.err = none) →
      (serialLoop onRow (before ++ after) st).calls =
          (serialLoop onRow before st).calls ++
            (serialLoop onRow after (serialLoop onRow before st).st).calls ∧
        (serialLoop onRow (before ++ after) st).err =
          (serialLoop onRow after (serialLoop onRow before st).st).err ∧
        (serialLoop onRow (before ++ after) st).st =
          (serialLoop onRow after (serialLoop onRow before st).st).st := by
  induction before with
  | nil => intro st _; simp [serialLoop]
  | cons s rest ih =>
    intro st h
    have hs : (s.Iterate onRow st).err = none := h _ (by simp [sourceRuns])
    obtain ⟨h1, h2, h3⟩ := ih (s.Iterate onRow st).st
      (fun r hr => h r (by simp [sourceRuns, hr]))
    simp only [List.cons_append, serialLoop, hs, List.append_eq]
    exact ⟨by rw [h1, List.append_assoc], h2, h3⟩

theorem serialLoop_halt_continues {ρ σ : Type} (onRow : σ → ρ → σ × (Bool × Option GoError))
    (before : List (SourceProg ρ)) (s : SourceProg ρ) (after : List (SourceProg ρ)) (st : σ)
    (hs : s.haltsOnStop) (hb : ∀ r ∈ sourceRuns onRow before st, r.err = none)
    (hh : halted (s.Iterate onRow (serialLoop onRow before st).st).calls) :
    (s.Iterate onRow (serialLoop onRow before st).st).err = none ∧
      haltRespected (s.Iterate onRow (serialLoop onRow before st).st).calls ∧
      (serialLoop onRow (before ++ s :: after) st).calls =
        (serialLoop onRow before st).calls ++
          (s.Iterate onRow (serialLoop onRow before st).st).calls ++
          (serialLoop onRow after
            (s.Iterate onRow (serialLoop onRow before st).st).st).calls ∧
      (serialLoop onRow (before ++ s :: after) st).err =
        (serialLoop onRow after (s.Iterate onRow (serialLoop onRow before st).st).st).err ∧
      ∀ row k rest, after = .call row k :: rest →
        ∃ tail, (serialLoop onRow (before ++ s :: after) st).calls =
          (serialLoop onRow before st).calls ++
            (s.Iterate onRow (serialLoop onRow before st).st).calls ++
            { row := row,
              more := (onRow (s.Iterate onRow (serialLoop onRow before st).st).st row).2.1,
              err := (onRow (s.Iterate onRow (serialLoop onRow before st).st).st row).2.2 } ::
              tail := by
  obtain ⟨hr, he⟩ := source_halt onRow s (serialLoop onRow before st).st hs
  have hnil := he hh
  obtain ⟨h1, h2, _⟩ := serialLoop_append onRow before (s :: after) st hb
  have hcalls : (serialLoop onRow (before ++ s :: after) st).calls =
      (serialLoop onRow before st).calls ++
        (s.Iterate onRow (serialLoop onRow before st).st).calls ++
        (serialLoop onRow after
          (s.Iterate onRow (serialLoop onRow before st).st).st).calls := by
    rw [h1]
    simp only [serialLoop, hnil, List.append_assoc]
  refine ⟨hnil, hr, hcalls, ?_, ?_⟩
  · rw [h2]
    simp only [serialLoop, hnil]
  · intro row k rest hafter
    rw [hcalls, hafter]
    generalize (s.Iterate onRow (serialLoop onRow before st).st).st = st2
    simp only [serialLoop, SourceProg.Iterate]
    cases hcb : onRow st2 row with
    | mk st3 resp =>
      obtain ⟨more, err⟩ := resp
      dsimp only
      cases he3 : (SourceProg.Iterate onRow (k more err) st3).err with
      | some e => exact ⟨_, rfl⟩
      | none => exact ⟨_, rfl⟩

/-- C8, as the code has it. Early halt in a serial stage: when every connected source
stops calling its callback as soon as it returns `(false, nil)`, each source makes no
further invocation once the callback returned `(false, nil)` and then returns nil, and
the halt ends only that source: the sources connected before it having returned nil, the
invocations of the stage are theirs, then those of the halted source, then all those of
the stage made of the sources connected after it, whose result the stage returns; the
first row of the next source is delivered right after the halt. A stage with exactly one
source makes no further `onRow` invocation once `onRow` returned `(false, nil)`, and its
`Iterate` then returns nil. -/
theorem serial_halt_ends_current_source {σ : Type}
    (rc : rowConnectable) (fc : flatRowConnectable)
    (onRow : σ → Row → σ × (Bool × Option GoError))
    (onFlatRow : σ → FlatRow → σ × (Bool × Option GoError)) (st : σ)
    (hr : ∀ s ∈ rc.sources, s.haltsOnStop) (hf : ∀ s ∈ fc.sources, s.haltsOnStop) :
    (∀ r ∈ sourceRuns onRow rc.sources st,
        haltRespected r.calls ∧ (halted r.calls → r.err = none)) ∧
      (∀ r ∈ sourceRuns onFlatRow fc.sources st,
        haltRespected r.calls ∧ (halted r.calls → r.err = none)) ∧
      (∀ before s after, rc.sources = before ++ s :: after →
        (∀ r ∈ sourceRuns onRow before st, r.err = none) →
        halted (s.Iterate onRow ((rowConnectable.mk before).iterateSerial onRow st).st).calls →
        (rc.iterateSerial onRow st).calls =
          ((rowConnectable.mk before).iterateSerial onRow st).calls ++
            (s.Iterate onRow ((rowConnectable.mk before).iterateSerial onRow st).st).calls ++
            ((rowConnectable.mk after).iterateSerial onRow
              (s.Iterate onRow ((rowConnectable.mk before).iterateSerial onRow st).st).st).calls ∧
        (rc.iterateSerial onRow st).err =
          ((rowConnectable.mk after).iterateSerial onRow
            (s.Iterate onRow ((rowConnectable.mk before).iterateSerial onRow st).st).st).err ∧
        ∀ row k rest, after = .call row k :: rest →
          ∃ tail, (rc.iterateSerial onRow st).calls =
            ((rowConnectable.mk before).iterateSerial onRow st).calls ++
              (s.Iterate onRow ((rowConnectable.mk before).iterateSerial onRow st).st).calls ++
              { row := row,
                more := (onRow (s.Iterate onRow
                  ((rowConnectable.mk before).iterateSerial onRow st).st).st row).2.1,
                err := (onRow (s.Iterate onRow
                  ((rowConnectable.mk before).iterateSerial onRow st).st).st row).2.2 } ::
                tail) ∧
      (∀ before s after, fc.sources = before ++ s :: after →
        (∀ r ∈ sourceRuns onFlatRow before st, r.err = none) →
        halted (s.Iterate onFlatRow
          ((flatRowConnectable.mk before).iterateSerial onFlatRow st).st).calls →
        (fc.iterateSerial onFlatRow st).calls =
          ((flatRowConnectable.mk before).iterateSerial onFlatRow st).calls ++
            (s.Iterate onFlatRow
              ((flatRowConnectable.mk before).iterateSerial onFlatRow st).st).calls ++
            ((flatRowConnectable.mk after).iterateSerial onFlatRow
              (s.Iterate onFlatRow
                ((flatRowConnectable.mk before).iterateSerial onFlatRow st).st).st).calls ∧
        (fc.iterateSerial onFlatRow st).err =
          ((flatRowConnectable.mk after).iterateSerial onFlatRow
            (s.Iterate onFlatRow
              ((flatRowConnectable.mk before).iterateSerial onFlatRow st).st).st).err ∧
        ∀ row k rest, after = .call row k :: rest →
          ∃ tail, (fc.iterateSerial onFlatRow st).calls =
            ((flatRowConnectable.mk before).iterateSerial onFlatRow st).calls ++
              (s.Iterate onFlatRow
                ((flatRowConnectable.mk before).iterateSerial onFlatRow st).st).calls ++
              { row := row,
                more := (onFlatRow (s.Iterate onFlatRow
                  ((flatRowConnectable.mk before).iterateSerial onFlatRow st).st).st row).2.1,
                err := (onFlatRow (s.Iterate onFlatRow
                  ((flatRowConnectable.mk before).iterateSerial onFlatRow st).st).st row).2.2 } ::
                tail) ∧
      (rc.sources.length = 1 →
        haltRespected (rc.iterateSerial onRow st).calls ∧
        (halted (rc.iterateSerial onRow st).calls → (rc.iterateSerial onRow st).err = none)) ∧
      (fc.sources.length = 1 →
        haltRespected (fc.iterateSerial onFlatRow st).calls ∧
        (halted (fc.iterateSerial onFlatRow st).calls →
          (fc.iterateSerial onFlatRow st).err = none)) := by
  refine ⟨sourceRuns_halt onRow rc.sources st hr, sourceRuns_halt onFlatRow fc.sources st hf,
    ?_, ?_, ?_, ?_⟩
  · intro before s after hsrc hb hh
    have hs : s.haltsOnStop := hr s (by rw [hsrc]; simp)
    obtain ⟨_, _, h3, h4, h5⟩ := serialLoop_halt_continues onRow before s after st hs hb hh
    unfold rowConnectable.iterateSerial
    rw [hsrc]
    exact ⟨h3, h4, h5⟩
  · intro before s after hsrc hb hh
    have hs : s.haltsOnStop := hf s (by rw [hsrc]; simp)
    obtain ⟨_, _, h3, h4, h5⟩ := serialLoop_halt_continues onFlatRow before s after st hs hb hh
    unfold flatRowConnectable.iterateSerial
    rw [hsrc]
    exact ⟨h3, h4, h5⟩
  · intro h1
    obtain ⟨s, hs⟩ := List.length_eq_one.mp h1
    unfold rowConnectable.iterateSerial
    rw [hs]
    exact serialLoop_single _ s st (hr s (by simp [hs]))
  · intro h1
    obtain ⟨s, hs⟩ := List.length_eq_one.mp h1
    unfold flatRowConnectable.iterateSerial
    rw [hs]
    exact serialLoop_single _ s st (hf s (by simp [hs]))

/-- A stage with the sources of rows 1, 2 and of row 3 and a callback that asks to stop
at once: the first source is halted after row 1, row 2 is not delivered, and row 3 of
the second source is delivered right after the halt. -/
theorem serial_halt_ends_current_source_witness :
    (∀ s ∈ (rowConnectable.mk [SourceProg.ofRows none [Row.mk [1] [], Row.mk [2] []],
        SourceProg.ofRows none [Row.mk [3] []]]).sources, s.haltsOnStop) ∧
      halted ((SourceProg.ofRows none [Row.mk [1] [], Row.mk [2] []]).Iterate stopAtOnce
        ((rowConnectable.mk []).iterateSerial stopAtOnce 0).st).calls ∧
      ((rowConnectable.mk [SourceProg.ofRows none [Row.mk [1] [], Row.mk [2] []],
        SourceProg.ofRows none [Row.mk [3] []]]).iterateSerial stopAtOnce 0).calls =
        [{ row := Row.mk [1] [], more := false, err := none },
         { row := Row.mk [3] [], more := false, err := none }] ∧
      ((rowConnectable.mk [SourceProg.ofRows none [Row.mk [1] [], Row.mk [2] []],
        SourceProg.ofRows none [Row.mk [3] []]]).iterateSerial stopAtOnce 0).calls =
        ((rowConnectable.mk []).iterateSerial stopAtOnce 0).calls ++
          ((SourceProg.ofRows none [Row.mk [1] [], Row.mk [2] []]).Iterate stopAtOnce
            ((rowConnectable.mk []).iterateSerial stopAtOnce 0).st).calls ++
          ((rowConnectable.mk [SourceProg.ofRows none [Row.mk [3] []]]).iterateSerial stopAtOnce
            ((SourceProg.ofRows none [Row.mk [1] [], Row.mk [2] []]).Iterate stopAtOnce
              ((rowConnectable.mk []).iterateSerial stopAtOnce 0).st).st).calls :=
  ⟨by intro s hs
      simp only [List.mem_cons, List.mem_singleton, List.not_mem_nil, or_false] at hs
      rcases hs with hs | hs <;> rw [hs] <;> exact ofRows_haltsOnStop _ _,
    ⟨{ row := Row.mk [1] [], more := false, err := none }, by decide, rfl, rfl⟩,
    by decide,
    ((serial_halt_ends_current_source
      (rowConnectable.mk [SourceProg.ofRows none [Row.mk [1] [], Row.mk [2] []],
        SourceProg.ofRows none [Row.mk [3] []]])
      (flatRowConnectable.mk [])
      stopAtOnce stopAtOnce 0
      (by intro s hs
          simp only [List.mem_cons, List.mem_singleton, List.not_mem_nil, or_false] at hs
          rcases hs with hs | hs <;> rw [hs] <;> exact ofRows_haltsOnStop _ _)
      (by intro s hs; simp at hs)).2.2.1 []
      (SourceProg.ofRows none [Row.mk [1] [], Row.mk [2] []])
      [SourceProg.ofRows none [Row.mk [3] []]] rfl
      (by intro r hr; simp [sourceRuns] at hr)
      ⟨{ row := Row.mk [1] [], more := false, err := none }, by decide, rfl, rfl⟩).1⟩

/-- C8, as stated, fails: in a serial stage with two sources of one row each, both of
which stop when told to, the callback that returns `(false, nil)` on the first row is
invoked again with the row of the second source. -/
theorem serial_halt_next_source_still_iterated :
    ((flatRowConnectable.mk [SourceProg.ofRows none [scenario.inputRow 1 [] 1],
        SourceProg.ofRows none [scenario.inputRow 2 [] 2]]).iterateSerial stopAtOnce 0).calls =
      [{ row := scenario.inputRow 1 [] 1, more := false, err := none },
       { row := scenario.inputRow 2 [] 2, more := false, err := none }] ∧
    ((rowConnectable.mk [SourceProg.ofRows none [Row.mk [1] []],
        SourceProg.ofRows none [Row.mk [2] []]]).iterateSerial stopAtOnce 0).calls =
      [{ row := Row.mk [1] [], more := false, err := none },
       { row := Row.mk [2] [], more := false, err := none }] ∧
    ¬ haltRespected ((flatRowConnectable.mk [SourceProg.ofRows none [scenario.inputRow 1 [] 1],
        SourceProg.ofRows none [scenario.inputRow 2 [] 2]]).iterateSerial stopAtOnce 0).calls := by
  refine ⟨by decide, by decide, ?_⟩
  intro h
  have hc : ((flatRowConnectable.mk [SourceProg.ofRows none [scenario.inputRow 1 [] 1],
        SourceProg.ofRows none [scenario.inputRow 2 [] 2]]).iterateSerial stopAtOnce 0).calls =
      [{ row := scenario.inputRow 1 [] 1, more := false, err := none },
       { row := scenario.inputRow 2 [] 2, more := false, err := none }] := by decide
  rw [hc] at h
  simp [haltRespected] at h

end core


/-! ## Where the crosstab departs from its contract -/

namespace core

/-- C3 at scenario S6 with the residual key `a = "b"`: the two input rows share the
residual key and the timestamp (one distinct pair), yet two output rows are emitted,
`[1, 0, 1]` and `[0, 2, 2]`, where the claim has the single row `[1, 2, 3]`: `priorKey`
and `priorTS` are never assigned, so every row with a non-empty residual key starts
a new output row. -/
theorem crosstab_same_key_and_ts_split :
    (buffer scenario.env.split (scenario.scenarioS6 none).events ([], [])).map
        (fun b => scenario.distinctKeyTS b.2) = some 1 ∧
      scenario.rowsOf (crosstabber.Iterate scenario.env (scenario.scenarioS6 none)
          scenario.acceptFields scenario.collect []).calls =
        [scenario.outputRow [("a", .str "b")] [1, 0, 1],
         scenario.outputRow [("a", .str "b")] [0, 2, 2]] := by
  constructor <;> decide

/-- C7 at scenario S6 with a callback that returns `(false, nil)`: after the first
output row was delivered and the callback asked to stop, `onRow` is invoked once more,
with the same row. -/
theorem crosstab_resubmits_after_stop :
    (crosstabber.Iterate scenario.env (scenario.scenarioS6 none)
        scenario.acceptFields scenario.collectThenStop []).calls =
      [Call.onFields scenario.fieldsS6 none,
       Call.onRow (scenario.outputRow [("a", .str "b")] [1, 0, 1]) false none,
       Call.onRow (scenario.outputRow [("a", .str "b")] [1, 0, 1]) false none] := by
  decide

/-- C9 at scenario S6 with a source that returns an error other than
`ErrDeadlineExceeded`: every callback succeeds and `Iterate` returns nil; with
`ErrDeadlineExceeded` it returns `ErrDeadlineExceeded`. -/
theorem crosstab_drops_source_error :
    (crosstabber.Iterate scenario.env (scenario.scenarioS6 (some (.custom 7)))
        scenario.acceptFields scenario.collect []).outcome = .returned none ∧
      (crosstabber.Iterate scenario.env (scenario.scenarioS6 (some .ErrDeadlineExceeded))
        scenario.acceptFields scenario.collect []).outcome =
          .returned (some .ErrDeadlineExceeded) := by
  constructor <;> decide

/-- C10 at scenario S6 without residual key: the one row emitted has the total of
field `v` in its `Values`, and its `Totals` is nil, of length 0 for one input field. -/
theorem crosstab_totals_slice_nil :
    scenario.rowsOf (crosstabber.Iterate scenario.env (scenario.scenarioS6NoKey none)
        scenario.acceptFields scenario.collect []).calls =
      [scenario.outputRow [] [1, 2, 3]] ∧
      (scenario.outputRow [] [1, 2, 3]).Totals = [] ∧
      (announcedFields (scenario.scenarioS6NoKey none).events []).length = 1 := by
  refine ⟨?_, ?_, ?_⟩ <;> decide

end core


/-! ## The totals of the crosstab -/

namespace core

theorem getD_set {α : Type} (l : List α) (i j : Nat) (a d : α) (hi : i < l.length) :
    (l.set i a).getD j d = if j = i then a else l.getD j d := by
  rw [List.getD_eq_getElem?_getD, List.getD_eq_getElem?_getD, List.getElem?_set]
  by_cases h : i = j
  · subst h; simp [hi]
  · have h' : ¬ j = i := fun e => h e.symm
    simp [h, h']

theorem getD_replicate {α : Type} (m idx : Nat) (d : α) :
    (List.replicate m d).getD idx d = d := by
  rw [List.getD_eq_getElem?_getD, List.getElem?_replicate]
  by_cases h : idx < m <;> simp [h]

theorem writeValues_spec (n k cti : Nat) (hA : cti * n + n ≤ k * n) :
    ∀ (v : List float64) (i : Nat) (vs vs' : List float64), vs.length = k * n + n →
      writeValues n k cti i v vs = some vs' →
      (v = [] ∨ i + v.length ≤ n) ∧ vs'.length = vs.length ∧
      (∀ j, j < v.length → vs'.getD (cti * n + i + j) 0 = v.getD j 0) ∧
      (∀ j, j < v.length →
        vs'.getD (k * n + i + j) 0 = float64.add (vs.getD (k * n + i + j) 0) (v.getD j 0)) ∧
      (∀ idx, ¬ (cti * n + i ≤ idx ∧ idx < cti * n + i + v.length) →
        ¬ (k * n + i ≤ idx ∧ idx < k * n + i + v.length) → vs'.getD idx 0 = vs.getD idx 0)
  | [], i, vs, vs', _, h => by
    simp only [writeValues, Option.some.injEq] at h
    subst h
    simp
  | value :: rest, i, vs, vs', hlen, h => by
    unfold writeValues at h
    dsimp only at h
    by_cases h1 : cti * n + i < vs.length
    · rw [if_pos h1] at h
      by_cases h2 : k * n + i < (vs.set (cti * n + i) value).length
      · rw [if_pos h2] at h
        have hl1 : (vs.set (cti * n + i) value).length = vs.length := List.length_set _ _ _
        have hl2 : ((vs.set (cti * n + i) value).set (k * n + i)
            (float64.add ((vs.set (cti * n + i) value).getD (k * n + i) 0) value)).length
              = k * n + n := by
          rw [List.length_set, hl1, hlen]
        obtain ⟨ih1, ih2, ih3, ih4, ih5⟩ := writeValues_spec n k cti hA rest (i + 1) _ vs' hl2 h
        have hin : i < n := by rw [hl1, hlen] at h2; omega
        have hrl : i + 1 + rest.length ≤ n := by
          rcases ih1 with rfl | ih1
          · simp; omega
          · exact ih1
        have hold : ∀ idx, idx ≠ cti * n + i → idx ≠ k * n + i →
            ((vs.set (cti * n + i) value).set (k * n + i)
              (float64.add ((vs.set (cti * n + i) value).getD (k * n + i) 0) value)).getD idx 0
              = vs.getD idx 0 := by
          intro idx e1 e2
          rw [getD_set _ _ _ _ _ h2, if_neg e2, getD_set _ _ _ _ _ h1, if_neg e1]
        refine ⟨Or.inr ?_, ?_, ?_, ?_, ?_⟩
        · simp only [List.length_cons]; omega
        · rw [ih2, List.length_set, hl1]
        · intro j hj
          cases j with
          | zero =>
            have e1 : ¬ (cti * n + (i + 1) ≤ cti * n + i ∧
                cti * n + i < cti * n + (i + 1) + rest.length) := by omega
            have e2 : ¬ (k * n + (i + 1) ≤ cti * n + i ∧
                cti * n + i < k * n + (i + 1) + rest.length) := by omega
            have e3 : ¬ (cti * n + i = k * n + i) := by omega
            rw [Nat.add_zero, ih5 _ e1 e2, getD_set _ _ _ _ _ h2,
              if_neg e3, getD_set _ _ _ _ _ h1, if_pos rfl]
            rfl
          | succ j' =>
            simp only [List.length_cons] at hj
            have := ih3 j' (by omega)
            rw [show cti * n + i + (j' + 1) = cti * n + (i + 1) + j' by omega, this]
            rfl
        · intro j hj
          cases j with
          | zero =>
            have e1 : ¬ (cti * n + (i + 1) ≤ k * n + i ∧
                k * n + i < cti * n + (i + 1) + rest.length) := by omega
            have e2 : ¬ (k * n + (i + 1) ≤ k * n + i ∧
                k * n + i < k * n + (i + 1) + rest.length) := by omega
            have e3 : ¬ (k * n + i = cti * n + i) := by omega
            rw [Nat.add_zero, ih5 _ e1 e2, getD_set _ _ _ _ _ h2,
              if_pos rfl, getD_set _ _ _ _ _ h1, if_neg e3]
            rfl
          | succ j' =>
            simp only [List.length_cons] at hj
            have := ih4 j' (by omega)
            have e1 : k * n + (i + 1) + j' ≠ cti * n + i := by omega
            have e2 : k * n + (i + 1) + j' ≠ k * n + i := by omega
            rw [show k * n + i + (j' + 1) = k * n + (i + 1) + j' by omega, this,
              hold _ e1 e2]
            rfl
        · intro idx e1 e2
          simp only [List.length_cons] at e1 e2
          have a1 : ¬ (cti * n + (i + 1) ≤ idx ∧ idx < cti * n + (i + 1) + rest.length) := by
            omega
          have a2 : ¬ (k * n + (i + 1) ≤ idx ∧ idx < k * n + (i + 1) + rest.length) := by
            omega
          have a3 : idx ≠ cti * n + i := by omega
          have a4 : idx ≠ k * n + i := by omega
          rw [ih5 idx a1 a2, hold idx a3 a4]
      · rw [if_neg h2] at h
        exact absurd h (by simp)
    · rw [if_neg h1] at h
      exact absurd h (by simp)

end core

/-! ## The index of a crosstab value -/

namespace core

theorem lookup_enumFrom (ct : String) :
    ∀ (cts : List String) (k : Nat), ct ∈ cts →
      (((cts.enumFrom k).map (fun p => (p.2, p.1))).lookup ct).getD 0 = k + cts.indexOf ct
  | [], _, h => by simp at h
  | c :: rest, k, h => by
    rw [List.enumFrom_cons, List.map_cons, List.lookup_cons, List.indexOf_cons]
    by_cases hc : ct = c
    · subst hc
      simp
    · have hne : (ct == c) = false := by simpa using hc
      have hne2 : (c == ct) = false := by simpa using fun e : c = ct => hc e.symm
      have hmem : ct ∈ rest := by
        rcases List.mem_cons.mp h with h | h
        · exact absurd h hc
        · exact h
      rw [hne, hne2]
      simp only [cond_false]
      rw [lookup_enumFrom ct rest (k + 1) hmem]
      omega

theorem ctisGet_eq_indexOf (cts : List String) (ct : String) (h : ct ∈ cts) :
    ctisGet (buildCtis cts) ct = cts.indexOf ct := by
  unfold ctisGet buildCtis List.enum
  rw [lookup_enumFrom ct cts 0 h]
  omega

theorem ctisGet_lt (cts : List String) (ct : String) (h : ct ∈ cts) :
    ctisGet (buildCtis cts) ct < cts.length := by
  rw [ctisGet_eq_indexOf cts ct h]
  exact List.indexOf_lt_length.mpr h

theorem ctisGet_inj (cts : List String) (a b : String) (ha : a ∈ cts) (hb : b ∈ cts)
    (h : ctisGet (buildCtis cts) a = ctisGet (buildCtis cts) b) : a = b := by
  rw [ctisGet_eq_indexOf cts a ha, ctisGet_eq_indexOf cts b hb] at h
  exact (List.indexOf_inj ha hb).mp h

/-! ## What the writes leave in an output row -/

theorem fieldValues_append (a b : crosstabRows) (i : Nat) :
    fieldValues (a ++ b) i = fieldValues a i ++ fieldValues b i := by
  unfold fieldValues
  rw [List.filterMap_append]

theorem fieldValues_single_some (row : crosstabRow) (i : Nat) (hi : i < row.row.Values.length) :
    fieldValues [row] i = [row.row.Values.getD i 0] := by
  unfold fieldValues
  rw [List.filterMap_cons_some (b := row.row.Values.getD i 0)]
  · rfl
  · rw [List.getD_eq_getElem?_getD, List.getElem?_eq_getElem hi]
    rfl

theorem fieldValues_single_none (row : crosstabRow) (i : Nat) (hi : ¬ i < row.row.Values.length) :
    fieldValues [row] i = [] := by
  unfold fieldValues
  rw [List.filterMap_cons_none]
  · rfl
  · exact List.getElem?_eq_none (by omega)

theorem float_sum_snoc (l : List float64) (x : float64) :
    float64.sum (l ++ [x]) = float64.add (float64.sum l) x := by
  unfold float64.sum
  rw [List.foldl_append]
  rfl

theorem lastWritten_snoc_same (ctis : List (String × Nat)) (g : crosstabRows) (row : crosstabRow)
    (i : Nat) (hi : i < row.row.Values.length) :
    lastWritten ctis (g ++ [row]) (ctisGet ctis row.ct) i = row.row.Values.getD i 0 := by
  unfold lastWritten
  rw [List.filter_append, fieldValues_append]
  have : List.filter (fun r => ctisGet ctis r.ct == ctisGet ctis row.ct) [row] = [row] := by
    simp
  rw [this, fieldValues_single_some row i hi, List.getLast?_append]
  rfl

theorem lastWritten_snoc_short (ctis : List (String × Nat)) (g : crosstabRows) (row : crosstabRow)
    (c i : Nat) (hi : ¬ i < row.row.Values.length) :
    lastWritten ctis (g ++ [row]) c i = lastWritten ctis g c i := by
  unfold lastWritten
  rw [List.filter_append, fieldValues_append]
  by_cases hc : ctisGet ctis row.ct = c
  · have : List.filter (fun r => ctisGet ctis r.ct == c) [row] = [row] := by
      simp [hc]
    rw [this, fieldValues_single_none row i hi, List.append_nil]
  · have : List.filter (fun r => ctisGet ctis r.ct == c) [row] = [] := by
      simp [hc]
    rw [this]
    simp [fieldValues]

theorem lastWritten_snoc_other (ctis : List (String × Nat)) (g : crosstabRows) (row : crosstabRow)
    (c i : Nat) (hc : ctisGet ctis row.ct ≠ c) :
    lastWritten ctis (g ++ [row]) c i = lastWritten ctis g c i := by
  unfold lastWritten
  rw [List.filter_append, fieldValues_append]
  have : List.filter (fun r => ctisGet ctis r.ct == c) [row] = [] := by
    simp [hc]
  rw [this]
  simp [fieldValues]

theorem built_nil (n k : Nat) (ctis : List (String × Nat)) :
    Built n k ctis [] (List.replicate (k * n + n) 0) := by
  refine ⟨by simp, ?_, ?_⟩
  · intro i _
    unfold totalOf
    rw [getD_replicate]
    rfl
  · intro c i _ _
    unfold entryOf
    rw [getD_replicate]
    rfl

theorem built_snoc (n k : Nat) (ctis : List (String × Nat)) (g : crosstabRows)
    (row : crosstabRow) (vs vs' : List float64) (hb : Built n k ctis g vs)
    (hcti : ctisGet ctis row.ct < k)
    (hw : writeValues n k (ctisGet ctis row.ct) 0 row.row.Values vs = some vs') :
    Built n k ctis (g ++ [row]) vs' := by
  obtain ⟨hlen, htot, hent⟩ := hb
  have hA : ctisGet ctis row.ct * n + n ≤ k * n := by
    have := Nat.mul_le_mul_right n (Nat.succ_le_of_lt hcti)
    rw [Nat.succ_mul] at this
    exact this
  obtain ⟨w1, w2, w3, w4, w5⟩ :=
    writeValues_spec n k (ctisGet ctis row.ct) hA row.row.Values 0 vs vs' hlen hw
  have hvl : row.row.Values.length ≤ n := by
    rcases w1 with h | h
    · rw [h]; simp
    · omega
  refine ⟨by rw [w2, hlen], ?_, ?_⟩
  · intro i hi
    rw [fieldValues_append]
    by_cases hil : i < row.row.Values.length
    · rw [fieldValues_single_some row i hil, float_sum_snoc, ← htot i hi]
      have := w4 i hil
      rw [Nat.add_zero] at this
      exact this
    · rw [fieldValues_single_none row i hil, List.append_nil, ← htot i hi]
      unfold totalOf
      have a1 : ¬ (ctisGet ctis row.ct * n + 0 ≤ k * n + i ∧
          k * n + i < ctisGet ctis row.ct * n + 0 + row.row.Values.length) := by omega
      have a2 : ¬ (k * n + 0 ≤ k * n + i ∧ k * n + i < k * n + 0 + row.row.Values.length) := by
        omega
      exact w5 (k * n + i) a1 a2
  · intro c i hc hi
    have hc1 : c * n + n ≤ k * n := by
      have := Nat.mul_le_mul_right n (Nat.succ_le_of_lt hc)
      rw [Nat.succ_mul] at this
      exact this
    by_cases hcc : ctisGet ctis row.ct = c
    · subst hcc
      by_cases hil : i < row.row.Values.length
      · rw [lastWritten_snoc_same ctis g row i hil]
        have := w3 i hil
        rw [Nat.add_zero] at this
        exact this
      · rw [lastWritten_snoc_short ctis g row _ i hil, ← hent _ i hc hi]
        unfold entryOf
        have a1 : ¬ (ctisGet ctis row.ct * n + 0 ≤ ctisGet ctis row.ct * n + i ∧
            ctisGet ctis row.ct * n + i <
              ctisGet ctis row.ct * n + 0 + row.row.Values.length) := by omega
        have a2 : ¬ (k * n + 0 ≤ ctisGet ctis row.ct * n + i ∧
            ctisGet ctis row.ct * n + i < k * n + 0 + row.row.Values.length) := by omega
        exact w5 _ a1 a2
    · rw [lastWritten_snoc_other ctis g row c i hcc, ← hent c i hc hi]
      unfold entryOf
      rcases Nat.lt_or_gt_of_ne hcc with hlt | hgt
      · have h3 : ctisGet ctis row.ct * n + n ≤ c * n := by
          have := Nat.mul_le_mul_right n (Nat.succ_le_of_lt hlt)
          rw [Nat.succ_mul] at this
          exact this
        have a1 : ¬ (ctisGet ctis row.ct * n + 0 ≤ c * n + i ∧
            c * n + i < ctisGet ctis row.ct * n + 0 + row.row.Values.length) := by omega
        have a2 : ¬ (k * n + 0 ≤ c * n + i ∧
            c * n + i < k * n + 0 + row.row.Values.length) := by omega
        exact w5 _ a1 a2
      · have h3 : c * n + n ≤ ctisGet ctis row.ct * n := by
          have := Nat.mul_le_mul_right n (Nat.succ_le_of_lt hgt)
          rw [Nat.succ_mul] at this
          exact this
        have a1 : ¬ (ctisGet ctis row.ct * n + 0 ≤ c * n + i ∧
            c * n + i < ctisGet ctis row.ct * n + 0 + row.row.Values.length) := by omega
        have a2 : ¬ (k * n + 0 ≤ c * n + i ∧
            c * n + i < k * n + 0 + row.row.Values.length) := by omega
        exact w5 _ a1 a2

end core


/-! ## The invariant of the crosstab loop -/

namespace core

theorem foldRow_spec {σ : Type} (n k : Nat) (ctis : List (String × Nat)) (g : crosstabRows)
    (row : crosstabRow) (s : LoopState σ) (cur : FlatRow) (hc : s.currentRow = some cur)
    (hb : Built n k ctis g cur.Values) (hcti : ctisGet ctis row.ct < k) :
    (∃ vs', foldRow n k ctis row s =
        .next { s with currentRow := some { cur with Values := vs' },
                       rowNeedsSubmission := true } ∧
        Built n k ctis (g ++ [row]) vs') ∨
      foldRow n k ctis row s = .panic s := by
  unfold foldRow
  rw [hc]
  dsimp only
  cases hw : writeValues n k (ctisGet ctis row.ct) 0 row.row.Values cur.Values with
  | none => exact Or.inr rfl
  | some values => exact Or.inl ⟨values, rfl, built_snoc n k ctis g row _ _ hb hcti hw⟩

theorem partial_good (n k : Nat) (ctis : List (String × Nat)) (sorted done rest : crosstabRows)
    (cur : FlatRow) (hs : sorted = done ++ rest)
    (hrest : ∀ r, rest.head? = some r → startsNewRow r = true)
    (hp : Partial n k ctis done cur) : Good n k ctis sorted cur := by
  obtain ⟨before, r0, others, hd, h1, h2, hb⟩ := hp
  refine ⟨r0 :: others, ⟨before, r0, others, rest, ?_, rfl, h1, h2, hrest⟩, hb⟩
  rw [hs, hd]

theorem fresh_step {σ : Type} (n k : Nat) (ctis : List (String × Nat)) (outFields : Fields)
    (sorted done : crosstabRows) (row : crosstabRow) (s : LoopState σ)
    (hlen : outFields.length = k * n + n)
    (hpk : s.priorKey = []) (hpt : s.priorTS = 0)
    (hcalls : InvCalls (Good n k ctis sorted) s)
    (hstart : done = [] ∨ startsNewRow row = true) (hcti : ctisGet ctis row.ct < k) :
    CtlInv n k ctis sorted (done ++ [row]) (foldRow n k ctis row
      { s with currentRow := some (freshRow row outFields.length outFields) }) := by
  have hb : Built n k ctis [] (freshRow row outFields.length outFields).Values := by
    simp only [freshRow]
    rw [hlen]
    exact built_nil n k ctis
  rcases foldRow_spec n k ctis [] row
      { s with currentRow := some (freshRow row outFields.length outFields) }
      (freshRow row outFields.length outFields) rfl hb hcti with ⟨vs', hf, hb'⟩ | hf
  · rw [hf]
    refine ⟨hpk, hpt, hcalls, fun h => by simp at h, ?_⟩
    intro cur hcur
    simp only [Option.some.injEq] at hcur
    subst hcur
    exact ⟨done, row, [], rfl, hstart, by simp, ⟨row, rfl, rfl, rfl⟩, by simpa using hb'⟩
  · rw [hf]
    exact hcalls

theorem rowStep_ctlInv {σ : Type} (env : CrosstabEnv)
    (onRow : σ → FlatRow → σ × (Bool × Option GoError))
    (n k : Nat) (ctis : List (String × Nat)) (outFields : Fields)
    (sorted done rest : crosstabRows) (i : Nat) (row : crosstabRow) (s : LoopState σ)
    (hlen : outFields.length = k * n + n)
    (hs : sorted = done ++ row :: rest)
    (hinv : LoopInv n k ctis sorted done s) (hcti : ctisGet ctis row.ct < k) :
    CtlInv n k ctis sorted (done ++ [row]) (rowStep env onRow n k ctis outFields i row s) := by
  obtain ⟨hpk, hpt, hcalls, hnone, hcur⟩ := hinv
  unfold rowStep
  split
  · exact hcalls
  · dsimp only
    have hnew : (s.currentRow.isNone || !(row.key == s.priorKey) ||
        decide (s.priorTS > row.row.TS)) = (s.currentRow.isNone || startsNewRow row) := by
      rw [hpk, hpt, Bool.or_assoc]
      rfl
    rw [hnew]
    split
    · rename_i hnewrow
      have hstart : done = [] ∨ startsNewRow row = true := by
        cases hc : s.currentRow with
        | none => exact Or.inl (hnone hc)
        | some cur =>
          right
          rw [hc] at hnewrow
          simpa using hnewrow
      split
      · cases hc : s.currentRow with
        | none => exact hcalls
        | some cur =>
          dsimp only
          have hstarts : startsNewRow row = true := by
            rw [hc] at hnewrow
            simpa using hnewrow
          have hgood : Good n k ctis sorted cur :=
            partial_good n k ctis sorted done (row :: rest) cur hs
              (fun r hr => by
                simp only [List.head?_cons, Option.some.injEq] at hr
                rw [← hr]; exact hstarts)
              (hcur cur hc)
          cases hcb : onRow s.st cur with
          | mk st resp =>
            obtain ⟨more, onRowErr⟩ := resp
            dsimp only
            have hcalls1 : InvCalls (Good n k ctis sorted)
                ({ s with st := st, calls := s.calls ++ [Call.onRow cur more onRowErr] }
                  : LoopState σ) := by
              intro out m e hmem
              rcases List.mem_append.mp hmem with hmem | hmem
              · exact hcalls out m e hmem
              · simp only [List.mem_singleton, Call.onRow.injEq] at hmem
                rw [hmem.1]
                exact hgood
            cases onRowErr with
            | some e => exact hcalls1
            | none =>
              dsimp only
              split
              · refine ⟨hcalls1, ?_⟩
                intro cur' hcur'
                have hcc : cur = cur' := by simpa using hcur'
                rw [← hcc]
                exact hgood
              · exact fresh_step n k ctis outFields sorted done row
                  ({ s with st := st, calls := s.calls ++ [Call.onRow cur more none] }
                    : LoopState σ) hlen hpk hpt hcalls1 (Or.inr hstarts) hcti
      · exact fresh_step n k ctis outFields sorted done row s hlen hpk hpt hcalls hstart hcti
    · rename_i hnewrow
      cases hc : s.currentRow with
      | none => rw [hc] at hnewrow; simp at hnewrow
      | some cur =>
        have hstarts : startsNewRow row = false := by
          rw [hc] at hnewrow
          simpa using hnewrow
        obtain ⟨before, r0, others, hd, h1, h2, ⟨hhead, hb⟩⟩ := hcur cur hc
        rcases foldRow_spec n k ctis (r0 :: others) row s cur hc hb hcti with
          ⟨vs', hf, hb'⟩ | hf
        · rw [hf]
          refine ⟨hpk, hpt, hcalls, fun h => by simp at h, ?_⟩
          intro cur' hcur'
          simp only [Option.some.injEq] at hcur'
          subst hcur'
          refine ⟨before, r0, others ++ [row], by rw [hd]; simp, h1, ?_, hhead, hb'⟩
          intro r hr
          rcases List.mem_append.mp hr with hr | hr
          · exact h2 r hr
          · rw [List.mem_singleton.mp hr]; exact hstarts
        · rw [hf]
          exact hcalls

theorem rowLoop_ctlInv {σ : Type} (env : CrosstabEnv)
    (onRow : σ → FlatRow → σ × (Bool × Option GoError))
    (n k : Nat) (ctis : List (String × Nat)) (outFields : Fields) (sorted : crosstabRows)
    (hlen : outFields.length = k * n + n) (rows : crosstabRows) :
    ∀ (done : crosstabRows) (i : Nat) (s : LoopState σ), sorted = done ++ rows →
      (∀ r ∈ rows, ctisGet ctis r.ct < k) → LoopInv n k ctis sorted done s →
      CtlInv n k ctis sorted sorted (rowLoop env onRow n k ctis outFields i rows s) := by
  induction rows with
  | nil =>
    intro done i s hs _ hinv
    rw [List.append_nil] at hs
    subst hs
    simp only [rowLoop, CtlInv]
    exact hinv
  | cons row rest ih =>
    intro done i s hs hrows hinv
    have hstep := rowStep_ctlInv env onRow n k ctis outFields sorted done rest i row s hlen hs
      hinv (hrows row (List.mem_cons_self _ _))
    unfold rowLoop
    cases hst : rowStep env onRow n k ctis outFields i row s with
    | next s1 =>
      rw [hst] at hstep
      exact ih (done ++ [row]) (i + 1) s1 (by rw [hs]; simp)
        (fun r hr => hrows r (List.mem_cons_of_mem _ hr)) hstep
    | brk s1 => rw [hst] at hstep; exact hstep
    | ret s1 e => rw [hst] at hstep; exact hstep
    | panic s1 => rw [hst] at hstep; exact hstep

theorem afterLoop_good {σ : Type} (P : FlatRow → Prop)
    (onRow : σ → FlatRow → σ × (Bool × Option GoError))
    (err : Option GoError) (s : LoopState σ) (h1 : InvCalls P s) (h2 : InvCur P s) :
    ∀ out more e, Call.onRow out more e ∈ (afterLoop onRow err s).calls → P out := by
  intro out more e hmem
  unfold afterLoop at hmem
  split at hmem
  · cases hc : s.currentRow with
    | none =>
      rw [hc] at hmem
      exact h1 out more e hmem
    | some cur =>
      rw [hc] at hmem
      dsimp only at hmem
      rcases List.mem_append.mp hmem with hmem | hmem
      · exact h1 out more e hmem
      · simp only [List.mem_singleton, Call.onRow.injEq] at hmem
        rw [hmem.1]
        exact h2 cur hc
  · exact h1 out more e hmem

theorem emit_good {σ : Type} (env : CrosstabEnv) (inFields : Fields) (inRows : crosstabRows)
    (onFields : σ → Fields → σ × Option GoError)
    (onRow : σ → FlatRow → σ × (Bool × Option GoError)) (st : σ)
    (hsort : ∀ l, (env.sortRows l).Perm l) :
    ∀ out more e,
      Call.onRow out more e ∈ (crosstabber.emit env inFields inRows onFields onRow st).calls →
      Good inFields.length (uniqueCTs inRows).length (buildCtis (sortedCTs inRows))
        (env.sortRows inRows) out := by
  have hlen : (buildOutFields (sortedCTs inRows) inFields).length =
      (uniqueCTs inRows).length * inFields.length + inFields.length := by
    rw [buildOutFields_length, sortedCTs_length, Nat.add_mul, Nat.one_mul]
  have hrows : ∀ r ∈ env.sortRows inRows,
      ctisGet (buildCtis (sortedCTs inRows)) r.ct < (uniqueCTs inRows).length := by
    intro r hr
    rw [← sortedCTs_length]
    apply ctisGet_lt
    rw [mem_sortedCTs]
    exact ⟨r, (hsort inRows).mem_iff.mp hr, rfl⟩
  intro out more e hmem
  unfold crosstabber.emit at hmem
  dsimp only at hmem
  generalize onFields st (buildOutFields (sortedCTs inRows) inFields) = of at hmem
  obtain ⟨st1, err1⟩ := of
  cases err1 with
  | some e1 => simp at hmem
  | none =>
    dsimp only at hmem
    have hinv := rowLoop_ctlInv env onRow inFields.length (uniqueCTs inRows).length
      (buildCtis (sortedCTs inRows)) (buildOutFields (sortedCTs inRows) inFields)
      (env.sortRows inRows) hlen (env.sortRows inRows) [] 0
      (LoopState.mk st1 [Call.onFields (buildOutFields (sortedCTs inRows) inFields) none]
        [] 0 none false) rfl hrows
      ⟨rfl, rfl, by intro o m e' h; simp at h, fun _ => rfl, by intro c h; simp at h⟩
    revert hmem hinv
    cases rowLoop env onRow inFields.length (uniqueCTs inRows).length
      (buildCtis (sortedCTs inRows)) (buildOutFields (sortedCTs inRows) inFields) 0
      (env.sortRows inRows)
      (LoopState.mk st1 [Call.onFields (buildOutFields (sortedCTs inRows) inFields) none]
        [] 0 none false) with
    | next s =>
      intro hmem hinv
      obtain ⟨_, _, hcalls, _, hcur⟩ := hinv
      refine afterLoop_good _ onRow none s hcalls ?_ out more e hmem
      intro cur hc
      exact partial_good _ _ _ _ _ [] cur (by simp) (by simp) (hcur cur hc)
    | brk s => intro hmem hinv; exact afterLoop_good _ onRow none s hinv.1 hinv.2 out more e hmem
    | ret s e1 => intro hmem hinv; exact hinv out more e hmem
    | panic s => intro hmem hinv; exact hinv out more e hmem

theorem insertionSort_perm (l : crosstabRows) : (crosstabRows.insertionSort l).Perm l :=
  List.perm_insertionSort _ _

theorem isFoldedRun_subset (sorted g : crosstabRows) (h : IsFoldedRun sorted g) :
    ∀ r ∈ g, r ∈ sorted := by
  obtain ⟨before, r0, others, after, hs, hg, _⟩ := h
  intro r hr
  rw [hs, hg] at *
  simp only [List.mem_append, List.mem_cons] at *
  tauto

theorem lastWritten_nodup (ctis : List (String × Nat)) (i : Nat) :
    ∀ (g : crosstabRows), (g.map (fun r => ctisGet ctis r.ct)).Nodup →
      ∀ r ∈ g, i < r.row.Values.length →
        lastWritten ctis g (ctisGet ctis r.ct) i = r.row.Values.getD i 0
  | [], _, r, hr, _ => by simp at hr
  | x :: xs, hnd, r, hr, hi => by
    rw [List.map_cons, List.nodup_cons] at hnd
    obtain ⟨hx, hxs⟩ := hnd
    rcases List.mem_cons.mp hr with rfl | hr
    · have hfil : List.filter (fun y => ctisGet ctis y.ct == ctisGet ctis r.ct) xs = [] := by
        rw [List.filter_eq_nil_iff]
        intro y hy
        simp only [beq_iff_eq]
        intro e
        exact hx (List.mem_map.mpr ⟨y, hy, e⟩)
      unfold lastWritten
      rw [List.filter_cons_of_pos (by simp), hfil, fieldValues_single_some r i hi]
      rfl
    · have hne : ctisGet ctis x.ct ≠ ctisGet ctis r.ct := by
        intro e
        exact hx (List.mem_map.mpr ⟨r, hr, e.symm⟩)
      have := lastWritten_nodup ctis i xs hxs r hr hi
      unfold lastWritten at *
      rw [List.filter_cons_of_neg (by simpa using hne)]
      exact this

/-- C4, as the code has it. Crosstab totals: every output row emitted by Crosstab is
built from a run of consecutive sorted input rows that the loop folds into one output
row (it starts at the first sorted row or at a row that starts a new output row, and ends
before the next such row), and carries the timestamp and residual key of the first of
them; for each input field `i` its `total_<field i>` entry (index `numCTs*numInFields + i`
of `Values`) is the `float64` sum, accumulated in that order, of the values of field `i`
over those input rows, and its `<ct>_<field i>` entry is the value last written to it
(zero when none was); when those rows carry pairwise distinct crosstab values, each
value is the row's `<ct>_<field i>` entry, so that the total is the sum of the row's
entries at those crosstab values. -/
theorem crosstab_totals_sum_folded_rows {σ : Type} (env : CrosstabEnv) (source : SourceRun)
    (onFields : σ → Fields → σ × Option GoError)
    (onRow : σ → FlatRow → σ × (Bool × Option GoError)) (st : σ)
    (hsort : ∀ l, (env.sortRows l).Perm l)
    (inFields : Fields) (inRows : crosstabRows)
    (hbuf : buffer env.split source.events ([], []) = some (inFields, inRows))
    (out : FlatRow) (more : Bool) (e : Option GoError)
    (hcall : Call.onRow out more e ∈ (crosstabber.Iterate env source onFields onRow st).calls) :
    ∃ g : crosstabRows, IsFoldedRun (env.sortRows inRows) g ∧
      (∃ r0, g.head? = some r0 ∧ out.TS = r0.row.TS ∧ out.Key = r0.key) ∧
      out.Values.length = ((uniqueCTs inRows).length + 1) * inFields.length ∧
      ∀ i, i < inFields.length →
        totalOf inFields.length (uniqueCTs inRows).length out.Values i =
          float64.sum (fieldValues g i) ∧
        (∀ c, c < (uniqueCTs inRows).length →
          entryOf inFields.length out.Values c i =
            lastWritten (buildCtis (sortedCTs inRows)) g c i) ∧
        ((g.map (fun r => r.ct)).Nodup →
          (∀ r ∈ g, i < r.row.Values.length →
            entryOf inFields.length out.Values (ctisGet (buildCtis (sortedCTs inRows)) r.ct) i =
              r.row.Values.getD i 0) ∧
          totalOf inFields.length (uniqueCTs inRows).length out.Values i =
            float64.sum (entriesOf inFields.length (buildCtis (sortedCTs inRows)) out.Values
              g i)) := by
  have hemit : Call.onRow out more e ∈
      (crosstabber.emit env inFields inRows onFields onRow st).calls := by
    by_cases hd : source.err = some .ErrDeadlineExceeded
    · rw [Iterate_of_deadline env source onFields onRow st hd] at hcall
      simp at hcall
    · rwa [Iterate_of_buffer env source onFields onRow st inFields inRows hbuf hd] at hcall
  obtain ⟨g, hrun, hhead, hlen, htot, hent⟩ :=
    emit_good env _ _ onFields onRow st hsort out more e hemit
  have hin : ∀ r ∈ g, r ∈ inRows :=
    fun r hr => (hsort _).mem_iff.mp (isFoldedRun_subset _ _ hrun r hr)
  have hctik : ∀ r ∈ g, ctisGet (buildCtis (sortedCTs inRows)) r.ct <
      (uniqueCTs inRows).length := by
    intro r hr
    rw [← sortedCTs_length]
    apply ctisGet_lt
    rw [mem_sortedCTs]
    exact ⟨r, hin r hr, rfl⟩
  refine ⟨g, hrun, hhead, by rw [hlen, Nat.add_mul, Nat.one_mul], fun i hi =>
    ⟨htot i hi, fun c hc => hent c i hc hi, fun hct => ?_⟩⟩
  have hnd : (g.map (fun r => ctisGet (buildCtis (sortedCTs inRows)) r.ct)).Nodup := by
    have hmap : g.map (fun r => ctisGet (buildCtis (sortedCTs inRows)) r.ct) =
        (g.map (fun r => r.ct)).map (ctisGet (buildCtis (sortedCTs inRows))) := by
      rw [List.map_map]
      rfl
    rw [hmap]
    apply List.Nodup.map_on _ hct
    intro a ha b hb hab
    have hmemct : ∀ c ∈ g.map (fun r => r.ct), c ∈ sortedCTs inRows := by
      intro c hc
      obtain ⟨r, hr, hrc⟩ := List.mem_map.mp hc
      rw [mem_sortedCTs]
      exact ⟨r, hin r hr, hrc⟩
    exact ctisGet_inj _ a b (hmemct a ha) (hmemct b hb) hab
  have hrowent : ∀ r ∈ g, i < r.row.Values.length →
      entryOf inFields.length out.Values (ctisGet (buildCtis (sortedCTs inRows)) r.ct) i =
        r.row.Values.getD i 0 := by
    intro r hr hil
    rw [hent _ i (hctik r hr) hi]
    exact lastWritten_nodup _ i g hnd r hr hil
  refine ⟨hrowent, ?_⟩
  rw [htot i hi]
  congr 1
  unfold fieldValues entriesOf
  apply List.filterMap_congr
  intro r hr
  by_cases hil : i < r.row.Values.length
  · rw [if_pos hil, hrowent r hr hil, List.getD_eq_getElem?_getD, List.getElem?_eq_getElem hil]
    rfl
  · rw [if_neg hil]
    exact List.getElem?_eq_none (by omega)

end core


namespace core

/-- Scenario S6 without residual key: the one output row `[1, 2, 3]` is built from the
run of both input rows, its total 3 is the sum of their values 1 and 2, and these are
its entries `x_v` and `y_v`. -/
theorem crosstab_totals_sum_folded_rows_witness :
    (∀ l, (scenario.env.sortRows l).Perm l) ∧
      buffer scenario.env.split (scenario.scenarioS6NoKey none).events ([], []) =
        some ([NewField "v" { id := 0 }], scenario.bufferedS6NoKey) ∧
      Call.onRow (scenario.outputRow [] [1, 2, 3]) true none ∈
        (crosstabber.Iterate scenario.env (scenario.scenarioS6NoKey none) scenario.acceptFields
          scenario.collect []).calls ∧
      IsFoldedRun (scenario.env.sortRows scenario.bufferedS6NoKey) scenario.bufferedS6NoKey ∧
      totalOf 1 2 (scenario.outputRow [] [1, 2, 3]).Values 0 = 3 ∧
      float64.sum (fieldValues scenario.bufferedS6NoKey 0) = 3 ∧
      ∃ g : crosstabRows, IsFoldedRun (scenario.env.sortRows scenario.bufferedS6NoKey) g ∧
        (∃ r0, g.head? = some r0 ∧ (scenario.outputRow [] [1, 2, 3]).TS = r0.row.TS ∧
          (scenario.outputRow [] [1, 2, 3]).Key = r0.key) ∧
        (scenario.outputRow [] [1, 2, 3]).Values.length =
          ((uniqueCTs scenario.bufferedS6NoKey).length + 1) *
            ([NewField "v" { id := 0 }] : Fields).length ∧
        ∀ i, i < ([NewField "v" { id := 0 }] : Fields).length →
          totalOf ([NewField "v" { id := 0 }] : Fields).length
              (uniqueCTs scenario.bufferedS6NoKey).length
              (scenario.outputRow [] [1, 2, 3]).Values i =
            float64.sum (fieldValues g i) ∧
          (∀ c, c < (uniqueCTs scenario.bufferedS6NoKey).length →
            entryOf ([NewField "v" { id := 0 }] : Fields).length
                (scenario.outputRow [] [1, 2, 3]).Values c i =
              lastWritten (buildCtis (sortedCTs scenario.bufferedS6NoKey)) g c i) ∧
          ((g.map (fun r => r.ct)).Nodup →
            (∀ r ∈ g, i < r.row.Values.length →
              entryOf ([NewField "v" { id := 0 }] : Fields).length
                  (scenario.outputRow [] [1, 2, 3]).Values
                  (ctisGet (buildCtis (sortedCTs scenario.bufferedS6NoKey)) r.ct) i =
                r.row.Values.getD i 0) ∧
            totalOf ([NewField "v" { id := 0 }] : Fields).length
                (uniqueCTs scenario.bufferedS6NoKey).length
                (scenario.outputRow [] [1, 2, 3]).Values i =
              float64.sum (entriesOf ([NewField "v" { id := 0 }] : Fields).length
                (buildCtis (sortedCTs scenario.bufferedS6NoKey))
                (scenario.outputRow [] [1, 2, 3]).Values g i)) :=
  ⟨insertionSort_perm, by decide, by decide,
    ⟨[], _, _, [], by decide, rfl, Or.inl rfl, by decide, by simp⟩,
    by decide, by decide,
    crosstab_totals_sum_folded_rows scenario.env (scenario.scenarioS6NoKey none)
      scenario.acceptFields scenario.collect [] insertionSort_perm
      [NewField "v" { id := 0 }] scenario.bufferedS6NoKey (by decide)
      (scenario.outputRow [] [1, 2, 3]) true none (by decide)⟩

/-- C4, as stated, fails: two input rows with the same key, the same timestamp and the
same crosstab value "x", with values 1 and 2, give the one output row `[2, 3]`: the
entry `x_v` holds the last value written, 2, and `total_v` is 3. -/
theorem crosstab_total_exceeds_entries :
    scenario.rowsOf (crosstabber.Iterate scenario.env scenario.scenarioSameCT
        scenario.acceptFields scenario.collect []).calls =
      [{ TS := 1, Key := [], Values := [2, 3], Totals := [],
         fields := [NewField "x_v" { id := 0 }, NewField "total_v" { id := 0 }] }] ∧
      (announcedFields scenario.scenarioSameCT.events []).length = 1 ∧
      (buffer scenario.env.split scenario.scenarioSameCT.events ([], [])).map
        (fun b => (uniqueCTs b.2).length) = some 1 ∧
      totalOf 1 1 [2, 3] 0 = 3 ∧ sumOverCTs 1 1 [2, 3] 0 = 2 ∧
      totalOf 1 1 [2, 3] 0 ≠ sumOverCTs 1 1 [2, 3] 0 := by
  refine ⟨?_, ?_, ?_, ?_, ?_, ?_⟩ <;> decide

/-- The totals are `float64` sums: with the values `2^53` and 1 under the crosstab values
"x" and "y", the total is `2^53`, the sum rounded to the nearest `float64`. -/
theorem crosstab_total_is_rounded :
    scenario.rowsOf (crosstabber.Iterate scenario.env scenario.scenarioLarge
        scenario.acceptFields scenario.collect []).calls =
      [scenario.outputRow [] [9007199254740992, 1, 9007199254740992]] := by
  decide

end core


/-! ## The order of the buffered rows -/

namespace core

theorem stringLess_irrefl (a : String) : stringLess a a = false :=
  lexLess_irrefl _

theorem stringLess_trans (a b c : String) (h1 : stringLess a b = true)
    (h2 : stringLess b c = true) : stringLess a c = true :=
  lexLess_trans _ _ _ h1 h2

theorem stringLess_total (a b : String) (h1 : stringLess a b = false)
    (h2 : stringLess b a = false) : a = b :=
  codes_injective a b (lexLess_total _ _ h1 h2)

theorem Less_iff_precedes (a b : crosstabRow) :
    crosstabRows.Less a b = true ↔ crosstabRows.precedes a b := by
  unfold crosstabRows.Less crosstabRows.precedes
  by_cases hab : lexLess a.key b.key = true
  · have hkc : bytesCompare a.key b.key = -1 := by simp [bytesCompare, hab]
    simp [hkc, hab]
  · have hab' : lexLess a.key b.key = false := by simpa using hab
    by_cases hba : lexLess b.key a.key = true
    · have hne : a.key ≠ b.key := by
        intro e
        rw [e, lexLess_irrefl] at hba
        exact Bool.noConfusion hba
      have hkc : bytesCompare a.key b.key = 1 := by simp [bytesCompare, hab', hba]
      simp [hkc, hab', hne]
    · have hba' : lexLess b.key a.key = false := by simpa using hba
      have hk : a.key = b.key := lexLess_total _ _ hab' hba'
      have hkc : bytesCompare a.key b.key = 0 := by simp [bytesCompare, hab', hba']
      have hkt : (a.key = b.key) = True := eq_true hk
      simp only [hkc, lt_self_iff_false, if_false, gt_iff_lt, hab', Bool.false_eq_true,
        false_or, hkt, true_and]
      by_cases h1 : b.row.TS < a.row.TS
      · simp [h1]
      · by_cases h2 : a.row.TS < b.row.TS
        · have hne : a.row.TS ≠ b.row.TS := by omega
          simp [h1, h2, hne]
        · have he : a.row.TS = b.row.TS := by omega
          simp [h1, h2, he]

theorem precedes_irrefl (a : crosstabRow) : ¬ crosstabRows.precedes a a := by
  unfold crosstabRows.precedes
  rw [lexLess_irrefl, stringLess_irrefl]
  simp

theorem precedes_trans (a b c : crosstabRow) (h1 : crosstabRows.precedes a b)
    (h2 : crosstabRows.precedes b c) : crosstabRows.precedes a c := by
  unfold crosstabRows.precedes at *
  rcases h1 with h1 | ⟨k1, h1⟩
  · rcases h2 with h2 | ⟨k2, _⟩
    · exact Or.inl (lexLess_trans _ _ _ h1 h2)
    · exact Or.inl (k2 ▸ h1)
  · rcases h2 with h2 | ⟨k2, h2⟩
    · exact Or.inl (k1 ▸ h2)
    · refine Or.inr ⟨k1.trans k2, ?_⟩
      rcases h1 with h1 | ⟨t1, c1⟩
      · rcases h2 with h2 | ⟨t2, _⟩
        · left; omega
        · left; omega
      · rcases h2 with h2 | ⟨t2, c2⟩
        · left; omega
        · exact Or.inr ⟨t1.trans t2, stringLess_trans _ _ _ c1 c2⟩

theorem incomparable_iff (a b : crosstabRow) :
    crosstabRows.incomparable a b ↔ a.key = b.key ∧ a.row.TS = b.row.TS ∧ a.ct = b.ct := by
  unfold crosstabRows.incomparable
  have hab := Less_iff_precedes a b
  have hba := Less_iff_precedes b a
  constructor
  · rintro ⟨h1, h2⟩
    have n1 : ¬ crosstabRows.precedes a b := fun h => by
      rw [hab.mpr h] at h1; exact Bool.noConfusion h1
    have n2 : ¬ crosstabRows.precedes b a := fun h => by
      rw [hba.mpr h] at h2; exact Bool.noConfusion h2
    unfold crosstabRows.precedes at n1 n2
    have k1 : lexLess a.key b.key = false := by
      by_contra h; exact n1 (Or.inl (by simpa using h))
    have k2 : lexLess b.key a.key = false := by
      by_contra h; exact n2 (Or.inl (by simpa using h))
    have hk : a.key = b.key := lexLess_total _ _ k1 k2
    have t1 : ¬ b.row.TS < a.row.TS := fun h => n1 (Or.inr ⟨hk, Or.inl h⟩)
    have t2 : ¬ a.row.TS < b.row.TS := fun h => n2 (Or.inr ⟨hk.symm, Or.inl h⟩)
    have ht : a.row.TS = b.row.TS := by omega
    have c1 : stringLess a.ct b.ct = false := by
      by_contra h; exact n1 (Or.inr ⟨hk, Or.inr ⟨ht, by simpa using h⟩⟩)
    have c2 : stringLess b.ct a.ct = false := by
      by_contra h; exact n2 (Or.inr ⟨hk.symm, Or.inr ⟨ht.symm, by simpa using h⟩⟩)
    exact ⟨hk, ht, stringLess_total _ _ c1 c2⟩
  · rintro ⟨hk, ht, hc⟩
    have n1 : ¬ crosstabRows.precedes a b := by
      unfold crosstabRows.precedes
      rw [hk, ht, hc, lexLess_irrefl, stringLess_irrefl]
      simp
    have n2 : ¬ crosstabRows.precedes b a := by
      unfold crosstabRows.precedes
      rw [hk, ht, hc, lexLess_irrefl, stringLess_irrefl]
      simp
    constructor
    · by_contra h; exact n1 (hab.mp (by simpa using h))
    · by_contra h; exact n2 (hba.mp (by simpa using h))

/-- C11. Crosstab sort order: `Less` holds exactly when the first row precedes the
second in the lexicographic order (residual key ascending by byte comparison, then
timestamp descending, then crosstab value ascending); it is a strict weak order
(irreflexive, asymmetric, transitive, with transitive incomparability), and two rows
are incomparable exactly when they agree on key, TS and ct. -/
theorem crosstab_less_strict_weak_order :
    (∀ a b : crosstabRow, crosstabRows.Less a b = true ↔ crosstabRows.precedes a b) ∧
      (∀ a : crosstabRow, crosstabRows.Less a a = false) ∧
      (∀ a b : crosstabRow, crosstabRows.Less a b = true → crosstabRows.Less b a = false) ∧
      (∀ a b c : crosstabRow, crosstabRows.Less a b = true → crosstabRows.Less b c = true →
        crosstabRows.Less a c = true) ∧
      (∀ a b c : crosstabRow, crosstabRows.incomparable a b → crosstabRows.incomparable b c →
        crosstabRows.incomparable a c) ∧
      (∀ a b : crosstabRow, crosstabRows.incomparable a b ↔
        a.key = b.key ∧ a.row.TS = b.row.TS ∧ a.ct = b.ct) := by
  have hirr : ∀ a : crosstabRow, crosstabRows.Less a a = false := by
    intro a
    by_contra h
    exact precedes_irrefl a ((Less_iff_precedes a a).mp (by simpa using h))
  have htrans : ∀ a b c : crosstabRow, crosstabRows.Less a b = true →
      crosstabRows.Less b c = true → crosstabRows.Less a c = true := by
    intro a b c h1 h2
    exact (Less_iff_precedes a c).mpr
      (precedes_trans a b c ((Less_iff_precedes a b).mp h1) ((Less_iff_precedes b c).mp h2))
  refine ⟨Less_iff_precedes, hirr, ?_, htrans, ?_, incomparable_iff⟩
  · intro a b h
    by_contra hba
    have := htrans a b a h (by simpa using hba)
    rw [hirr] at this
    exact Bool.noConfusion this
  · intro a b c h1 h2
    rw [incomparable_iff] at *
    exact ⟨h1.1.trans h2.1, h1.2.1.trans h2.2.1, h1.2.2.trans h2.2.2⟩

end core


/-! ## The order of a serial stage -/

namespace core

theorem serialLoop_runs {ρ σ : Type} (onRow : σ → ρ → σ × (Bool × Option GoError))
    (sources : List (SourceProg ρ)) :
    ∀ st : σ,
      (serialLoop onRow sources st).calls =
          (upToFirstError (sourceRuns onRow sources st)).flatMap (fun r => r.calls) ∧
        (serialLoop onRow sources st).err = firstError (sourceRuns onRow sources st) := by
  induction sources with
  | nil => intro st; simp [serialLoop, sourceRuns, upToFirstError, firstError]
  | cons s rest ih =>
    intro st
    unfold serialLoop sourceRuns upToFirstError firstError
    dsimp only
    cases he : (s.Iterate onRow st).err with
    | some e => simp
    | none =>
      obtain ⟨h1, h2⟩ := ih (s.Iterate onRow st).st
      simp [h1, h2]

theorem firstError_none {ρ σ : Type} (runs : List (StageResult ρ σ))
    (h : ∀ r ∈ runs, r.err = none) : firstError runs = none ∧ upToFirstError runs = runs := by
  induction runs with
  | nil => simp [firstError, upToFirstError]
  | cons r rest ih =>
    have hr := h r (List.mem_cons_self _ _)
    obtain ⟨h1, h2⟩ := ih (fun r' hr' => h r' (List.mem_cons_of_mem _ hr'))
    simp [firstError, upToFirstError, hr, h1, h2]

theorem firstError_some {ρ σ : Type} (runs : List (StageResult ρ σ)) (e : GoError)
    (h : ∃ r ∈ upToFirstError runs, r.err = some e) : firstError runs = some e := by
  induction runs with
  | nil => simp [upToFirstError] at h
  | cons r rest ih =>
    obtain ⟨r', hr', he⟩ := h
    unfold upToFirstError at hr'
    unfold firstError
    cases hr : r.err with
    | some e' =>
      rw [hr] at hr'
      simp only [List.mem_singleton] at hr'
      rw [hr'] at he
      rw [hr] at he
      simpa using he
    | none =>
      rw [hr] at hr'
      simp only
      rcases List.mem_cons.mp hr' with h1 | h1
      · rw [h1, hr] at he
        exact absurd he (by simp)
      · exact ih ⟨r', h1, he⟩

/-- C13. Serial stage order: `Connect` appends, and `iterateSerial` runs the sources'
`Iterate` one after another in the order of connection: its callback invocations are
those of the first source, then those of the second, and so on up to the first source
that returns a non-nil error; it returns that error, and nil when every source returns
nil (all sources having then been iterated). -/
theorem serial_stage_order {σ : Type} (rc : rowConnectable) (fc : flatRowConnectable)
    (rs : SourceProg Row) (fs : SourceProg FlatRow)
    (onRow : σ → Row → σ × (Bool × Option GoError))
    (onFlatRow : σ → FlatRow → σ × (Bool × Option GoError)) (st : σ) :
    (rc.Connect rs).sources = rc.sources ++ [rs] ∧
      (fc.Connect fs).sources = fc.sources ++ [fs] ∧
      (rc.iterateSerial onRow st).calls =
        (upToFirstError (sourceRuns onRow rc.sources st)).flatMap (fun r => r.calls) ∧
      (rc.iterateSerial onRow st).err = firstError (sourceRuns onRow rc.sources st) ∧
      (fc.iterateSerial onFlatRow st).calls =
        (upToFirstError (sourceRuns onFlatRow fc.sources st)).flatMap (fun r => r.calls) ∧
      (fc.iterateSerial onFlatRow st).err = firstError (sourceRuns onFlatRow fc.sources st) ∧
      (∀ e, (∃ r ∈ upToFirstError (sourceRuns onRow rc.sources st), r.err = some e) →
        (rc.iterateSerial onRow st).err = some e) ∧
      (∀ e, (∃ r ∈ upToFirstError (sourceRuns onFlatRow fc.sources st), r.err = some e) →
        (fc.iterateSerial onFlatRow st).err = some e) ∧
      ((∀ r ∈ sourceRuns onRow rc.sources st, r.err = none) →
        (rc.iterateSerial onRow st).err = none ∧
        (rc.iterateSerial onRow st).calls =
          (sourceRuns onRow rc.sources st).flatMap (fun r => r.calls)) ∧
      ((∀ r ∈ sourceRuns onFlatRow fc.sources st, r.err = none) →
        (fc.iterateSerial onFlatRow st).err = none ∧
        (fc.iterateSerial onFlatRow st).calls =
          (sourceRuns onFlatRow fc.sources st).flatMap (fun r => r.calls)) := by
  have hr := serialLoop_runs onRow rc.sources st
  have hf := serialLoop_runs onFlatRow fc.sources st
  refine ⟨rfl, rfl, hr.1, hr.2, hf.1, hf.2, ?_, ?_, ?_, ?_⟩
  · intro e he
    exact hr.2.trans (firstError_some _ e he)
  · intro e he
    exact hf.2.trans (firstError_some _ e he)
  · intro hall
    obtain ⟨h1, h2⟩ := firstError_none _ hall
    exact ⟨hr.2.trans h1, by rw [← h2]; exact hr.1⟩
  · intro hall
    obtain ⟨h1, h2⟩ := firstError_none _ hall
    exact ⟨hf.2.trans h1, by rw [← h2]; exact hf.1⟩

/-- Two sources connected in this order, with rows 1, 2 and row 3: the rows arrive as
1, 2, 3 and nil is returned; when the first source returns an error after its rows, that
error is returned and row 3 is not delivered. -/
theorem serial_stage_order_witness :
    ((((rowConnectable.mk []).Connect (SourceProg.ofRows none [Row.mk [1] [], Row.mk [2] []])).Connect
        (SourceProg.ofRows none [Row.mk [3] []])).iterateSerial scenario.keepGoing 0).calls.map
          (fun c => c.row.key) = [[1], [2], [3]] ∧
      ((((rowConnectable.mk []).Connect
          (SourceProg.ofRows (some (.custom 1)) [Row.mk [1] [], Row.mk [2] []])).Connect
        (SourceProg.ofRows none [Row.mk [3] []])).iterateSerial scenario.keepGoing 0).calls.map
          (fun c => c.row.key) = [[1], [2]] ∧
      ((((rowConnectable.mk []).Connect
          (SourceProg.ofRows (some (.custom 1)) [Row.mk [1] [], Row.mk [2] []])).Connect
        (SourceProg.ofRows none [Row.mk [3] []])).iterateSerial scenario.keepGoing 0).err =
          some (.custom 1) ∧
      (((rowConnectable.mk []).Connect (SourceProg.ofRows none [Row.mk [1] [], Row.mk [2] []])).Connect
        (SourceProg.ofRows none [Row.mk [3] []])).sources =
          ((rowConnectable.mk []).Connect
            (SourceProg.ofRows none [Row.mk [1] [], Row.mk [2] []])).sources ++
          [SourceProg.ofRows none [Row.mk [3] []]] :=
  ⟨by decide, by decide, by decide,
    (serial_stage_order ((rowConnectable.mk []).Connect
        (SourceProg.ofRows none [Row.mk [1] [], Row.mk [2] []])) (flatRowConnectable.mk [])
      (SourceProg.ofRows none [Row.mk [3] []]) (SourceProg.ofRows none [])
      scenario.keepGoing scenario.keepGoing 0).1⟩

end core


/-! ## Errors in a stage over several sources -/

namespace core

theorem collectErrors_fold (l : List (Option GoError)) :
    ∀ init : Option GoError,
      l.foldl (fun finalErr err =>
        match err with
        | some e => some e
        | none => finalErr) init =
      match lastNonNil l with
      | some e => some e
      | none => init := by
  induction l with
  | nil => intro init; simp [lastNonNil]
  | cons a rest ih =>
    intro init
    rw [List.foldl_cons, ih]
    unfold lastNonNil
    rw [List.reverse_cons, List.filterMap_append, List.head?_append]
    cases hrest : (rest.reverse.filterMap id).head? with
    | some e => simp
    | none =>
      cases a with
      | none => simp
      | some e => simp

theorem collectErrors_eq (l : List (Option GoError)) : collectErrors l = lastNonNil l := by
  unfold collectErrors
  refine (collectErrors_fold l none).trans ?_
  cases lastNonNil l <;> rfl

theorem lastNonNil_eq_none (l : List (Option GoError)) :
    lastNonNil l = none ↔ ∀ a ∈ l, a = none := by
  unfold lastNonNil
  rw [List.head?_eq_none_iff, List.filterMap_eq_nil_iff]
  simp


theorem parStep_length {ρ σ : Type} (onRow : σ → ρ → σ × (Bool × Option GoError))
    (s : ParState ρ σ) (i : Nat) : (parStep onRow s i).progs.length = s.progs.length := by
  unfold parStep
  cases h : s.progs[i]? with
  | none => rfl
  | some o =>
    cases o with
    | none => rfl
    | some p =>
      cases p with
      | done err => simp
      | call row k => simp


theorem stepsTo_snoc {ρ : Type} (row : ρ) (k : Bool → Option GoError → SourceProg ρ)
    (more : Bool) (err : Option GoError) :
    ∀ (calls : List (RowCall ρ)) (p : SourceProg ρ), p.stepsTo calls (.call row k) →
      p.stepsTo (calls ++ [{ row := row, more := more, err := err }]) (k more err)
  | [], p, h => by
    simp only [SourceProg.stepsTo] at h
    subst h
    simp [SourceProg.stepsTo]
  | c :: cs, .done e, h => by simp [SourceProg.stepsTo] at h
  | c :: cs, .call row1 k1, h => by
    simp only [SourceProg.stepsTo] at h
    simp only [List.cons_append, SourceProg.stepsTo]
    exact ⟨h.1, stepsTo_snoc row k more err cs _ h.2⟩

theorem answered_snoc {ρ σ : Type} (onRow : σ → ρ → σ × (Bool × Option GoError)) (row : ρ) :
    ∀ (calls : List (RowCall ρ)) (st final : σ), Answered onRow st calls final →
      Answered onRow st
        (calls ++ [{ row := row, more := (onRow final row).2.1, err := (onRow final row).2.2 }])
        (onRow final row).1
  | [], st, final, h => by
    simp only [Answered] at h
    subst h
    simp [Answered]
  | c :: cs, st, final, h => by
    simp only [Answered] at h
    simp only [List.cons_append, Answered]
    exact ⟨h.1, answered_snoc onRow row cs _ final h.2⟩

theorem callsOf_snoc_same {ρ : Type} (i : Nat) (calls : List (Nat × RowCall ρ)) (c : RowCall ρ) :
    callsOf i (calls ++ [(i, c)]) = callsOf i calls ++ [c] := by
  simp [callsOf, List.filter_append]

theorem callsOf_snoc_other {ρ : Type} (i j : Nat) (calls : List (Nat × RowCall ρ))
    (c : RowCall ρ) (h : i ≠ j) : callsOf j (calls ++ [(i, c)]) = callsOf j calls := by
  simp [callsOf, List.filter_append, h]

theorem parStep_inv {ρ σ : Type} (sources : List (SourceProg ρ))
    (onRow : σ → ρ → σ × (Bool × Option GoError)) (st : σ)
    (s : ParState ρ σ) (i : Nat) (h : ParInv sources onRow st s) :
    ParInv sources onRow st (parStep onRow s i) := by
  obtain ⟨hlen, hnd, hmem, hans, hidx, hprog, harr⟩ := h
  unfold parStep
  cases hi : s.progs[i]? with
  | none => exact ⟨hlen, hnd, hmem, hans, hidx, hprog, harr⟩
  | some o =>
    have hilt : i < s.progs.length := by
      by_contra hge
      rw [List.getElem?_eq_none (by omega)] at hi
      exact Option.noConfusion hi
    cases o with
    | none => exact ⟨hlen, hnd, hmem, hans, hidx, hprog, harr⟩
    | some p =>
      have hnot : i ∉ s.arrivals.map Prod.fst := by
        intro hin
        rw [(hmem i).mp hin] at hi
        simp at hi
      obtain ⟨src, hsrc, hsteps⟩ := hprog i p hi
      cases p with
      | done err =>
        refine ⟨by simp [hlen], ?_, ?_, hans, hidx, ?_, ?_⟩
        · simp only [List.map_append, List.map_cons, List.map_nil]
          rw [List.nodup_append]
          refine ⟨hnd, by simp, ?_⟩
          intro x hx hx'
          rw [List.mem_singleton.mp hx'] at hx
          exact hnot hx
        · intro j
          simp only [List.map_append, List.map_cons, List.map_nil, List.mem_append,
            List.mem_singleton, List.getElem?_set]
          by_cases hij : i = j
          · subst hij
            simp [hilt]
          · have hji : ¬ j = i := fun e => hij e.symm
            simp only [hij, hji, or_false, if_false]
            exact hmem j
        · intro j q hj
          simp only [List.getElem?_set] at hj
          by_cases hij : i = j
          · subst hij
            simp [hilt] at hj
          · simp only [hij, if_false] at hj
            exact hprog j q hj
        · intro j e hje
          simp only [List.mem_append, List.mem_singleton, Prod.mk.injEq] at hje
          rcases hje with hje | ⟨hj, he⟩
          · exact harr j e hje
          · subst hj; subst he
            exact ⟨src, hsrc, hsteps⟩
      | call row k =>
        dsimp only
        refine ⟨by simp [hlen], hnd, ?_, ?_, ?_, ?_, ?_⟩
        · intro j
          simp only [List.getElem?_set]
          by_cases hij : i = j
          · subst hij
            simp [hilt, hnot]
          · simp only [hij, if_false]
            exact hmem j
        · simp only [List.map_append, List.map_cons, List.map_nil]
          exact answered_snoc onRow row _ st s.st hans
        · intro c hc
          rcases List.mem_append.mp hc with hc | hc
          · exact hidx c hc
          · rw [List.mem_singleton.mp hc]
            show i < sources.length
            omega
        · intro j q hj
          simp only [List.getElem?_set] at hj
          by_cases hij : i = j
          · subst hij
            simp only [hilt, if_true, Option.some.injEq] at hj
            subst hj
            refine ⟨src, hsrc, ?_⟩
            rw [callsOf_snoc_same]
            exact stepsTo_snoc row k _ _ _ src hsteps
          · simp only [hij, if_false] at hj
            obtain ⟨src', h1, h2⟩ := hprog j q hj
            exact ⟨src', h1, by rw [callsOf_snoc_other i j _ _ hij]; exact h2⟩
        · intro j e hje
          have hij : i ≠ j := by
            intro e'
            subst e'
            exact hnot (List.mem_map.mpr ⟨(i, e), hje, rfl⟩)
          obtain ⟨src', h1, h2⟩ := harr j e hje
          exact ⟨src', h1, by rw [callsOf_snoc_other i j _ _ hij]; exact h2⟩

theorem parRun_inv {ρ σ : Type} (sources : List (SourceProg ρ))
    (onRow : σ → ρ → σ × (Bool × Option GoError)) (st : σ) (sched : List Nat) :
    ∀ s : ParState ρ σ, ParInv sources onRow st s →
      ParInv sources onRow st (parRun onRow sched s) := by
  induction sched with
  | nil => intro s h; exact h
  | cons i rest ih =>
    intro s h
    exact ih _ (parStep_inv sources onRow st s i h)

theorem parInv_init {ρ σ : Type} (sources : List (SourceProg ρ))
    (onRow : σ → ρ → σ × (Bool × Option GoError)) (st : σ) :
    ParInv sources onRow st
      ({ progs := sources.map some, st := st, calls := [], arrivals := [] } : ParState ρ σ) := by
  refine ⟨by simp, by simp, ?_, by simp [Answered], by simp, ?_, by simp⟩
  · intro i
    simp only [List.map_nil, List.not_mem_nil, List.getElem?_map, false_iff]
    cases sources[i]? <;> simp
  · intro i p hp
    simp only [List.getElem?_map] at hp
    cases hs : sources[i]? with
    | none => rw [hs] at hp; simp at hp
    | some src =>
      rw [hs] at hp
      simp only [Option.map_some', Option.some.injEq] at hp
      subst hp
      exact ⟨src, rfl, by simp [callsOf, SourceProg.stepsTo]⟩

theorem parInv_done {ρ σ : Type} (sources : List (SourceProg ρ))
    (onRow : σ → ρ → σ × (Bool × Option GoError)) (st : σ) (s : ParState ρ σ)
    (h : ParInv sources onRow st s) (hall : s.progs.all Option.isNone = true) :
    (s.arrivals.map Prod.fst).Perm (List.range sources.length) := by
  obtain ⟨hlen, hnd, hmem, _⟩ := h
  rw [List.perm_ext_iff_of_nodup hnd (List.nodup_range _)]
  intro a
  rw [hmem a, List.mem_range]
  rw [List.all_eq_true] at hall
  constructor
  · intro ha
    by_contra hge
    rw [List.getElem?_eq_none (by omega)] at ha
    exact Option.noConfusion ha
  · intro ha
    have hlt : a < s.progs.length := by omega
    have hx := hall (s.progs[a]) (List.getElem_mem hlt)
    rw [List.getElem?_eq_getElem hlt]
    cases hp : s.progs[a] with
    | none => rfl
    | some p => rw [hp] at hx; simp at hx

theorem parRun_append {ρ σ : Type} (onRow : σ → ρ → σ × (Bool × Option GoError))
    (a b : List Nat) (s : ParState ρ σ) :
    parRun onRow (a ++ b) s = parRun onRow b (parRun onRow a s) := by
  unfold parRun
  rw [List.foldl_append]

theorem parRun_length {ρ σ : Type} (onRow : σ → ρ → σ × (Bool × Option GoError))
    (sched : List Nat) :
    ∀ s : ParState ρ σ, (parRun onRow sched s).progs.length = s.progs.length := by
  induction sched with
  | nil => intro s; rfl
  | cons i rest ih =>
    intro s
    show (parRun onRow rest (parStep onRow s i)).progs.length = s.progs.length
    rw [ih, parStep_length]

theorem finishOne {ρ σ : Type} (onRow : σ → ρ → σ × (Bool × Option GoError)) (i : Nat) :
    ∀ (p : SourceProg ρ) (s : ParState ρ σ), s.progs[i]? = some (some p) →
      ∃ ext, (parRun onRow ext s).progs = s.progs.set i none := by
  intro p
  induction p with
  | done err =>
    intro s h
    refine ⟨[i], ?_⟩
    simp [parRun, parStep, h]
  | call row k ih =>
    intro s h
    have hilt : i < s.progs.length := by
      by_contra hge
      rw [List.getElem?_eq_none (by omega)] at h
      exact Option.noConfusion h
    have hstep : (parStep onRow s i).progs =
        s.progs.set i (some (k (onRow s.st row).2.1 (onRow s.st row).2.2)) := by
      simp [parStep, h]
    have hnext : (parStep onRow s i).progs[i]? =
        some (some (k (onRow s.st row).2.1 (onRow s.st row).2.2)) := by
      rw [hstep, List.getElem?_set_self hilt]
    obtain ⟨ext, hext⟩ := ih _ _ (parStep onRow s i) hnext
    refine ⟨i :: ext, ?_⟩
    show (parRun onRow ext (parStep onRow s i)).progs = s.progs.set i none
    rw [hext, hstep, List.set_set]

theorem finishUpTo {ρ σ : Type} (onRow : σ → ρ → σ × (Bool × Option GoError)) :
    ∀ (j : Nat) (s : ParState ρ σ),
      ∃ ext, ∀ i, i < j → i < s.progs.length → (parRun onRow ext s).progs[i]? = some none := by
  intro j
  induction j with
  | zero => intro s; exact ⟨[], fun i hi => absurd hi (by omega)⟩
  | succ j ih =>
    intro s
    obtain ⟨ext1, h1⟩ := ih s
    have hlen1 := parRun_length onRow ext1 s
    by_cases hj : j < s.progs.length
    · cases hp : (parRun onRow ext1 s).progs[j]? with
      | none =>
        rw [List.getElem?_eq_none_iff] at hp
        omega
      | some o =>
        cases o with
        | none =>
          refine ⟨ext1, fun i hi hil => ?_⟩
          by_cases hij : i = j
          · rw [hij]; exact hp
          · exact h1 i (by omega) hil
        | some p =>
          obtain ⟨ext2, h2⟩ := finishOne onRow j p _ hp
          refine ⟨ext1 ++ ext2, fun i hi hil => ?_⟩
          rw [parRun_append, h2, List.getElem?_set]
          by_cases hij : j = i
          · rw [if_pos hij, if_pos (by omega)]
          · rw [if_neg hij]
            exact h1 i (by omega) hil
    · exact ⟨ext1, fun i hi hil => h1 i (by omega) hil⟩

theorem finishAll {ρ σ : Type} (onRow : σ → ρ → σ × (Bool × Option GoError))
    (s : ParState ρ σ) : ∃ ext, (parRun onRow ext s).progs.all Option.isNone = true := by
  obtain ⟨ext, h⟩ := finishUpTo onRow s.progs.length s
  refine ⟨ext, ?_⟩
  rw [List.all_eq_true]
  intro x hx
  obtain ⟨m, hm⟩ := List.mem_iff_getElem?.mp hx
  have hlt : m < s.progs.length := by
    by_contra hge
    rw [List.getElem?_eq_none (by rw [parRun_length]; omega)] at hm
    exact Option.noConfusion hm
  rw [h m hlt hlt] at hm
  simp only [Option.some.injEq] at hm
  rw [← hm]
  rfl


theorem parallelLoop_collects {ρ σ : Type} (onRow : σ → ρ → σ × (Bool × Option GoError))
    (sources : List (SourceProg ρ)) (st : σ) :
    CollectsAllErrors sources onRow st (fun sched => parallelLoop onRow sources sched st) := by
  constructor
  · intro sched r hr
    unfold parallelLoop at hr
    dsimp only at hr
    split at hr
    · rename_i hall
      simp only [Option.some.injEq] at hr
      subst hr
      dsimp only
      have hinv := parRun_inv sources onRow st sched _ (parInv_init sources onRow st)
      obtain ⟨_, _, _, hans, hidx, _, harr⟩ := id hinv
      refine ⟨hans, hidx, parInv_done sources onRow st _ hinv hall, harr,
        collectErrors_eq _, ?_⟩
      rw [collectErrors_eq, lastNonNil_eq_none]
      simp only [List.mem_map, Prod.exists, exists_eq_right, forall_exists_index, Prod.forall]
      exact ⟨fun h a b hab => h b a hab, fun h b a hab => h a b hab⟩
    · exact Option.noConfusion hr
  · intro sched
    obtain ⟨ext, hext⟩ := finishAll onRow (parRun onRow sched
      { progs := sources.map some, st := st, calls := [], arrivals := [] })
    refine ⟨ext, ?_⟩
    unfold parallelLoop
    dsimp only
    rw [parRun_append, if_pos hext]
    rfl

theorem firstError_eq_none {ρ σ : Type} (runs : List (StageResult ρ σ)) :
    firstError runs = none ↔ ∀ x ∈ runs, x.err = none := by
  induction runs with
  | nil => simp [firstError]
  | cons r rest ih =>
    unfold firstError
    cases hr : r.err with
    | some e => simp [hr]
    | none => simp [hr, ih]

theorem serialLoop_stops {ρ σ : Type} (onRow : σ → ρ → σ × (Bool × Option GoError))
    (sources : List (SourceProg ρ)) (st : σ) :
    StopsAtFirstError (sourceRuns onRow sources st) (serialLoop onRow sources st) := by
  obtain ⟨h1, h2⟩ := serialLoop_runs onRow sources st
  refine ⟨h1, h2, ?_⟩
  rw [h2]
  exact firstError_eq_none _


/-- C14, as the code has it. Error collection in a multi-source stage: `iterateParallel`
over two or more sources iterates every source to its end whatever the others return
(the invocations that each source made lead its program to the result that it sent),
and returns the last non-nil error among the sources' results in the order they are
received (nil exactly when every source returned nil); `iterateSerial` stops at the
first source that returns a non-nil error and returns that error, the sources after it
not being iterated (nil exactly when every source returned nil). -/
theorem stage_error_collection {σ : Type} (rc : rowConnectable) (fc : flatRowConnectable)
    (lock : Bool) (onRow : σ → Row → σ × (Bool × Option GoError))
    (onFlatRow : σ → FlatRow → σ × (Bool × Option GoError)) (st : σ)
    (hr : 2 ≤ rc.sources.length) (hf : 2 ≤ fc.sources.length) :
    CollectsAllErrors rc.sources onRow st
        (fun sched => rc.iterateParallel lock onRow sched st) ∧
      CollectsAllErrors fc.sources onFlatRow st
        (fun sched => fc.iterateParallel lock onFlatRow sched st) ∧
      StopsAtFirstError (sourceRuns onRow rc.sources st) (rc.iterateSerial onRow st) ∧
      StopsAtFirstError (sourceRuns onFlatRow fc.sources st)
        (fc.iterateSerial onFlatRow st) := by
  have e1 : (fun sched => rc.iterateParallel lock onRow sched st) =
      fun sched => parallelLoop onRow rc.sources sched st := by
    funext sched
    unfold rowConnectable.iterateParallel
    rw [if_neg (by omega)]
    cases lock <;> rfl
  have e2 : (fun sched => fc.iterateParallel lock onFlatRow sched st) =
      fun sched => parallelLoop onFlatRow fc.sources sched st := by
    funext sched
    unfold flatRowConnectable.iterateParallel
    rw [if_neg (by omega)]
    cases lock <;> rfl
  refine ⟨?_, ?_, serialLoop_stops _ rc.sources st, serialLoop_stops _ fc.sources st⟩
  · rw [e1]; exact parallelLoop_collects _ rc.sources st
  · rw [e2]; exact parallelLoop_collects _ fc.sources st

/-- Two sources of one row each that return the errors 1 and 2: when their steps
alternate, both rows are delivered and error 2, received last, is returned; when the
second source runs first, error 1 is returned. -/
theorem stage_error_collection_witness :
    2 ≤ (rowConnectable.mk [SourceProg.ofRows (some (.custom 1)) [Row.mk [1] []],
        SourceProg.ofRows (some (.custom 2)) [Row.mk [2] []]]).sources.length ∧
      ((rowConnectable.mk [SourceProg.ofRows (some (.custom 1)) [Row.mk [1] []],
        SourceProg.ofRows (some (.custom 2)) [Row.mk [2] []]]).iterateParallel true
          scenario.keepGoing [0, 1, 0, 1] 0).map
            (fun r => (r.calls.map (fun c => (c.1, c.2.row.key)), r.arrivals, r.err))
        = some ([(0, [1]), (1, [2])], [(0, some (.custom 1)), (1, some (.custom 2))],
            some (.custom 2)) ∧
      ((rowConnectable.mk [SourceProg.ofRows (some (.custom 1)) [Row.mk [1] []],
        SourceProg.ofRows (some (.custom 2)) [Row.mk [2] []]]).iterateParallel true
          scenario.keepGoing [1, 1, 0, 0] 0).map
            (fun r => (r.calls.map (fun c => (c.1, c.2.row.key)), r.arrivals, r.err))
        = some ([(1, [2]), (0, [1])], [(1, some (.custom 2)), (0, some (.custom 1))],
            some (.custom 1)) ∧
      CollectsAllErrors
        (rowConnectable.mk [SourceProg.ofRows (some (.custom 1)) [Row.mk [1] []],
          SourceProg.ofRows (some (.custom 2)) [Row.mk [2] []]]).sources scenario.keepGoing 0
        (fun sched =>
          (rowConnectable.mk [SourceProg.ofRows (some (.custom 1)) [Row.mk [1] []],
            SourceProg.ofRows (some (.custom 2)) [Row.mk [2] []]]).iterateParallel true
              scenario.keepGoing sched 0) :=
  ⟨by decide, by decide, by decide,
    (stage_error_collection
      (rowConnectable.mk [SourceProg.ofRows (some (.custom 1)) [Row.mk [1] []],
        SourceProg.ofRows (some (.custom 2)) [Row.mk [2] []]])
      (flatRowConnectable.mk [SourceProg.ofRows none [], SourceProg.ofRows none []])
      true scenario.keepGoing scenario.keepGoing 0 (by decide) (by decide)).1⟩

/-- C14, as stated, fails for `iterateSerial`: of two sources that return the errors 1
and 2, only the first is iterated and error 1 is returned, where the claim has both
iterated and the last non-nil error, 2, returned. -/
theorem serial_stage_returns_first_error :
    ((rowConnectable.mk [SourceProg.ofRows (some (.custom 1)) [Row.mk [1] []],
        SourceProg.ofRows (some (.custom 2)) [Row.mk [2] []]]).iterateSerial
          scenario.keepGoing 0).calls.map (fun c => c.row.key) = [[1]] ∧
      ((rowConnectable.mk [SourceProg.ofRows (some (.custom 1)) [Row.mk [1] []],
        SourceProg.ofRows (some (.custom 2)) [Row.mk [2] []]]).iterateSerial
          scenario.keepGoing 0).err = some (.custom 1) ∧
      lastNonNil ((sourceRuns scenario.keepGoing
        [SourceProg.ofRows (some (.custom 1)) [Row.mk [1] []],
          SourceProg.ofRows (some (.custom 2)) [Row.mk [2] []]] 0).map (fun r => r.err)) =
        some (.custom 2) := by
  refine ⟨?_, ?_, ?_⟩ <;> decide

end core


/-! ## The flush policy -/

theorem nonVirtualSizes_fold (tables : List table) :
    ∀ (acc : byCurrentSize) (x : memStoreSize),
      x ∈ tables.foldl (fun sizes table =>
        if !table.Virtual then sizes ++ [{ t := table, size := table.memStoreSize }]
        else sizes) acc ↔
      x ∈ acc ∨ ∃ t ∈ tables, t.Virtual = false ∧ x = { t := t, size := t.memStoreSize } := by
  induction tables with
  | nil => intro acc x; simp
  | cons t rest ih =>
    intro acc x
    rw [List.foldl_cons, ih]
    cases hv : t.Virtual with
    | true =>
      simp only [Bool.not_true, Bool.false_eq_true, if_false, List.mem_cons]
      constructor
      · rintro (h | ⟨t', ht', hv', hx⟩)
        · exact Or.inl h
        · exact Or.inr ⟨t', Or.inr ht', hv', hx⟩
      · rintro (h | ⟨t', ht', hv', hx⟩)
        · exact Or.inl h
        · rcases ht' with rfl | ht'
          · rw [hv] at hv'; exact Bool.noConfusion hv'
          · exact Or.inr ⟨t', ht', hv', hx⟩
    | false =>
      simp only [Bool.not_false, if_true, List.mem_append, List.mem_singleton, List.mem_cons,
        List.not_mem_nil, or_false]
      constructor
      · rintro ((h | h) | ⟨t', ht', hv', hx⟩)
        · exact Or.inl h
        · exact Or.inr ⟨t, Or.inl rfl, hv, h⟩
        · exact Or.inr ⟨t', Or.inr ht', hv', hx⟩
      · rintro (h | ⟨t', ht', hv', hx⟩)
        · exact Or.inl (Or.inl h)
        · rcases ht' with rfl | ht'
          · exact Or.inl (Or.inr hx)
          · exact Or.inr ⟨t', ht', hv', hx⟩

theorem mem_nonVirtualSizes (tables : List table) (x : memStoreSize) :
    x ∈ nonVirtualSizes tables ↔
      ∃ t ∈ tables, t.Virtual = false ∧ x = { t := t, size := t.memStoreSize } := by
  unfold nonVirtualSizes
  rw [nonVirtualSizes_fold]
  simp

theorem byCurrentSize_insertionSort_sorts (l : byCurrentSize) :
    (byCurrentSize.insertionSort l).Perm l ∧
      (byCurrentSize.insertionSort l).Pairwise (fun a b => byCurrentSize.Less b a = false) := by
  haveI : IsTotal memStoreSize (fun a b => byCurrentSize.Less b a = false) :=
    ⟨fun a b => by
      simp only [byCurrentSize.Less, decide_eq_false_iff_not, gt_iff_lt, not_lt]
      omega⟩
  haveI : IsTrans memStoreSize (fun a b => byCurrentSize.Less b a = false) :=
    ⟨fun a b c h1 h2 => by
      simp only [byCurrentSize.Less, decide_eq_false_iff_not, gt_iff_lt, not_lt] at *
      omega⟩
  exact ⟨List.perm_insertionSort _ _, List.sorted_insertionSort _ _⟩


/-- C15, as the code has it. Flush policy target: for every set of tables of which at
least one is not virtual, when `MaxMemoryRatio > 0` and the sampled heap-in-use exceeds
`maxMemoryBytes`, `capMemStoreSize` force-flushes exactly one table, which is not virtual
and whose memstore size is greater than or equal to that of every non-virtual table;
when `MaxMemoryRatio <= 0` or memory is within the limit, no table is flushed. -/
theorem cap_flushes_largest_memstore (MaxMemoryRatio : ℚ) (maxMemoryBytes : Nat)
    (sortSizes : byCurrentSize → byCurrentSize) (tables : List table) (memory : Nat)
    (hsort : ∀ l, (sortSizes l).Perm l ∧
      (sortSizes l).Pairwise (fun a b => byCurrentSize.Less b a = false)) :
    (0 < MaxMemoryRatio → maxMemoryBytes < memory →
      (∃ t ∈ tables, t.Virtual = false) →
      ∃ t, DB.capMemStoreSize MaxMemoryRatio maxMemoryBytes sortSizes tables memory =
          .done [t] ∧
        t ∈ tables ∧ t.Virtual = false ∧
        ∀ t' ∈ tables, t'.Virtual = false → t'.memStoreSize ≤ t.memStoreSize) ∧
    (MaxMemoryRatio ≤ 0 ∨ memory ≤ maxMemoryBytes →
      DB.capMemStoreSize MaxMemoryRatio maxMemoryBytes sortSizes tables memory = .done []) := by
  constructor
  · intro hratio hmem ⟨t0, ht0, hv0⟩
    obtain ⟨hperm, hsorted⟩ := hsort (nonVirtualSizes tables)
    have hin0 : ({ t := t0, size := t0.memStoreSize } : memStoreSize) ∈
        sortSizes (nonVirtualSizes tables) :=
      hperm.mem_iff.mpr ((mem_nonVirtualSizes tables _).mpr ⟨t0, ht0, hv0, rfl⟩)
    unfold DB.capMemStoreSize
    rw [if_neg (by linarith)]
    dsimp only
    rw [if_pos hmem]
    cases hs : sortSizes (nonVirtualSizes tables) with
    | nil => rw [hs] at hin0; simp at hin0
    | cons first rest =>
      rw [hs] at hperm hsorted
      have hfirst : first ∈ nonVirtualSizes tables :=
        hperm.mem_iff.mp (List.mem_cons_self _ _)
      obtain ⟨t, ht, hv, hx⟩ := (mem_nonVirtualSizes tables first).mp hfirst
      refine ⟨first.t, rfl, ?_, ?_, ?_⟩
      · rw [hx]; exact ht
      · rw [hx]; exact hv
      · intro t' ht' hv'
        have hin : ({ t := t', size := t'.memStoreSize } : memStoreSize) ∈ first :: rest :=
          hperm.mem_iff.mpr ((mem_nonVirtualSizes tables _).mpr ⟨t', ht', hv', rfl⟩)
        have hfs : first.t.memStoreSize = first.size := by rw [hx]
        rw [hfs]
        rcases List.mem_cons.mp hin with h | h
        · rw [← h]
        · have := (List.pairwise_cons.mp hsorted).1 _ h
          simp only [byCurrentSize.Less, decide_eq_false_iff_not, gt_iff_lt, not_lt] at this
          exact this
  · intro h
    unfold DB.capMemStoreSize
    by_cases hr : MaxMemoryRatio ≤ 0
    · rw [if_pos hr]
    · rw [if_neg hr]
      dsimp only
      rcases h with h | h
      · exact absurd h hr
      · rw [if_neg (by omega)]

/-- Three tables of sizes 10, 30 and, for the virtual one, 99, with the ratio 1/2: when
50 bytes are allowed and 60 are in use, the table of size 30 is flushed; when 7 bytes
are allowed and 7 are in use, none is. -/
theorem cap_flushes_largest_memstore_witness :
    (0 : ℚ) < 1 / 2 ∧ (50 : Nat) < 60 ∧
      (∃ t ∈ [table.mk "a" false 10, table.mk "b" false 30, table.mk "v" true 99],
        t.Virtual = false) ∧
      (∃ t, DB.capMemStoreSize (1 / 2) 50 byCurrentSize.insertionSort
          [table.mk "a" false 10, table.mk "b" false 30, table.mk "v" true 99] 60 = .done [t] ∧
        t ∈ [table.mk "a" false 10, table.mk "b" false 30, table.mk "v" true 99] ∧
        t.Virtual = false ∧
        ∀ t' ∈ [table.mk "a" false 10, table.mk "b" false 30, table.mk "v" true 99],
          t'.Virtual = false → t'.memStoreSize ≤ t.memStoreSize) ∧
      DB.capMemStoreSize (1 / 2) 7 byCurrentSize.insertionSort
        [table.mk "a" false 10, table.mk "b" false 30, table.mk "v" true 99] 7 = .done [] :=
  ⟨by norm_num, by decide, ⟨table.mk "a" false 10, by simp, rfl⟩,
    (cap_flushes_largest_memstore (1 / 2) 50 byCurrentSize.insertionSort
      [table.mk "a" false 10, table.mk "b" false 30, table.mk "v" true 99] 60
      byCurrentSize_insertionSort_sorts).1 (by norm_num) (by decide)
      ⟨table.mk "a" false 10, by simp, rfl⟩,
    (cap_flushes_largest_memstore (1 / 2) 7 byCurrentSize.insertionSort
      [table.mk "a" false 10, table.mk "b" false 30, table.mk "v" true 99] 7
      byCurrentSize_insertionSort_sorts).2 (Or.inr (by decide))⟩

/-- C15, as stated, fails: when the only table is virtual (or there is no table), the
ratio is 1/2 and 60 bytes are in use of the 50 allowed, no table is flushed: `sizes` is
empty and `sizes[0]` is out of range. -/
theorem cap_without_non_virtual_table :
    DB.capMemStoreSize (1 / 2) 50 byCurrentSize.insertionSort [table.mk "v" true 99] 60 =
        .panicked ∧
      DB.capMemStoreSize (1 / 2) 50 byCurrentSize.insertionSort [] 60 = .panicked ∧
      ¬ ∃ t, DB.capMemStoreSize (1 / 2) 50 byCurrentSize.insertionSort
        [table.mk "v" true 99] 60 = .done [t] := by
  have h1 : DB.capMemStoreSize (1 / 2) 50 byCurrentSize.insertionSort
      [table.mk "v" true 99] 60 = .panicked := by
    unfold DB.capMemStoreSize
    rw [if_neg (by norm_num)]
    dsimp only
    rw [if_pos (by decide)]
    rfl
  have h2 : DB.capMemStoreSize (1 / 2) 50 byCurrentSize.insertionSort [] 60 = .panicked := by
    unfold DB.capMemStoreSize
    rw [if_neg (by norm_num)]
    dsimp only
    rw [if_pos (by decide)]
    rfl
  refine ⟨h1, h2, ?_⟩
  rintro ⟨t, ht⟩
  rw [h1] at ht
  exact FlushOutcome.noConfusion ht


/-! ## Sequences: folding and truncation -/

theorem keepFrom_spec (resolution truncateBefore : Int) (hres : 0 < resolution) :
    ∀ (vals : List float64) (t : Int),
      (keepFrom resolution truncateBefore t vals).length ≤ vals.length ∧
      (∀ i : Nat, i < (keepFrom resolution truncateBefore t vals).length →
        truncateBefore ≤ t - i * resolution ∧
        (keepFrom resolution truncateBefore t vals).getD i 0 = vals.getD i 0) ∧
      (truncateBefore ≤ t - ((vals.length : Int) - 1) * resolution →
        keepFrom resolution truncateBefore t vals = vals)
  | [], t => by simp [keepFrom]
  | v :: rest, t => by
    unfold keepFrom
    by_cases h : t < truncateBefore
    · rw [if_pos h]
      refine ⟨by simp, fun i hi => absurd hi (by simp), fun hall => ?_⟩
      have : 0 ≤ ((rest.length : Int)) * resolution :=
        Int.mul_nonneg (Int.ofNat_nonneg _) (le_of_lt hres)
      simp only [List.length_cons, Nat.cast_add, Nat.cast_one, add_sub_cancel_right] at hall
      omega
    · rw [if_neg h]
      obtain ⟨ih1, ih2, ih3⟩ := keepFrom_spec resolution truncateBefore hres rest (t - resolution)
      refine ⟨by simp only [List.length_cons]; omega, fun i hi => ?_, fun hall => ?_⟩
      · cases i with
        | zero => exact ⟨by simp; omega, rfl⟩
        | succ j =>
          simp only [List.length_cons, Nat.add_lt_add_iff_right] at hi
          obtain ⟨h1, h2⟩ := ih2 j hi
          refine ⟨?_, by simpa using h2⟩
          have e : t - ((j + 1 : Nat) : Int) * resolution
              = t - resolution - (j : Int) * resolution := by push_cast; ring
          rw [e]
          exact h1
      · rw [ih3]
        simp only [List.length_cons, Nat.cast_add, Nat.cast_one, add_sub_cancel_right] at hall
        have e : t - resolution - ((rest.length : Int) - 1) * resolution
            = t - (rest.length : Int) * resolution := by ring
        rw [e]
        exact hall

theorem valueAtTime_nil (seq : sequence) (resolution t : Int) (h : seq.vals = []) :
    seq.valueAtTime resolution t = 0 := by
  unfold sequence.valueAtTime sequence.valueAt
  rw [h]
  split <;> rfl

theorem valueAtTime_mul (seq : sequence) (resolution a c : Int) (hres : 0 < resolution)
    (hs : seq.startTS = resolution * a) :
    seq.valueAtTime resolution (resolution * c) =
      if c ≤ a then seq.valueAt (a - c).toNat else 0 := by
  unfold sequence.valueAtTime
  have e : seq.startTS - resolution * c = resolution * (a - c) := by rw [hs]; ring
  have hle : resolution * c ≤ seq.startTS ↔ c ≤ a := by
    rw [hs]
    exact mul_le_mul_left hres
  rw [e, Int.mul_emod_right, Int.mul_ediv_cancel_left _ (ne_of_gt hres)]
  simp only [hle, and_true]


theorem alignDown_eq (ts resolution : Int) :
    alignDown ts resolution = resolution * (ts / resolution) := by
  unfold alignDown
  have := Int.ediv_add_emod ts resolution
  omega

theorem fold_spec (resolution a b : Int) (v : float64) (hres : 0 < resolution) (seq : sequence)
    (hs : seq.vals = [] ∨ seq.startTS = resolution * a) :
    ∃ x : Int, (seq.fold (resolution * b) v resolution).startTS = resolution * x ∧
      (seq.fold (resolution * b) v resolution).vals ≠ [] ∧
      ∀ i : Nat, i < (seq.fold (resolution * b) v resolution).vals.length →
        (seq.fold (resolution * b) v resolution).valueAt i =
          if x - i = b then v else seq.valueAtTime resolution (resolution * (x - i)) := by
  unfold sequence.fold
  by_cases hnil : seq.vals = []
  · rw [if_pos hnil]
    refine ⟨b, rfl, by simp, fun i hi => ?_⟩
    simp only [List.length_singleton, Nat.lt_one_iff] at hi
    subst hi
    simp [sequence.valueAt]
  · rw [if_neg hnil]
    have hst : seq.startTS = resolution * a := by
      rcases hs with h | h
      · exact absurd h hnil
      · exact h
    have hne : resolution ≠ 0 := ne_of_gt hres
    have hlenpos : 0 < seq.vals.length := List.length_pos.mpr hnil
    by_cases hgt : resolution * b > seq.startTS
    · rw [if_pos hgt]
      have hab : a < b := by
        rw [hst] at hgt
        exact lt_of_mul_lt_mul_left hgt (le_of_lt hres)
      have hgap : (resolution * b - seq.startTS) / resolution = b - a := by
        rw [hst, show resolution * b - resolution * a = resolution * (b - a) by ring,
          Int.mul_ediv_cancel_left _ hne]
      dsimp only
      rw [hgap]
      obtain ⟨g, hg⟩ : ∃ g : Nat, b - a = (g : Int) + 1 := ⟨(b - a - 1).toNat, by omega⟩
      have hgn : (b - a).toNat = g + 1 := by omega
      rw [hgn, Nat.add_sub_cancel]
      refine ⟨b, rfl, by simp, fun i hi => ?_⟩
      cases i with
      | zero => simp [sequence.valueAt]
      | succ j =>
        have hcond : ¬ (b - ((j + 1 : Nat) : Int) = b) := by push_cast; omega
        rw [if_neg hcond, valueAtTime_mul seq resolution a _ hres hst]
        unfold sequence.valueAt
        rw [List.getD_cons_succ]
        by_cases hj : j < g
        · have hc : ¬ (b - ((j + 1 : Nat) : Int) ≤ a) := by push_cast; omega
          rw [List.getD_append _ _ _ _ (show j < (List.replicate g (0 : float64)).length by
            simpa using hj), core.getD_replicate _ _ _, if_neg hc]
        · have hc : b - ((j + 1 : Nat) : Int) ≤ a := by push_cast; omega
          rw [List.getD_append_right _ _ _ _ (show (List.replicate g (0 : float64)).length ≤ j by
            simp; omega), if_pos hc]
          have e : (a - (b - ((j + 1 : Nat) : Int))).toNat
              = j - (List.replicate g (0 : float64)).length := by
            simp only [List.length_replicate]
            push_cast
            omega
          rw [e]
    · rw [if_neg hgt]
      have hba : b ≤ a := by
        rw [hst] at hgt
        have : resolution * b ≤ resolution * a := by omega
        exact le_of_mul_le_mul_left this hres
      have hidx : (seq.startTS - resolution * b) / resolution = a - b := by
        rw [hst, show resolution * a - resolution * b = resolution * (a - b) by ring,
          Int.mul_ediv_cancel_left _ hne]
      dsimp only
      rw [hidx]
      obtain ⟨d, hd⟩ : ∃ d : Nat, a - b = (d : Int) := ⟨(a - b).toNat, by omega⟩
      have hdn : (a - b).toNat = d := by omega
      rw [hdn]
      have hvt : ∀ i : Nat, seq.valueAtTime resolution (resolution * (a - (i : Int)))
          = seq.vals.getD i 0 := by
        intro i
        have hc : a - (i : Int) ≤ a := by omega
        have e : (a - (a - (i : Int))).toNat = i := by omega
        rw [valueAtTime_mul seq resolution a _ hres hst, if_pos hc, e]
        rfl
      by_cases hin : d < seq.vals.length
      · rw [if_pos hin]
        refine ⟨a, hst, ?_, fun i hi => ?_⟩
        · intro h
          have := congrArg List.length h
          rw [List.length_set, List.length_nil] at this
          omega
        · rw [hvt i]
          unfold sequence.valueAt
          dsimp only
          rw [core.getD_set _ _ _ _ _ hin]
          by_cases hi2 : i = d
          · have hc : a - (i : Int) = b := by omega
            rw [if_pos hi2, if_pos hc]
          · have hc : ¬ (a - (i : Int) = b) := by omega
            rw [if_neg hi2, if_neg hc]
      · rw [if_neg hin]
        refine ⟨a, hst, by simp, fun i hi => ?_⟩
        dsimp only at hi
        simp only [List.length_append, List.length_replicate, List.length_singleton] at hi
        rw [hvt i]
        unfold sequence.valueAt
        dsimp only
        by_cases h1 : i < seq.vals.length
        · have hc : ¬ (a - (i : Int) = b) := by omega
          rw [List.append_assoc, List.getD_append _ _ _ _ h1, if_neg hc]
        · by_cases h2 : i < d
          · have hc : ¬ (a - (i : Int) = b) := by omega
            have hl : i < (seq.vals ++ List.replicate (d - seq.vals.length) (0 : float64)).length := by
              simp only [List.length_append, List.length_replicate]
              omega
            have hl2 : seq.vals.length ≤ i := by omega
            rw [List.getD_append _ _ _ _ hl, List.getD_append_right _ _ _ _ hl2,
              core.getD_replicate _ _ _, if_neg hc, List.getD_eq_default _ _ hl2]
          · have h3 : i = d := by omega
            have hc : a - (i : Int) = b := by omega
            have hl : (seq.vals ++ List.replicate (d - seq.vals.length) (0 : float64)).length ≤ i := by
              simp only [List.length_append, List.length_replicate]
              omega
            have hz : i - (seq.vals ++ List.replicate (d - seq.vals.length) (0 : float64)).length
                = 0 := by
              simp only [List.length_append, List.length_replicate]
              omega
            rw [List.getD_append_right _ _ _ _ hl, if_pos hc, hz]
            rfl


theorem truncate_spec (seq : sequence) (resolution truncateBefore : Int) (hres : 0 < resolution) :
    (seq.truncate resolution truncateBefore).startTS = seq.startTS ∧
      (seq.truncate resolution truncateBefore).vals.length ≤ seq.vals.length ∧
      ∀ i : Nat, i < (seq.truncate resolution truncateBefore).vals.length →
        truncateBefore ≤ seq.startTS - i * resolution ∧
        (seq.truncate resolution truncateBefore).valueAt i = seq.valueAt i := by
  obtain ⟨h1, h2, _⟩ := keepFrom_spec resolution truncateBefore hres seq.vals seq.startTS
  exact ⟨rfl, h1, h2⟩


theorem fold_start (seq : sequence) (ts : Int) (value : float64) (resolution : Int) :
    (seq.fold ts value resolution).startTS = ts ∨
      (seq.vals ≠ [] ∧ (seq.fold ts value resolution).startTS = seq.startTS) := by
  unfold sequence.fold
  by_cases hnil : seq.vals = []
  · rw [if_pos hnil]; exact Or.inl rfl
  · rw [if_neg hnil]
    by_cases hgt : ts > seq.startTS
    · rw [if_pos hgt]; exact Or.inl rfl
    · rw [if_neg hgt]
      dsimp only
      split
      · exact Or.inr ⟨hnil, rfl⟩
      · exact Or.inr ⟨hnil, rfl⟩

theorem plus_spec (seq : sequence) (ts : Int) (value : float64) (resolution truncateBefore : Int)
    (hres : 0 < resolution) (hal : seq.aligned resolution) :
    (seq.plus (ts, value) resolution truncateBefore).start % resolution = 0 ∧
      ∀ i : Nat, i < (seq.plus (ts, value) resolution truncateBefore).numPeriods →
        truncateBefore ≤ (seq.plus (ts, value) resolution truncateBefore).start - i * resolution ∧
        (seq.plus (ts, value) resolution truncateBefore).valueAt i =
          if (seq.plus (ts, value) resolution truncateBefore).start - i * resolution
              = alignDown ts resolution then value
          else seq.valueAtTime resolution
            ((seq.plus (ts, value) resolution truncateBefore).start - i * resolution) := by
  have hne : resolution ≠ 0 := ne_of_gt hres
  have hsa : seq.vals = [] ∨ seq.startTS = resolution * (seq.startTS / resolution) := by
    rcases hal with h | h
    · exact Or.inl h
    · right
      have := Int.ediv_add_emod seq.startTS resolution
      omega
  unfold sequence.plus sequence.numPeriods sequence.start
  dsimp only
  rw [alignDown_eq]
  obtain ⟨x, f1, f2, f3⟩ := fold_spec resolution (seq.startTS / resolution) (ts / resolution)
    value hres seq hsa
  obtain ⟨t1, t2, t3⟩ := truncate_spec
    (seq.fold (resolution * (ts / resolution)) value resolution) resolution truncateBefore hres
  constructor
  · rw [t1, f1, Int.mul_emod_right]
  · intro i hi
    obtain ⟨h1, h2⟩ := t3 i hi
    rw [t1]
    refine ⟨h1, ?_⟩
    have e : (seq.fold (resolution * (ts / resolution)) value resolution).startTS
        - (i : Int) * resolution = resolution * (x - (i : Int)) := by
      rw [f1]; ring
    rw [h2, f3 i (by omega), e]
    by_cases hc : x - (i : Int) = ts / resolution
    · rw [if_pos hc, if_pos (by rw [hc])]
    · have hc2 : ¬ (resolution * (x - (i : Int)) = resolution * (ts / resolution)) :=
        fun h => hc (mul_left_cancel₀ hne h)
      rw [if_neg hc, if_neg hc2]

theorem plus_start_le (seq : sequence) (ts : Int) (value : float64)
    (resolution truncateBefore newest : Int) (hres : 0 < resolution)
    (hseq : seq.vals = [] ∨ seq.startTS ≤ newest) (hts : ts ≤ newest) :
    (seq.plus (ts, value) resolution truncateBefore).start ≤ newest := by
  unfold sequence.plus sequence.start sequence.truncate
  dsimp only
  have hal : alignDown ts resolution ≤ ts := by
    unfold alignDown
    have := Int.emod_nonneg ts (ne_of_gt hres)
    omega
  rcases fold_start seq (alignDown ts resolution) value resolution with h | ⟨hnil, h⟩
  · rw [h]; omega
  · rw [h]
    rcases hseq with h1 | h1
    · exact absurd h1 hnil
    · exact h1

/-- C16, as the specification has it. Sequence truncation: for every sequence whose start
is aligned to the (positive) resolution, and every timestamp, value and `truncateBefore`,
the sequence returned by `plus` again has an aligned start, holds no bucket whose
timestamp is before `truncateBefore`, keeps its buckets contiguous newest-first from
`start()` (index `i` is the bucket at `start() - i*resolution`, for every `i` below
`numPeriods()`), and `valueAt(i)` is the value just folded when that bucket is the one of
the aligned timestamp and otherwise what the sequence held for that bucket before (zero
where it had none); with a retention of `k` periods, `truncateBefore` being the newest
timestamp less `k` resolutions, it has at most `k + 1` periods, and at most `k` when the
newest timestamp is not on a period boundary; and with unlimited retention the five
insertions of `TestSequence` give `[1, 0, 5, 3, 0, 4]` and scenario S1 gives
`[6, 0, 0, 5, 0, 4]`, scenario S2 with its retention of 3 periods giving `[6, 0, 0]`. -/
theorem sequence_plus_truncates (seq : sequence) (ts : Int) (value : float64)
    (resolution truncateBefore : Int)
    (hres : 0 < resolution) (hal : seq.aligned resolution) :
    (seq.plus (ts, value) resolution truncateBefore).aligned resolution ∧
      (∀ i : Nat, i < (seq.plus (ts, value) resolution truncateBefore).numPeriods →
        truncateBefore ≤ (seq.plus (ts, value) resolution truncateBefore).start - i * resolution ∧
        (seq.plus (ts, value) resolution truncateBefore).valueAt i =
          if (seq.plus (ts, value) resolution truncateBefore).start - i * resolution
              = alignDown ts resolution then value
          else seq.valueAtTime resolution
            ((seq.plus (ts, value) resolution truncateBefore).start - i * resolution)) ∧
      (∀ (k : Nat) (newest : Int), (seq.vals = [] ∨ seq.startTS ≤ newest) → ts ≤ newest →
        truncateBefore = newest - k * resolution →
        (seq.plus (ts, value) resolution truncateBefore).numPeriods ≤ k + 1 ∧
        (newest % resolution ≠ 0 →
          (seq.plus (ts, value) resolution truncateBefore).numPeriods ≤ k)) ∧
      (seqtest.checkWithTruncation 6).1.vals = [1, 0, 5, 3, 0, 4] ∧
      (seqtest.checkWithTruncation 6).2 = true ∧
      (seqtest.scenarioS1 (100 * seqtest.res)).vals = [6, 0, 0, 5, 0, 4] ∧
      (seqtest.scenarioS1 (3 * seqtest.res)).vals = [6, 0, 0] := by
  obtain ⟨h1, h2⟩ := plus_spec seq ts value resolution truncateBefore hres hal
  refine ⟨Or.inr h1, h2, ?_, by decide, by decide, by decide, by decide⟩
  intro k newest hseq hts htb
  subst htb
  have hle := plus_start_le seq ts value resolution (newest - k * resolution) newest hres
    hseq hts
  constructor
  · by_contra hgt
    have hb := (h2 (k + 1) (by omega)).1
    have e : ((k + 1 : Nat) : Int) * resolution = (k : Int) * resolution + resolution := by
      push_cast; ring
    rw [e] at hb
    omega
  · intro hmod
    by_contra hgt
    have hb := (h2 k (by omega)).1
    have hne : (seq.plus (ts, value) resolution (newest - k * resolution)).start ≠ newest := by
      intro e
      rw [e] at h1
      exact hmod h1
    omega

/-- The step "Prepend" of `TestSequence`: the sequence `[2]` at the aligned epoch, the
value 1 two periods later, with a retention of 6 periods. -/
theorem sequence_plus_truncates_witness :
    (0 : Int) < seqtest.res ∧
      (sequence.mk (alignDown seqtest.epoch seqtest.res) [2]).aligned seqtest.res ∧
      ((sequence.mk (alignDown seqtest.epoch seqtest.res) [2]).plus
        (seqtest.epoch + 2 * seqtest.res, 1) seqtest.res
        (seqtest.epoch + 2 * seqtest.res - 6 * seqtest.res)).vals = [1, 0, 2] ∧
      ((sequence.mk (alignDown seqtest.epoch seqtest.res) [2]).plus
        (seqtest.epoch + 2 * seqtest.res, 1) seqtest.res
        (seqtest.epoch + 2 * seqtest.res - 6 * seqtest.res)).aligned seqtest.res :=
  ⟨by decide, Or.inr (by decide), by decide,
    (sequence_plus_truncates (sequence.mk (alignDown seqtest.epoch seqtest.res) [2])
      (seqtest.epoch + 2 * seqtest.res) 1 seqtest.res
      (seqtest.epoch + 2 * seqtest.res - 6 * seqtest.res) (by decide)
      (Or.inr (by decide))).1⟩

/-- C16, as stated, fails: with a resolution of 60 and a retention of 2 periods, the
value 7 at timestamp 120, which is on a period boundary, folded into the sequence that
holds 9 at timestamp 0, leaves the 3 periods `[7, 0, 9]`. -/
theorem sequence_retention_on_boundary :
    ((sequence.mk 0 [9]).plus (120, 7) 60 (120 - 2 * 60)).vals = [7, 0, 9] ∧
      ((sequence.mk 0 [9]).plus (120, 7) 60 (120 - 2 * 60)).numPeriods = 3 ∧
      ¬ ((sequence.mk 0 [9]).plus (120, 7) 60 (120 - 2 * 60)).numPeriods ≤ 2 := by
  refine ⟨?_, ?_, ?_⟩ <;> decide

/-- The checks of `TestSequence` against the sequence operations of the specification:
they pass for the retentions 0 to 4 and 6; with a retention of 5 periods the step
"Append deep" leaves `[1, 0, 2, 3, 0]`, the zero-filled bucket being within the retention,
where the test expects `[1, 0, 2, 3]`. In each case the sequence has at most as many
periods as the retention. -/
theorem testSequence_against_spec :
    (∀ k ∈ [0, 1, 2, 3, 4, 6], (seqtest.checkWithTruncation k).2 = true) ∧
      (∀ k ∈ [0, 1, 2, 3, 4, 5, 6], (seqtest.checkWithTruncation k).1.numPeriods ≤ k) ∧
      (seqtest.run 5).map Prod.fst =
        [[2], [1, 0, 2], [1, 0, 2, 3], [1, 0, 2, 3, 0], [1, 0, 5, 3, 0]] ∧
      (seqtest.run 5).map Prod.snd = [true, true, true, false, false] ∧
      seqtest.trunc 5 [1, 0, 2, 3, 0, 4] 4 = [1, 0, 2, 3] := by
  refine ⟨?_, ?_, ?_, ?_, ?_⟩ <;> decide


/-! ## Index safety of the crosstab -/

namespace core

theorem writeValues_succeeds (n k cti : Nat) (hA : cti * n + n ≤ k * n) :
    ∀ (v : List float64) (i : Nat) (vs : List float64), i + v.length ≤ n → vs.length = k * n + n →
      ∃ vs', writeValues n k cti i v vs = some vs' ∧ vs'.length = vs.length
  | [], i, vs, _, _ => ⟨vs, rfl, rfl⟩
  | value :: rest, i, vs, hi, hlen => by
    simp only [List.length_cons] at hi
    unfold writeValues
    dsimp only
    have h1 : cti * n + i < vs.length := by omega
    have h2 : k * n + i < (vs.set (cti * n + i) value).length := by
      rw [List.length_set]; omega
    rw [if_pos h1, if_pos h2]
    have hl : ((vs.set (cti * n + i) value).set (k * n + i)
        (float64.add ((vs.set (cti * n + i) value).getD (k * n + i) 0) value)).length
          = k * n + n := by
      rw [List.length_set, List.length_set, hlen]
    obtain ⟨vs', hw, hl'⟩ := writeValues_succeeds n k cti hA rest (i + 1) _ (by omega) hl
    exact ⟨vs', hw, by rw [hl', hl, hlen]⟩

theorem foldRow_safe {σ : Type} (n k : Nat) (ctis : List (String × Nat)) (row : crosstabRow)
    (s : LoopState σ) (cur : FlatRow) (hc : s.currentRow = some cur)
    (hlen : cur.Values.length = k * n + n) (hv : row.row.Values.length ≤ n)
    (hcti : ctisGet ctis row.ct < k) : NoPanic n k (foldRow n k ctis row s) := by
  have hA : ctisGet ctis row.ct * n + n ≤ k * n := by
    have := Nat.mul_le_mul_right n (Nat.succ_le_of_lt hcti)
    rw [Nat.succ_mul] at this
    exact this
  obtain ⟨vs', hw, hl'⟩ := writeValues_succeeds n k (ctisGet ctis row.ct) hA row.row.Values 0
    cur.Values (by omega) hlen
  unfold foldRow
  rw [hc]
  dsimp only
  rw [hw]
  refine ⟨fun _ => by simp, fun cur' hcur' => ?_⟩
  simp only [Option.some.injEq] at hcur'
  rw [← hcur']
  exact hl'.trans hlen

theorem rowStep_safe {σ : Type} (env : CrosstabEnv)
    (onRow : σ → FlatRow → σ × (Bool × Option GoError))
    (n k : Nat) (ctis : List (String × Nat)) (outFields : Fields)
    (i : Nat) (row : crosstabRow) (s : LoopState σ)
    (hlen : outFields.length = k * n + n) (hs : Safe n k s)
    (hv : row.row.Values.length ≤ n) (hcti : ctisGet ctis row.ct < k) :
    NoPanic n k (rowStep env onRow n k ctis outFields i row s) := by
  have hfresh : ∀ (a : σ) (b : List Call) (c : Bytes) (d : Int) (e : Bool),
      NoPanic n k (foldRow n k ctis row
        (LoopState.mk a b c d (some (freshRow row outFields.length outFields)) e)) := by
    intro a b c d e
    exact foldRow_safe n k ctis row _ (freshRow row outFields.length outFields) rfl
      (by simp [freshRow, hlen]) hv hcti
  unfold rowStep
  split
  · trivial
  · dsimp only
    split
    · split
      · rename_i hsub
        cases hc : s.currentRow with
        | none => exact absurd hc (hs.1 hsub)
        | some cur =>
          dsimp only
          cases hcb : onRow s.st cur with
          | mk st resp =>
            obtain ⟨more, onRowErr⟩ := resp
            dsimp only
            cases onRowErr with
            | some e => trivial
            | none =>
              dsimp only
              split
              · refine ⟨fun _ => by simp, fun cur' hcur' => ?_⟩
                have hcc : cur = cur' := by simpa using hcur'
                rw [← hcc]
                exact hs.2 cur hc
              · exact hfresh _ _ _ _ _
      · exact hfresh _ _ _ _ _
    · rename_i hnew
      cases hc : s.currentRow with
      | none => simp [hc] at hnew
      | some cur => exact foldRow_safe n k ctis row s cur hc (hs.2 cur hc) hv hcti

theorem rowLoop_safe {σ : Type} (env : CrosstabEnv)
    (onRow : σ → FlatRow → σ × (Bool × Option GoError))
    (n k : Nat) (ctis : List (String × Nat)) (outFields : Fields)
    (hlen : outFields.length = k * n + n) (rows : crosstabRows) :
    ∀ (i : Nat) (s : LoopState σ),
      (∀ r ∈ rows, r.row.Values.length ≤ n ∧ ctisGet ctis r.ct < k) → Safe n k s →
      NoPanic n k (rowLoop env onRow n k ctis outFields i rows s) := by
  induction rows with
  | nil => intro i s _ hs; exact hs
  | cons row rest ih =>
    intro i s hrows hs
    have hstep := rowStep_safe env onRow n k ctis outFields i row s hlen hs
      (hrows row (List.mem_cons_self _ _)).1 (hrows row (List.mem_cons_self _ _)).2
    unfold rowLoop
    cases hst : rowStep env onRow n k ctis outFields i row s with
    | next s1 =>
      rw [hst] at hstep
      exact ih (i + 1) s1 (fun r hr => hrows r (List.mem_cons_of_mem _ hr)) hstep
    | brk s1 => rw [hst] at hstep; exact hstep
    | ret s1 e => trivial
    | panic s1 => rw [hst] at hstep; exact hstep

theorem afterLoop_safe {σ : Type} (n k : Nat)
    (onRow : σ → FlatRow → σ × (Bool × Option GoError))
    (err : Option GoError) (s : LoopState σ) (hs : Safe n k s) :
    (afterLoop onRow err s).outcome ≠ .panicked := by
  unfold afterLoop
  split
  · rename_i hsub
    cases hc : s.currentRow with
    | none => exact absurd hc (hs.1 hsub)
    | some cur => simp
  · simp

theorem emit_safe {σ : Type} (env : CrosstabEnv) (inFields : Fields) (inRows : crosstabRows)
    (onFields : σ → Fields → σ × Option GoError)
    (onRow : σ → FlatRow → σ × (Bool × Option GoError)) (st : σ)
    (hsort : ∀ l, (env.sortRows l).Perm l)
    (hvals : ∀ r ∈ inRows, r.row.Values.length = inFields.length) :
    (crosstabber.emit env inFields inRows onFields onRow st).outcome ≠ .panicked := by
  have hlen : (buildOutFields (sortedCTs inRows) inFields).length =
      (uniqueCTs inRows).length * inFields.length + inFields.length := by
    rw [buildOutFields_length, sortedCTs_length, Nat.add_mul, Nat.one_mul]
  have hrows : ∀ r ∈ env.sortRows inRows, r.row.Values.length ≤ inFields.length ∧
      ctisGet (buildCtis (sortedCTs inRows)) r.ct < (uniqueCTs inRows).length := by
    intro r hr
    have hin : r ∈ inRows := (hsort inRows).mem_iff.mp hr
    refine ⟨le_of_eq (hvals r hin), ?_⟩
    rw [← sortedCTs_length]
    apply ctisGet_lt
    rw [mem_sortedCTs]
    exact ⟨r, hin, rfl⟩
  unfold crosstabber.emit
  dsimp only
  generalize onFields st (buildOutFields (sortedCTs inRows) inFields) = of
  obtain ⟨st1, err1⟩ := of
  cases err1 with
  | some e1 => simp
  | none =>
    dsimp only
    have hinv := rowLoop_safe env onRow inFields.length (uniqueCTs inRows).length
      (buildCtis (sortedCTs inRows)) (buildOutFields (sortedCTs inRows) inFields) hlen
      (env.sortRows inRows) 0
      (LoopState.mk st1 [Call.onFields (buildOutFields (sortedCTs inRows) inFields) none]
        [] 0 none false) hrows
      ⟨fun h => by simp at h, fun c h => by simp at h⟩
    revert hinv
    cases rowLoop env onRow inFields.length (uniqueCTs inRows).length
      (buildCtis (sortedCTs inRows)) (buildOutFields (sortedCTs inRows) inFields) 0
      (env.sortRows inRows)
      (LoopState.mk st1 [Call.onFields (buildOutFields (sortedCTs inRows) inFields) none]
        [] 0 none false) with
    | next s => intro hinv; exact afterLoop_safe _ _ onRow none s hinv
    | brk s => intro hinv; exact afterLoop_safe _ _ onRow none s hinv
    | ret s e1 => intro _; simp
    | panic s => intro hinv; exact absurd hinv (by simp [NoPanic])

end core


namespace core

theorem lookup_enumFrom_some (ct : String) :
    ∀ (cts : List String) (k : Nat), ct ∈ cts →
      ((cts.enumFrom k).map (fun p => (p.2, p.1))).lookup ct = some (k + cts.indexOf ct)
  | [], _, h => by simp at h
  | c :: rest, k, h => by
    rw [List.enumFrom_cons, List.map_cons, List.lookup_cons, List.indexOf_cons]
    by_cases hc : ct = c
    · subst hc
      simp
    · have hne : (ct == c) = false := by simpa using hc
      have hne2 : (c == ct) = false := by simpa using fun e : c = ct => hc e.symm
      have hmem : ct ∈ rest := by
        rcases List.mem_cons.mp h with h | h
        · exact absurd h hc
        · exact h
      rw [hne, hne2]
      simp only [cond_false]
      rw [lookup_enumFrom_some ct rest (k + 1) hmem]
      congr 1
      omega

theorem ctis_lookup_found (cts : List String) (ct : String) (h : ct ∈ cts) :
    (buildCtis cts).lookup ct = some (ctisGet (buildCtis cts) ct) := by
  have h1 : (buildCtis cts).lookup ct = some (0 + cts.indexOf ct) := by
    unfold buildCtis List.enum
    exact lookup_enumFrom_some ct cts 0 h
  rw [h1, ctisGet_eq_indexOf cts ct h, Nat.zero_add]

/-- C17. Crosstab index safety: when `sort.Sort` returns a permutation, each row carries
a string `_crosstab` dimension (the buffering succeeds) and exactly `len(inFields)`
values, no run of the crosstab panics: for every input row the lookup `ctis[row.ct]`
finds an index `cti < numCTs`, so `fieldIdx = cti*numInFields + i < numCTs*numInFields`
and `totalIdx = numCTs*numInFields + i < (numCTs+1)*numInFields = len(Values)` for every
`i < numInFields`, and no cell of a crosstab value is a total cell. -/
theorem crosstab_writes_in_bounds {σ : Type} (env : CrosstabEnv) (source : SourceRun)
    (onFields : σ → Fields → σ × Option GoError)
    (onRow : σ → FlatRow → σ × (Bool × Option GoError)) (st : σ)
    (hsort : ∀ l, (env.sortRows l).Perm l)
    (inFields : Fields) (inRows : crosstabRows)
    (hbuf : buffer env.split source.events ([], []) = some (inFields, inRows))
    (hvals : ∀ r ∈ inRows, r.row.Values.length = inFields.length) :
    (crosstabber.Iterate env source onFields onRow st).outcome ≠ .panicked ∧
      (buildOutFields (sortedCTs inRows) inFields).length =
        ((uniqueCTs inRows).length + 1) * inFields.length ∧
      ∀ r ∈ inRows,
        (buildCtis (sortedCTs inRows)).lookup r.ct =
          some (ctisGet (buildCtis (sortedCTs inRows)) r.ct) ∧
        ctisGet (buildCtis (sortedCTs inRows)) r.ct < (uniqueCTs inRows).length ∧
        ∀ i, i < inFields.length →
          ctisGet (buildCtis (sortedCTs inRows)) r.ct * inFields.length + i <
            (uniqueCTs inRows).length * inFields.length ∧
          (uniqueCTs inRows).length * inFields.length + i <
            ((uniqueCTs inRows).length + 1) * inFields.length ∧
          ∀ j, ctisGet (buildCtis (sortedCTs inRows)) r.ct * inFields.length + i ≠
            (uniqueCTs inRows).length * inFields.length + j := by
  refine ⟨?_, ?_, ?_⟩
  · by_cases hd : source.err = some .ErrDeadlineExceeded
    · unfold crosstabber.Iterate
      rw [hbuf]
      simp [hd]
    · rw [Iterate_of_buffer env source onFields onRow st inFields inRows hbuf hd]
      exact emit_safe env _ _ onFields onRow st hsort hvals
  · rw [buildOutFields_length, sortedCTs_length]
  · intro r hr
    have hmem : r.ct ∈ sortedCTs inRows := by
      rw [mem_sortedCTs]
      exact ⟨r, hr, rfl⟩
    have hlt : ctisGet (buildCtis (sortedCTs inRows)) r.ct < (uniqueCTs inRows).length := by
      rw [← sortedCTs_length]
      exact ctisGet_lt _ _ hmem
    have hA := Nat.mul_le_mul_right inFields.length (Nat.succ_le_of_lt hlt)
    rw [Nat.succ_mul] at hA
    refine ⟨ctis_lookup_found _ _ hmem, hlt, fun i hi => ⟨by omega, ?_, fun j => by omega⟩⟩
    rw [Nat.add_mul, Nat.one_mul]
    omega

/-- Scenario S6 without residual key: both rows carry a string `_crosstab` and one
value for the one field; the run ends without a panic. -/
theorem crosstab_writes_in_bounds_witness :
    (∀ l, (scenario.env.sortRows l).Perm l) ∧
      buffer scenario.env.split (scenario.scenarioS6NoKey none).events ([], []) =
        some ([NewField "v" { id := 0 }], scenario.bufferedS6NoKey) ∧
      (∀ r ∈ scenario.bufferedS6NoKey,
        r.row.Values.length = ([NewField "v" { id := 0 }] : Fields).length) ∧
      (crosstabber.Iterate scenario.env (scenario.scenarioS6NoKey none) scenario.acceptFields
        scenario.collect []).outcome = .returned none ∧
      (crosstabber.Iterate scenario.env (scenario.scenarioS6NoKey none) scenario.acceptFields
        scenario.collect []).outcome ≠ .panicked :=
  ⟨insertionSort_perm, by decide, by decide, by decide,
    (crosstab_writes_in_bounds scenario.env (scenario.scenarioS6NoKey none)
      scenario.acceptFields scenario.collect [] insertionSort_perm
      [NewField "v" { id := 0 }] scenario.bufferedS6NoKey (by decide) (by decide)).1⟩

end core


end Zenodb
